import Mathlib

/-!
# go-config-parser: sections, options and the configuration store

A shallow embedding of `core/parser/section.go`, `core/parser/configuration.go`
and `core/parser/parser.go`.

Modelling conventions.

* A Go `map[string]V` is an association list read through `GoMap.get?`; writing a
  key (`GoMap.set`) and `delete(m, k)` (`GoMap.del`) act on every entry of the key,
  so the usual map laws hold for every list.  The order of the list carries no
  meaning: wherever the source ranges over a map, the visiting order is an
  explicit argument.
* A Go `[]string` is the list of its visible elements.  `Section.Delete` shrinks
  the slice it is ranging over, so there the backing array and the current length
  are kept apart (`deleteStep`).
* `*Section` is an index into the list of allocated sections kept in the
  configuration (`Configuration.heap`); `addSection` allocates the next index.
* The mutexes are not modelled: every operation is taken as one atomic step.
* `regexp.MatchString` is a parameter: a pattern either fails to compile or
  denotes a predicate on names.
-/

namespace Parser

/-! ## Constants of `parser.go` -/

def CharEmpty : String := ""
def CharSpace : String := " "
def CharEqual : String := "="
def CharColon : String := ":"
def CharLSBracket : String := "["
def CharRSBracket : String := "]"
def CharEOF : String := "\n"
def SectionEmpty : String := CharLSBracket ++ CharRSBracket
def globalSection : String := "global"

/-- The write delimiter, `type Delimiter int` with its two constants. -/
inductive Delimiter where
  | EqualDelimiter
  | ColonDelimiter
deriving DecidableEq, Repr

def EqualDelimiterString : String := CharSpace ++ CharEqual ++ CharSpace
def ColonDelimiterString : String := CharSpace ++ CharColon ++ CharSpace

def DelimiterString : Delimiter → String
  | Delimiter.EqualDelimiter => EqualDelimiterString
  | Delimiter.ColonDelimiter => ColonDelimiterString

/-! ## Go maps -/

/-- A Go `map[string]V`. -/
abbrev GoMap (V : Type) := List (String × V)

/-- The lookup `v, ok := m[k]`. -/
def GoMap.get? {V : Type} : GoMap V → String → Option V
  | [], _ => none
  | (k', v) :: t, k => if k' = k then some v else GoMap.get? t k

/-- The statement `delete(m, k)`. -/
def GoMap.del {V : Type} (m : GoMap V) (k : String) : GoMap V :=
  m.filter (fun p => decide (p.1 ≠ k))

/-- The assignment `m[k] = v`. -/
def GoMap.set {V : Type} (m : GoMap V) (k : String) (v : V) : GoMap V :=
  (k, v) :: GoMap.del m k

/-! ## Sections (`section.go`) -/

/-- The struct `Section` without its mutex. -/
structure Section where
  fqn : String
  options : GoMap String
  orderedOptions : List String
deriving DecidableEq, Repr

def NewSection (fqn : String) : Section :=
  { fqn := fqn, options := [], orderedOptions := [] }

def Section.Name (s : Section) : String := s.fqn

def Section.Exists (s : Section) (option : String) : Bool :=
  (s.options.get? option).isSome

def Section.ValueOf (s : Section) (option : String) : String :=
  (s.options.get? option).getD CharEmpty

/-- The method `SetValueFor`: the section afterwards and the returned old value. -/
def Section.SetValueFor (s : Section) (option value : String) : Section × String :=
  ({ s with options := s.options.set option value }, (s.options.get? option).getD CharEmpty)

/-- The method `Add`: the section afterwards and the returned old value. -/
def Section.Add (s : Section) (option value : String) : Section × String :=
  match s.options.get? option with
  | some oldValue =>
      ({ s with options := s.options.set option value }, oldValue)
  | none =>
      ({ s with options := s.options.set option value,
                orderedOptions := s.orderedOptions ++ [option] }, CharEmpty)

def Section.Options (s : Section) : GoMap String := s.options

def Section.OptionNames (s : Section) : List String := s.orderedOptions

/-- Body of the loop `for i, opt := range s.orderedOptions` of `Delete`, at index `i`.
The state is the backing array over the length the slice had when the loop started,
together with the current length of `s.orderedOptions`.  `opt` is read from the
backing array; on a hit `append(s.orderedOptions[:i], s.orderedOptions[i+1:]...)` moves
the elements `i+1 .. len-1` one place down inside the backing array and shortens the
slice by one.  The slice expression `s.orderedOptions[i+1:]` needs `i+1 ≤ len`;
otherwise the run-time panics (`none`). -/
def deleteStep (option : String) (i : Nat) (st : List String × Nat) :
    Option (List String × Nat) :=
  if st.1.getD i CharEmpty = option then
    if i + 1 ≤ st.2 then
      some (st.1.take i ++ (st.1.drop (i + 1)).take (st.2 - (i + 1)) ++ st.1.drop (st.2 - 1),
            st.2 - 1)
    else none
  else some st

/-- The loop of `Delete` over the indices the range statement visits. -/
def deleteLoop (option : String) : List Nat → List String × Nat → Option (List String × Nat)
  | [], st => some st
  | i :: is, st =>
      match deleteStep option i st with
      | none => none
      | some st' => deleteLoop option is st'

/-- The method `Delete`: the section afterwards and the returned value, or `none`
when the run-time panics with a slice-bounds failure. -/
def Section.Delete (s : Section) (option : String) : Option (Section × String) :=
  let value := (s.options.get? option).getD CharEmpty
  let options := s.options.del option
  match deleteLoop option (List.range s.orderedOptions.length)
      (s.orderedOptions, s.orderedOptions.length) with
  | none => none
  | some st => some ({ s with options := options, orderedOptions := st.1.take st.2 }, value)

/-- The strings one pass of the loop of `Section.String` appends to `parts`. -/
def Section.optionParts (d : Delimiter) (s : Section) (opt : String) : List String :=
  let value := (s.options.get? opt).getD CharEmpty
  if value ≠ CharEmpty then [opt, DelimiterString d, value, CharEOF] else [opt, CharEOF]

/-- The slice `parts` built by `Section.String`; `d` is the package variable `delimiter`. -/
def Section.parts (d : Delimiter) (s : Section) : List String :=
  let sName :=
    if s.fqn = globalSection then CharEmpty
    else CharLSBracket ++ s.fqn ++ CharRSBracket ++ CharEOF
  s.orderedOptions.foldl (fun parts opt => parts ++ Section.optionParts d s opt) [sName]

/-- The method `String` of `Section` (`strings.Join(parts, "")`), under the name the spec
gives it, `String` being the type of Lean strings. -/
def Section.render (d : Delimiter) (s : Section) : String :=
  String.join (Section.parts d s)

/-! ### The tokenizer -/

/-- Go `strings.HasPrefix`. -/
def strings.HasPrefix (s pre : String) : Bool := pre.data.isPrefixOf s.data

/-- Go `strings.Trim`: drops the leading and trailing characters that occur in `cutset`. -/
def strings.Trim (s cutset : String) : String :=
  String.mk (((s.data.dropWhile (fun c => cutset.data.contains c)).reverse.dropWhile
    (fun c => cutset.data.contains c)).reverse)

/-- Search of `strings.Index` from position `i` on. -/
def strings.indexFrom (sub : List Char) : List Char → Nat → Option Nat
  | [], i => if sub = [] then some i else none
  | c :: cs, i => if sub.isPrefixOf (c :: cs) then some i else strings.indexFrom sub cs (i + 1)

/-- Go `strings.Index`, with `none` for `-1`.  Positions count characters; the source
only searches for the one-byte strings `=` and `:` and only slices at the result. -/
def strings.Index (s sub : String) : Option Nat := strings.indexFrom sub.data s.data 0

/-- The closure `split` of `parseOption`: `option[:i]` and `option[i+1:]`, trimmed. -/
def parseOption.split (option : String) (i : Nat) : String × String :=
  (strings.Trim (String.mk (option.data.take i)) CharSpace,
   strings.Trim (String.mk (option.data.drop (i + 1))) CharSpace)

def parseOption (option : String) : String × String :=
  match strings.Index option CharEqual with
  | some i => parseOption.split option i
  | none =>
      match strings.Index option CharColon with
      | some i => parseOption.split option i
      | none => (option, CharEmpty)

def AddOption (s : Section) (option : String) : Section :=
  let r := parseOption option
  let options :=
    if r.2 ≠ CharEmpty then s.options.set r.1 r.2 else s.options.set r.1 CharEmpty
  { s with options := options, orderedOptions := s.orderedOptions ++ [r.1] }

def IsSection (sec : String) : Bool := strings.HasPrefix sec CharLSBracket

/-! ## The configuration store (`configuration.go`) -/

/-- The errors that are returned: `throw.ErrorUnableFindSelection(fqn)` and the error
of `regexp.MatchString` for a pattern that does not compile. -/
inductive Error where
  | unableFindSelection (fqn : String)
  | regexp (pattern : String)
deriving DecidableEq, Repr

/-- The struct `Configuration` without its mutex.  A `*Section` is an index into
`heap`, the sections allocated so far; a `*list.List` is the list of its elements. -/
structure Configuration where
  filePath : String
  sections : GoMap (List Nat)
  orderedSections : List String
  heap : List Section
deriving DecidableEq, Repr

def NewConfigurationWithFP (filePath : String) : Configuration :=
  { filePath := filePath, sections := [], orderedSections := [], heap := [] }

def NewConfiguration : Configuration := NewConfigurationWithFP CharEmpty

/-- The section a `*Section` points to. -/
def Configuration.deref (c : Configuration) (p : Nat) : Parser.Section :=
  c.heap.getD p (Parser.NewSection CharEmpty)

/-- A method of `Section` run through a `*Section`. -/
def Configuration.update (c : Configuration) (p : Nat) (f : Parser.Section → Parser.Section) :
    Configuration :=
  { c with heap := c.heap.set p (f (c.deref p)) }

/-- The method `addSection`: the store afterwards and the new `*Section`. -/
def Configuration.addSection (c : Configuration) (fqn : String) : Configuration × Nat :=
  let section_ := c.heap.length
  let heap := c.heap ++ [Parser.NewSection fqn]
  match c.sections.get? fqn with
  | none =>
      ({ c with sections := c.sections.set fqn [section_],
                orderedSections := c.orderedSections ++ [fqn], heap := heap }, section_)
  | some sectionList =>
      ({ c with sections := c.sections.set fqn (sectionList ++ [section_]), heap := heap },
       section_)

def Configuration.AddSection (c : Configuration) (fqn : String) : Configuration × Nat :=
  c.addSection fqn

def Configuration.FilePath (c : Configuration) : String := c.filePath

def Configuration.SetFilePath (c : Configuration) (filePath : String) : Configuration :=
  { c with filePath := filePath }

/-- Go `regexp.MatchString(pattern, s)`: `compile pattern` is `none` for a pattern
that does not compile, and then the result is `(false, err)`. -/
def MatchString (compile : String → Option (String → Bool)) (pattern s : String) :
    Bool × Option Error :=
  match compile pattern with
  | none => (false, some (Error.regexp pattern))
  | some p => (p s, none)

/-- The loop `for key, lst := range c.sections` of `Find`; the list argument is the
order in which the run-time visits the keys (a name that is not a key is not visited),
the second the slice `sections`. -/
def Configuration.findLoop (compile : String → Option (String → Bool)) (c : Configuration)
    (regex : String) : List String → List Nat → List Nat × Option Error
  | [], sections => (sections, none)
  | key :: rest, sections =>
      match c.sections.get? key with
      | none => Configuration.findLoop compile c regex rest sections
      | some lst =>
          match MatchString compile regex key with
          | (true, _) => Configuration.findLoop compile c regex rest (sections ++ lst)
          | (false, some err) => ([], some err)
          | (false, none) => Configuration.findLoop compile c regex rest sections

/-- The method `Find`; `order` is the order in which the map is ranged over. -/
def Configuration.Find (compile : String → Option (String → Bool)) (c : Configuration)
    (order : List String) (regex : String) : List Nat × Option Error :=
  Configuration.findLoop compile c regex order []

/-- The loop `for i := len(c.orderedSections) - 1; i >= 0; i--` of `Delete` over the
indices still to visit, up to the `return` that ends the method.  `none` is an index
out of range. -/
def Configuration.deleteFrom (compile : String → Option (String → Bool)) (regex : String)
    (sections : List Nat) :
    List Nat → Configuration → Option Error → Option (Configuration × List Nat × Option Error)
  | [], c, err => some (c, sections, err)
  | i :: is, c, _ =>
      match c.orderedSections[i]? with
      | none => none
      | some name =>
          match MatchString compile regex name with
          | (true, err) =>
              Configuration.deleteFrom compile regex sections is
                { c with orderedSections :=
                    c.orderedSections.take i ++ c.orderedSections.drop (i + 1) } err
          | (false, some err) => some (c, [], some err)
          | (false, none) => Configuration.deleteFrom compile regex sections is c none

/-- The method `Delete`: the store afterwards, the returned sections and error. -/
def Configuration.Delete (compile : String → Option (String → Bool)) (c : Configuration)
    (order : List String) (regex : String) :
    Option (Configuration × List Nat × Option Error) :=
  match Configuration.Find compile c order regex with
  | (sections, none) =>
      let m := sections.foldl (fun m s => GoMap.del m (c.deref s).Name) c.sections
      Configuration.deleteFrom compile regex sections
        (List.range c.orderedSections.length).reverse { c with sections := m } none
  | (sections, some err) => some (c, sections, some err)

/-- The method `Sections`. -/
def Configuration.Sections (c : Configuration) (fqn : String) : List Nat × Option Error :=
  if fqn = CharEmpty then
    (c.orderedSections.foldl
      (fun sections fqn =>
        match c.sections.get? fqn with
        | some lst => sections ++ lst
        | none => sections) [], none)
  else
    match c.sections.get? fqn with
    | some lst => (lst, none)
    | none => ([], some (Error.unableFindSelection fqn))

def Configuration.AllSections (c : Configuration) : List Nat × Option Error :=
  c.Sections CharEmpty

/-- The method `String` of `Configuration` (the spec's `render`). -/
def Configuration.render (d : Delimiter) (c : Configuration) : String :=
  String.join (c.orderedSections.foldl
    (fun parts fqn => parts ++ (c.Sections fqn).1.map (fun p => (c.deref p).render d)) [])

/-- The method `Section` of `Configuration`: the first element of the list, if any. -/
def Configuration.Section (c : Configuration) (fqn : String) : Option Nat × Option Error :=
  match c.sections.get? fqn with
  | some (s :: _) => (some s, none)
  | _ => (none, some (Error.unableFindSelection fqn))

def Configuration.StringValue (c : Configuration) (sec option : String) :
    String × Option Error :=
  match Configuration.Section c sec with
  | (some s, none) => ((c.deref s).ValueOf option, none)
  | (_, err) => (CharEmpty, err)

def Configuration.NewSection (c : Configuration) (fqn : String) : Configuration × Nat :=
  c.addSection fqn

/-! ## Reading (`parser.go`) -/

/-- Body of the loop `for scanner.Scan()` of `Read`: the store and `activeSection`. -/
def readLine (st : Configuration × Nat) (line : String) : Configuration × Nat :=
  if line.length < 0 then st
  else if IsSection line then
    let fqn := strings.Trim line (CharSpace ++ SectionEmpty)
    Configuration.AddSection st.1 fqn
  else
    (Configuration.update st.1 st.2 (fun s => AddOption s line), st.2)

/-- The function `Read` on a file that opens and scans without error: `filePath` is the
path `path.Clean` returns, `lines` are the texts `scanner.Text()` yields, and the index
`0` of the first `AddSection` is the global section. -/
def Read (filePath : String) (lines : List String) : Configuration :=
  (lines.foldl readLine (Configuration.AddSection (NewConfigurationWithFP filePath) globalSection)).1

/-- A sample `regexp.MatchString`: the pattern `(` does not compile, every other pattern
is searched for as a plain substring.  It only serves to run the store on examples. -/
def sampleCompile (pattern : String) : Option (String → Bool) :=
  if pattern = "(" then none
  else some (fun s => s.data.tails.any (fun t => pattern.data.isPrefixOf t))

/-! ## Reference notions for the claims about sections -/

/-- A call of `Add` or of `Delete` on a section. -/
inductive SectionOp where
  | add (option value : String)
  | delete (option : String)
deriving DecidableEq, Repr

/-- Runs a sequence of calls of `Add` and `Delete`; `none` when a `Delete` panics. -/
def Section.run : Section → List SectionOp → Option Section
  | s, [] => some s
  | s, SectionOp.add k v :: ops => Section.run (s.Add k v).1 ops
  | s, SectionOp.delete k :: ops =>
      match s.Delete k with
      | none => none
      | some r => Section.run r.1 ops

/-- The order of spec §8, *order preservation*: the names that exist, by the time of the
`Add` that (re)created them.  An `Add` of a name that exists leaves the order alone, an
`Add` of a name that does not exist puts it last, a `Delete` takes the name out. -/
def creationOrderFrom : List String → List SectionOp → List String
  | names, [] => names
  | names, SectionOp.add k _ :: ops =>
      creationOrderFrom (if k ∈ names then names else names ++ [k]) ops
  | names, SectionOp.delete k :: ops =>
      creationOrderFrom (names.filter (fun x => decide (x ≠ k))) ops

def creationOrder (ops : List SectionOp) : List String := creationOrderFrom [] ops

/-- The invariant of spec §3: the keys of the mapping are the names of the ordered
sequence. -/
def Section.keysMatch (s : Section) : Prop :=
  ∀ k, k ∈ s.OptionNames ↔ s.Exists k = true

/-- The sections reached from `NewSection`, or from a store built by `Read`, by `Add`,
`AddOption`, `SetValueFor` on an option that exists, and `Delete` of a name that
`OptionNames()` holds at most once. -/
inductive Section.Reach : Section → Prop where
  | new (fqn : String) : Section.Reach (NewSection fqn)
  | read (filePath : String) (lines : List String) (s : Section) :
      s ∈ (Read filePath lines).heap → Section.Reach s
  | add (s : Section) (k v : String) : Section.Reach s → Section.Reach (s.Add k v).1
  | addOption (s : Section) (line : String) : Section.Reach s → Section.Reach (AddOption s line)
  | setValueFor (s : Section) (k v : String) :
      Section.Reach s → s.Exists k = true → Section.Reach (s.SetValueFor k v).1
  | delete (s s' : Section) (k old : String) :
      Section.Reach s → s.OptionNames.count k ≤ 1 → s.Delete k = some (s', old) →
      Section.Reach s'

/-! ## Reference notions for the claims about the store -/

/-- The invariant of spec §3 on a store: the ordered fqn sequence has no repeated entry,
it holds exactly the keys of the mapping, and no key is mapped to an empty list. -/
def Configuration.storeInv (c : Configuration) : Prop :=
  c.orderedSections.Nodup ∧
  (∀ f, f ∈ c.orderedSections ↔ (c.sections.get? f).isSome = true) ∧
  (∀ f l, c.sections.get? f = some l → l ≠ [])

/-- Every registered `*Section` is allocated and is registered under its own name
(`fqn` is set by `NewSection` in `addSection` and never assigned again). -/
def Configuration.namesAgree (c : Configuration) : Prop :=
  ∀ f l, c.sections.get? f = some l → ∀ p ∈ l, p < c.heap.length ∧ (c.deref p).Name = f

/-- No `*Section` is registered twice under a fqn: `addSection` appends the pointer of a
newly allocated section, and nothing else adds to the lists. -/
def Configuration.listsNodup (c : Configuration) : Prop :=
  ∀ f l, c.sections.get? f = some l → l.Nodup

/-- A possible order for `range c.sections`: every key of the mapping once. -/
def Configuration.rangeOrder (c : Configuration) (order : List String) : Prop :=
  order.Nodup ∧ ∀ k, k ∈ order ↔ (c.sections.get? k).isSome = true

/-- The stores reached from `NewConfiguration` (or `NewConfigurationWithFP`, or `Read`)
by `AddSection`, `NewSection` and `Delete`. -/
inductive Configuration.Reachable (compile : String → Option (String → Bool)) :
    Configuration → Prop where
  | new (filePath : String) : Configuration.Reachable compile (NewConfigurationWithFP filePath)
  | read (filePath : String) (lines : List String) :
      Configuration.Reachable compile (Read filePath lines)
  | addSection (c : Configuration) (fqn : String) :
      Configuration.Reachable compile c →
      Configuration.Reachable compile (Configuration.AddSection c fqn).1
  | newSection (c : Configuration) (fqn : String) :
      Configuration.Reachable compile c →
      Configuration.Reachable compile (Configuration.NewSection c fqn).1
  | delete (c c' : Configuration) (order : List String) (regex : String)
      (sections : List Nat) (err : Option Error) :
      Configuration.Reachable compile c → Configuration.rangeOrder c order →
      Configuration.Delete compile c order regex = some (c', sections, err) →
      Configuration.Reachable compile c'

/-- The store of the scenario of spec §8: one section `MYSQLD DEFAULT`. -/
def exampleStore : Configuration :=
  (Configuration.AddSection NewConfiguration "MYSQLD DEFAULT").1

/-! ## Reference notions for the claims about the text format -/

/-- The line `Section.String` emits for an option, without its end of line:
`name + DelimiterString(d) + value` when the value is not empty, just `name` otherwise. -/
def optionLine (d : Delimiter) (name value : String) : String :=
  if value ≠ CharEmpty then name ++ DelimiterString d ++ value else name

/-- The blocks of a text (spec §4.4): the lines before the first header line form the
block of the global section, a header line opens the block of its fqn, and every other
line belongs to the block that is open.  `fqn` and `acc` are the block that is open. -/
def blocksFrom (fqn : String) (acc : List String) : List String → List (String × List String)
  | [] => [(fqn, acc)]
  | line :: rest =>
      if IsSection line then
        (fqn, acc) :: blocksFrom (strings.Trim line (CharSpace ++ SectionEmpty)) [] rest
      else blocksFrom fqn (acc ++ [line]) rest

def blocks (lines : List String) : List (String × List String) :=
  blocksFrom globalSection [] lines

/-- The section `Read` builds for a block: `AddOption` on each of its lines. -/
def ingest (b : String × List String) : Section :=
  b.2.foldl AddOption (NewSection b.1)

/-- The distinct entries of a list, in the order in which each is first met. -/
def firstSeen (l : List String) : List String :=
  l.foldl (fun acc x => if x ∈ acc then acc else acc ++ [x]) []

/-- The positions of `f` in a list whose first element has position `k`. -/
def indicesFrom (k : Nat) (f : String) : List String → List Nat
  | [] => []
  | x :: xs => if x = f then k :: indicesFrom (k + 1) f xs else indicesFrom (k + 1) f xs

/-- The way `addSection` keeps the books: a fqn is mapped to the positions, in the order
of allocation, of the sections that carry it, and the ordering lists the fqns by first
allocation. -/
def Configuration.indexed (c : Configuration) : Prop :=
  (∀ f, c.sections.get? f =
    if indicesFrom 0 f (c.heap.map (fun s => s.fqn)) = [] then none
    else some (indicesFrom 0 f (c.heap.map (fun s => s.fqn)))) ∧
  c.orderedSections = firstSeen (c.heap.map (fun s => s.fqn))

/-- Go `dropCR` of `bufio`: one trailing carriage return is taken off a line. -/
def dropCR (l : List Char) : List Char :=
  if l.getLast? = some '\r' then l.dropLast else l

/-- The lines of a text, as the split function `bufio.ScanLines` cuts them: the text is
cut at every newline, a last line without newline counts when it is not empty, and each
line loses one trailing carriage return.  `cur` is the line that is being read.  This is
the split function alone; the `bufio.Scanner` of `Read`, with the limit of its buffer, is
`scanFrom`. -/
def scanLinesFrom : List Char → List Char → List String
  | cur, [] => if cur = [] then [] else [String.mk (dropCR cur)]
  | cur, c :: cs =>
      if c = '\n' then String.mk (dropCR cur) :: scanLinesFrom [] cs
      else scanLinesFrom (cur ++ [c]) cs

def scanLines (text : String) : List String := scanLinesFrom [] text.data

/-- The constant `bufio.MaxScanTokenSize`: the largest size of the buffer of a
`bufio.Scanner` that was not given a buffer of its own, as the one of `Read`. -/
def MaxScanTokenSize : Nat := 64 * 1024

/-- Go `len` of a string, the number of its bytes, for a text held as characters: the
length of its UTF-8 encoding. -/
def byteLen (l : List Char) : Nat := (l.map (fun c => c.utf8Size)).sum

/-- The loop `for scanner.Scan()` of `Read` followed by `scanner.Err()`, for the
`bufio.Scanner` of `Read` (split function `bufio.ScanLines`, buffer of at most
`MaxScanTokenSize` bytes): the lines `scanner.Text()` yields, or `none` when the scanner
stops with `ErrTooLong`.  It does so when its buffer is full and holds no newline, that is
when a line has, before its newline or the end of the text, `MaxScanTokenSize` bytes or
more.  `cur` is the line that is being read. -/
def scanFrom : List Char → List Char → Option (List String)
  | cur, [] =>
      if MaxScanTokenSize ≤ byteLen cur then none
      else if cur = [] then some [] else some [String.mk (dropCR cur)]
  | cur, c :: cs =>
      if c = '\n' then
        if MaxScanTokenSize ≤ byteLen cur then none
        else (scanFrom [] cs).map (fun rest => String.mk (dropCR cur) :: rest)
      else scanFrom (cur ++ [c]) cs

def scan (text : String) : Option (List String) := scanFrom [] text.data

/-- The function `Read` on a file that opens and has the content `text`: the store, or
`none` for the result `(nil, err)` when the scanner stops with an error. -/
def ReadFile (filePath : String) (text : String) : Option Configuration :=
  (scan text).map (Read filePath)

/-- The text `Save` writes: `w.WriteString(v.String())` for every `v` of `AllSections()`. -/
def Configuration.saveText (d : Delimiter) (c : Configuration) : String :=
  c.AllSections.1.foldl (fun w v => w ++ (c.deref v).render d) ""

/-- The flattened sequence of a store: for every Section of `AllSections()`, in that
order, its fqn, its `OptionNames()` and the value of each of these names. -/
def Configuration.flatten (c : Configuration) : List (String × List String × List String) :=
  c.AllSections.1.map (fun p =>
    ((c.deref p).Name, (c.deref p).OptionNames,
      (c.deref p).OptionNames.map (fun n => (c.deref p).ValueOf n)))

/-- Sections in the order of `AllSections()`: the fqns by first occurrence, and under each
fqn the sections that carry it, in the order of the list. -/
def grouped (H : List Section) : List Section :=
  (firstSeen (H.map (fun s => s.fqn))).flatMap
    (fun f => H.filter (fun s => decide (s.fqn = f)))

/-- The lines `Section.String` emits for a section, without their ends of line: the
header unless the section is the global one, then one line for each name. -/
def sectionLines (d : Delimiter) (s : Section) : List String :=
  (if s.fqn = globalSection then [] else [CharLSBracket ++ s.fqn ++ CharRSBracket]) ++
    s.orderedOptions.map (fun n => optionLine d n (s.ValueOf n))

/-- A line of a text that `String()` writes back in a form a second `Read` takes the same
way.  A header line names a section other than the empty fqn and `global`, and the header
written for it has less than `MaxScanTokenSize` bytes.  For an option line with the tokens
`(name, value)` of `parseOption`: the name does not begin with `[`; the name holds no `:`
when the value is empty or the write delimiter is `ColonDelimiter`; the value holds no `=`
when the write delimiter is `ColonDelimiter`; and the line written for the option does not
end in a carriage return and has less than `MaxScanTokenSize` bytes. -/
def wellFormedLine (d : Delimiter) (l : String) : Prop :=
  '\n' ∉ l.data ∧
  (IsSection l = true →
    strings.Trim l (CharSpace ++ SectionEmpty) ≠ CharEmpty ∧
    strings.Trim l (CharSpace ++ SectionEmpty) ≠ globalSection ∧
    byteLen (CharLSBracket ++ strings.Trim l (CharSpace ++ SectionEmpty) ++
      CharRSBracket).data < MaxScanTokenSize) ∧
  (IsSection l = false →
    (parseOption l).1.data.head? ≠ some '[' ∧
    ((d = Delimiter.ColonDelimiter ∨ (parseOption l).2 = CharEmpty) →
      ':' ∉ (parseOption l).1.data) ∧
    (d = Delimiter.ColonDelimiter → '=' ∉ (parseOption l).2.data) ∧
    (optionLine d (parseOption l).1 (parseOption l).2).data.getLast? ≠ some '\r' ∧
    byteLen (optionLine d (parseOption l).1 (parseOption l).2).data < MaxScanTokenSize)

instance (d : Delimiter) (l : String) : Decidable (wellFormedLine d l) := by
  unfold wellFormedLine
  infer_instance

/-! ## Laws of Go maps -/

theorem GoMap.del_cons {V : Type} (a : String) (b : V) (t : GoMap V) (k : String) :
    GoMap.del ((a, b) :: t) k = if a = k then GoMap.del t k else (a, b) :: GoMap.del t k := by
  by_cases h : a = k <;> simp [GoMap.del, List.filter_cons, h]

theorem GoMap.get?_cons {V : Type} (a : String) (b : V) (t : GoMap V) (k : String) :
    GoMap.get? ((a, b) :: t) k = if a = k then some b else GoMap.get? t k := rfl

theorem GoMap.get?_del_self {V : Type} (m : GoMap V) (k : String) :
    (GoMap.del m k).get? k = none := by
  induction m with
  | nil => rfl
  | cons p t ih =>
      obtain ⟨a, b⟩ := p
      rw [GoMap.del_cons]
      by_cases h : a = k
      · rw [if_pos h]; exact ih
      · rw [if_neg h, GoMap.get?_cons, if_neg h]; exact ih

theorem GoMap.get?_del_ne {V : Type} (m : GoMap V) {k k' : String} (hne : k' ≠ k) :
    (GoMap.del m k).get? k' = m.get? k' := by
  induction m with
  | nil => rfl
  | cons p t ih =>
      obtain ⟨a, b⟩ := p
      rw [GoMap.del_cons, GoMap.get?_cons]
      by_cases h : a = k
      · have h' : ¬ a = k' := fun e => hne (e.symm.trans h)
        rw [if_pos h, if_neg h']; exact ih
      · rw [if_neg h, GoMap.get?_cons]
        by_cases h' : a = k'
        · rw [if_pos h', if_pos h']
        · rw [if_neg h', if_neg h']; exact ih

theorem GoMap.get?_set_self {V : Type} (m : GoMap V) (k : String) (v : V) :
    (GoMap.set m k v).get? k = some v := by
  simp [GoMap.set, GoMap.get?]

theorem GoMap.get?_set_ne {V : Type} (m : GoMap V) {k k' : String} (v : V) (hne : k' ≠ k) :
    (GoMap.set m k v).get? k' = m.get? k' := by
  have h : ¬ k = k' := fun e => hne e.symm
  simp [GoMap.set, GoMap.get?, h, GoMap.get?_del_ne m hne]

/-! ## Sections: `Add` -/

/-- C1. `Add(k, v)` returns the value stored under `k` before the call (the empty string
when `k` was not a key), afterwards `ValueOf(k) = v` and `Exists(k)`, `OptionNames()` is
unchanged when `k` was a key and is the old sequence with `k` appended otherwise, and the
value and existence of every other option, and the name of the section, are unchanged. -/
theorem Section_Add_spec (s : Section) (k v : String) :
    (s.Add k v).2 = s.ValueOf k ∧
    (s.Exists k = false → (s.Add k v).2 = CharEmpty) ∧
    (s.Add k v).1.ValueOf k = v ∧
    (s.Add k v).1.Exists k = true ∧
    (s.Exists k = true → (s.Add k v).1.OptionNames = s.OptionNames) ∧
    (s.Exists k = false → (s.Add k v).1.OptionNames = s.OptionNames ++ [k]) ∧
    (∀ k', k' ≠ k → (s.Add k v).1.ValueOf k' = s.ValueOf k' ∧
      (s.Add k v).1.Exists k' = s.Exists k') ∧
    (s.Add k v).1.Name = s.Name := by
  cases hk : s.options.get? k with
  | none =>
      refine ⟨?_, ?_, ?_, ?_, ?_, ?_, ?_, ?_⟩ <;>
        simp [Section.Add, Section.ValueOf, Section.Exists, Section.OptionNames, Section.Name, hk,
          GoMap.get?_set_self]
      intro k' hk'
      simp [GoMap.get?_set_ne s.options v hk']
  | some old =>
      refine ⟨?_, ?_, ?_, ?_, ?_, ?_, ?_, ?_⟩ <;>
        simp [Section.Add, Section.ValueOf, Section.Exists, Section.OptionNames, Section.Name, hk,
          GoMap.get?_set_self]
      intro k' hk'
      simp [GoMap.get?_set_ne s.options v hk']

/-! ## Sections: `Delete` on the backing array -/

theorem deleteLoop_append (option : String) (is js : List Nat) (st : List String × Nat) :
    deleteLoop option (is ++ js) st =
      (deleteLoop option is st).bind (deleteLoop option js) := by
  induction is generalizing st with
  | nil => rfl
  | cons i is ih =>
      simp only [List.cons_append, deleteLoop]
      cases deleteStep option i st with
      | none => rfl
      | some st' => exact ih st'

theorem deleteLoop_miss (option : String) (is : List Nat) (arr : List String) (len : Nat)
    (h : ∀ i ∈ is, arr.getD i CharEmpty ≠ option) :
    deleteLoop option is (arr, len) = some (arr, len) := by
  induction is with
  | nil => rfl
  | cons i is ih =>
      have hi : arr.getD i CharEmpty ≠ option := h i (List.mem_cons_self _ _)
      simp only [deleteLoop, deleteStep, if_neg hi]
      exact ih (fun j hj => h j (List.mem_cons_of_mem _ hj))

theorem getD_ne_of_forall_ne (arr : List String) (option : String) (i : Nat)
    (hi : i < arr.length) (h : ∀ x ∈ arr, x ≠ option) : arr.getD i CharEmpty ≠ option := by
  have : arr.getD i CharEmpty = arr[i] := by
    simp [List.getD_eq_getElem?_getD, List.getElem?_eq_getElem hi]
  rw [this]
  exact h _ (List.getElem_mem hi)

theorem deleteStep_hit (option : String) (pre post : List String) :
    deleteStep option pre.length (pre ++ option :: post, pre.length + post.length + 1) =
      some (pre ++ post ++ (option :: post).drop post.length, pre.length + post.length) := by
  have h1 : (pre ++ option :: post).getD pre.length CharEmpty = option := by
    rw [List.getD_eq_getElem?_getD, List.getElem?_append_right (le_refl _)]
    simp
  have h2 : pre.length + 1 ≤ pre.length + post.length + 1 := by omega
  simp only [deleteStep, h1, if_true, h2]
  have e1 : (pre ++ option :: post).take pre.length = pre := by simp
  have e2 : (pre ++ option :: post).drop (pre.length + 1) = post := by
    simp [List.drop_append_eq_append_drop]
  have e3 : pre.length + post.length + 1 - (pre.length + 1) = post.length := by omega
  have e4 : (pre ++ option :: post).drop (pre.length + post.length + 1 - 1) =
      (option :: post).drop post.length := by
    simp [List.drop_append_eq_append_drop]
  rw [e1, e2, e3, e4]
  simp

theorem deleteLoop_unique (option : String) (pre post : List String)
    (h1 : option ∉ pre) (h2 : option ∉ post) :
    deleteLoop option (List.range (pre.length + post.length + 1))
        (pre ++ option :: post, pre.length + post.length + 1) =
      some (pre ++ post ++ (option :: post).drop post.length, pre.length + post.length) := by
  have hr : List.range (pre.length + post.length + 1) =
      List.range pre.length ++ ([pre.length] ++ List.range' (pre.length + 1) post.length) := by
    rw [List.range_eq_range', List.range_eq_range']
    have e : pre.length + post.length + 1 = (post.length + 1) + pre.length := by omega
    rw [e, ← List.range'_append_1]
    simp [List.range'_succ]
  rw [hr, deleteLoop_append, deleteLoop_miss, Option.some_bind, deleteLoop_append]
  · have hs : deleteLoop option [pre.length]
        (pre ++ option :: post, pre.length + post.length + 1) =
        some (pre ++ post ++ (option :: post).drop post.length, pre.length + post.length) := by
      simp only [deleteLoop, deleteStep_hit]
    rw [hs, Option.some_bind]
    apply deleteLoop_miss
    intro i hi
    rw [List.mem_range'_1] at hi
    cases post with
    | nil => simp at hi; omega
    | cons y ys =>
        apply getD_ne_of_forall_ne
        · simp only [List.length_append, List.length_cons, List.length_drop] at hi ⊢
          omega
        · intro x hx
          simp only [List.mem_append, List.length_cons, List.drop_succ_cons] at hx
          rcases hx with (hx | hx) | hx
          · exact fun e => h1 (e ▸ hx)
          · exact fun e => h2 (e ▸ hx)
          · exact fun e => h2 (e ▸ List.mem_of_mem_drop hx)
  · intro i hi
    rw [List.mem_range] at hi
    rw [List.getD_append _ _ _ _ hi]
    exact getD_ne_of_forall_ne pre option i hi (fun x hx e => h1 (e ▸ hx))

theorem Delete_of_count_le_one (s : Section) (k : String)
    (h : s.orderedOptions.count k ≤ 1) :
    s.Delete k = some ({ s with options := s.options.del k,
                                orderedOptions := s.orderedOptions.erase k }, s.ValueOf k) := by
  obtain ⟨fqn, options, names⟩ := s
  simp only at h
  by_cases hm : k ∈ names
  · obtain ⟨pre, post, e, hpre⟩ := List.eq_append_cons_of_mem hm
    subst e
    have hpost : k ∉ post := by
      intro hp
      have := List.count_pos_iff.mpr hp
      simp [List.count_append] at h
      omega
    have hl : (pre ++ k :: post).length = pre.length + post.length + 1 := by
      simp; omega
    have he : (pre ++ k :: post).erase k = pre ++ post := by
      rw [List.erase_append_right _ hpre, List.erase_cons_head]
    simp only [Section.Delete, hl, deleteLoop_unique k pre post hpre hpost, he, Section.ValueOf]
    have ht : (pre ++ post ++ List.drop post.length (k :: post)).take
        (pre.length + post.length) = pre ++ post := by
      have : pre.length + post.length = (pre ++ post).length := by simp
      rw [this, List.take_left']
      rfl
    rw [ht]
  · have hloop : deleteLoop k (List.range names.length) (names, names.length) =
        some (names, names.length) := by
      apply deleteLoop_miss
      intro i hi
      rw [List.mem_range] at hi
      exact getD_ne_of_forall_ne names k i hi (fun x hx e => hm (e ▸ hx))
    simp only [Section.Delete, hloop, List.take_length, List.erase_of_not_mem hm,
      Section.ValueOf]

/-! ## Sections: order of the names under `Add` and `Delete` -/

theorem Add_options (s : Section) (k v : String) :
    (s.Add k v).1.options = s.options.set k v := by
  unfold Section.Add; split <;> rfl

theorem Add_names (s : Section) (k v : String) :
    (s.Add k v).1.orderedOptions =
      if s.Exists k = true then s.orderedOptions else s.orderedOptions ++ [k] := by
  unfold Section.Add Section.Exists; split <;> simp [*]

theorem Add_fqn (s : Section) (k v : String) : (s.Add k v).1.fqn = s.fqn := by
  unfold Section.Add; split <;> rfl

theorem Add_snd (s : Section) (k v : String) : (s.Add k v).2 = s.ValueOf k := by
  unfold Section.Add Section.ValueOf; split <;> simp [*]

theorem Exists_Add (s : Section) (k v k' : String) :
    (s.Add k v).1.Exists k' = if k' = k then true else s.Exists k' := by
  unfold Section.Exists
  rw [Add_options]
  by_cases h : k' = k
  · subst h; simp [GoMap.get?_set_self]
  · simp [GoMap.get?_set_ne s.options v h, h]

theorem ValueOf_Add (s : Section) (k v k' : String) :
    (s.Add k v).1.ValueOf k' = if k' = k then v else s.ValueOf k' := by
  unfold Section.ValueOf
  rw [Add_options]
  by_cases h : k' = k
  · subst h; simp [GoMap.get?_set_self]
  · simp [GoMap.get?_set_ne s.options v h, h]

theorem keysMatch_Add (s : Section) (k v : String) (h : s.keysMatch) :
    (s.Add k v).1.keysMatch := by
  intro k'
  rw [Exists_Add]
  show k' ∈ (s.Add k v).1.orderedOptions ↔ _
  rw [Add_names]
  have hk' := h k'
  have hk := h k
  simp only [Section.OptionNames] at hk hk'
  by_cases e : k' = k
  · subst e
    by_cases hx : s.Exists k' = true
    · simp [hx, hk'.mpr hx]
    · simp [hx]
  · by_cases hx : s.Exists k = true
    · simp [hx, e, hk']
    · simp [hx, e, hk']

theorem nodup_Add (s : Section) (k v : String) (h : s.keysMatch)
    (hn : s.orderedOptions.Nodup) : (s.Add k v).1.orderedOptions.Nodup := by
  rw [Add_names]
  by_cases hx : s.Exists k = true
  · simpa [hx] using hn
  · have : k ∉ s.orderedOptions := fun hm => hx ((h k).mp hm)
    rw [if_neg hx, List.nodup_append]
    refine ⟨hn, List.nodup_singleton k, ?_⟩
    intro a ha hb
    simp only [List.mem_singleton] at hb
    exact this (hb ▸ ha)

theorem keysMatch_Delete (s : Section) (k : String) (h : s.keysMatch)
    (hn : s.orderedOptions.Nodup) :
    Section.keysMatch { s with options := s.options.del k,
                               orderedOptions := s.orderedOptions.erase k } := by
  intro k'
  have hk' := h k'
  simp only [Section.OptionNames, Section.Exists] at hk' ⊢
  by_cases e : k' = k
  · subst e
    simp [GoMap.get?_del_self, hn.not_mem_erase]
  · rw [GoMap.get?_del_ne s.options e, List.mem_erase_of_ne e]
    exact hk'

theorem erase_eq_filter_of_nodup (l : List String) (k : String) (hn : l.Nodup) :
    l.erase k = l.filter (fun x => decide (x ≠ k)) := by
  rw [hn.erase_eq_filter]
  congr 1
  funext x
  by_cases h : x = k <;> simp [h]

theorem run_spec (ops : List SectionOp) :
    ∀ s : Section, s.keysMatch → s.orderedOptions.Nodup →
      ∃ s', Section.run s ops = some s' ∧ s'.keysMatch ∧ s'.orderedOptions.Nodup ∧
        s'.orderedOptions = creationOrderFrom s.orderedOptions ops ∧ s'.fqn = s.fqn := by
  induction ops with
  | nil => intro s h hn; exact ⟨s, rfl, h, hn, rfl, rfl⟩
  | cons op ops ih =>
      intro s h hn
      cases op with
      | add k v =>
          obtain ⟨s', h1, h2, h3, h4, h5⟩ :=
            ih (s.Add k v).1 (keysMatch_Add s k v h) (nodup_Add s k v h hn)
          refine ⟨s', h1, h2, h3, ?_, h5.trans (Add_fqn s k v)⟩
          rw [h4, Add_names]
          have hk := h k
          simp only [Section.OptionNames] at hk
          by_cases hx : s.Exists k = true
          · simp [creationOrderFrom, hx, hk.mpr hx]
          · have : k ∉ s.orderedOptions := fun hm => hx (hk.mp hm)
            simp [creationOrderFrom, hx, this]
      | delete k =>
          have hd := Delete_of_count_le_one s k (List.nodup_iff_count_le_one.mp hn k)
          obtain ⟨s', h1, h2, h3, h4, h5⟩ :=
            ih { s with options := s.options.del k, orderedOptions := s.orderedOptions.erase k }
              (keysMatch_Delete s k h hn) (hn.erase k)
          refine ⟨s', ?_, h2, h3, ?_, h5⟩
          · simp only [Section.run, hd]; exact h1
          · rw [h4]
            simp only [creationOrderFrom]
            rw [erase_eq_filter_of_nodup _ _ hn]

theorem keysMatch_NewSection (fqn : String) : (NewSection fqn).keysMatch := by
  intro k; simp [NewSection, Section.OptionNames, Section.Exists, GoMap.get?]

/-- C2. Every sequence of `Add` and `Delete` calls on `NewSection(fqn)` runs to the end
(no `Delete` panics) and leaves a section whose `OptionNames()` has no repeated name,
holds exactly the names that exist, and lists them by the time of the `Add` that
(re)created them (`creationOrder`).  On such a section, `Add(k, v)`, `Add(k, v)`,
`Add(k, v2)` leaves `k` exactly once, at the place the first `Add` gave it, with
`ValueOf(k) = v2`; and `Delete(k)` followed by `Add(k, v)` leaves the other names in
their order, followed by `k`. -/
theorem Section_order_of_Add_Delete (fqn : String) (ops : List SectionOp) :
    ∃ s, Section.run (NewSection fqn) ops = some s ∧
      s.OptionNames.Nodup ∧
      (∀ k, k ∈ s.OptionNames ↔ s.Exists k = true) ∧
      s.OptionNames = creationOrder ops ∧
      (∀ k v v2,
        (((s.Add k v).1.Add k v).1.Add k v2).1.OptionNames.count k = 1 ∧
        (((s.Add k v).1.Add k v).1.Add k v2).1.ValueOf k = v2 ∧
        (((s.Add k v).1.Add k v).1.Add k v2).1.OptionNames = (s.Add k v).1.OptionNames) ∧
      (∀ k v, ∃ s1 old, s.Delete k = some (s1, old) ∧
        s1.OptionNames = s.OptionNames.filter (fun x => decide (x ≠ k)) ∧
        (s1.Add k v).1.OptionNames = s.OptionNames.filter (fun x => decide (x ≠ k)) ++ [k]) := by
  obtain ⟨s, h1, h2, h3, h4, _⟩ :=
    run_spec ops (NewSection fqn) (keysMatch_NewSection fqn) List.nodup_nil
  refine ⟨s, h1, h3, h2, h4, ?_, ?_⟩
  · intro k v v2
    have e1 : (s.Add k v).1.Exists k = true := by rw [Exists_Add]; simp
    have e2 : ((s.Add k v).1.Add k v).1.Exists k = true := by rw [Exists_Add]; simp
    have n2 : ((s.Add k v).1.Add k v).1.orderedOptions = (s.Add k v).1.orderedOptions := by
      rw [Add_names, if_pos e1]
    have n3 : (((s.Add k v).1.Add k v).1.Add k v2).1.orderedOptions =
        (s.Add k v).1.orderedOptions := by
      rw [Add_names, if_pos e2, n2]
    refine ⟨?_, ?_, n3⟩
    · show List.count k (((s.Add k v).1.Add k v).1.Add k v2).1.orderedOptions = 1
      rw [n3]
      exact List.count_eq_one_of_mem (nodup_Add s k v h2 h3)
        ((keysMatch_Add s k v h2 k).mpr e1)
    · rw [ValueOf_Add]; simp
  · intro k v
    have hd := Delete_of_count_le_one s k (List.nodup_iff_count_le_one.mp h3 k)
    refine ⟨_, _, hd, ?_, ?_⟩
    · exact erase_eq_filter_of_nodup _ _ h3
    · show (Section.Add _ k v).1.orderedOptions = _
      rw [Add_names]
      have hx : ¬ Section.Exists
          { s with options := s.options.del k, orderedOptions := s.orderedOptions.erase k } k
            = true := by
        simp [Section.Exists, GoMap.get?_del_self]
      rw [if_neg hx]
      show s.orderedOptions.erase k ++ [k] = _
      rw [erase_eq_filter_of_nodup _ _ h3]
      rfl

/-! ## Sections: `Delete` with a repeated name -/

/-- C3. On the section `Read` builds from the lines `a`, `a` of a block, `Delete("a")`
panics with a slice-bounds failure; on the one built from `a`, `a`, `b` it completes
and leaves `a` in `OptionNames()` although `a` is no longer a key. -/
theorem Section_Delete_repeated_name :
    (Read "config.ini" ["[x]", "a", "a"]).deref 1 =
      AddOption (AddOption (NewSection "x") "a") "a" ∧
    ((Read "config.ini" ["[x]", "a", "a"]).deref 1).Delete "a" = none ∧
    (AddOption (AddOption (NewSection "x") "a") "a").OptionNames = ["a", "a"] ∧
    (AddOption (AddOption (NewSection "x") "a") "a").Delete "a" = none ∧
    ((AddOption (AddOption (AddOption (NewSection "x") "a") "a") "b").Delete "a").map
        (fun r => (r.1.OptionNames, r.1.Exists "a", r.2)) = some (["a", "b"], false, "") := by
  decide

/-! ## Sections: keys and ordered names -/

theorem keysMatch_AddOption (s : Section) (line : String) (h : s.keysMatch) :
    (AddOption s line).keysMatch := by
  intro k
  have hk := h k
  simp only [Section.OptionNames, Section.Exists] at hk ⊢
  have hopt : (AddOption s line).options = s.options.set (parseOption line).1
      (if (parseOption line).2 ≠ CharEmpty then (parseOption line).2 else CharEmpty) := by
    unfold AddOption
    by_cases e : (parseOption line).2 ≠ CharEmpty <;> simp [e]
  have hnames : (AddOption s line).orderedOptions = s.orderedOptions ++ [(parseOption line).1] :=
    rfl
  rw [hopt, hnames]
  by_cases e : k = (parseOption line).1
  · subst e; simp [GoMap.get?_set_self]
  · rw [GoMap.get?_set_ne s.options _ e]
    simp [e, hk]

theorem SetValueFor_options (s : Section) (k v : String) :
    (s.SetValueFor k v).1.options = s.options.set k v := rfl

theorem SetValueFor_names (s : Section) (k v : String) :
    (s.SetValueFor k v).1.orderedOptions = s.orderedOptions := rfl

theorem Exists_SetValueFor (s : Section) (k v k' : String) :
    (s.SetValueFor k v).1.Exists k' = if k' = k then true else s.Exists k' := by
  unfold Section.Exists
  rw [SetValueFor_options]
  by_cases h : k' = k
  · subst h; simp [GoMap.get?_set_self]
  · simp [GoMap.get?_set_ne s.options v h, h]

theorem ValueOf_SetValueFor (s : Section) (k v k' : String) :
    (s.SetValueFor k v).1.ValueOf k' = if k' = k then v else s.ValueOf k' := by
  unfold Section.ValueOf
  rw [SetValueFor_options]
  by_cases h : k' = k
  · subst h; simp [GoMap.get?_set_self]
  · simp [GoMap.get?_set_ne s.options v h, h]

theorem keysMatch_SetValueFor (s : Section) (k v : String) (h : s.keysMatch)
    (hk : s.Exists k = true) : (s.SetValueFor k v).1.keysMatch := by
  intro k'
  rw [Exists_SetValueFor]
  show k' ∈ s.orderedOptions ↔ _
  have hk' := h k'
  simp only [Section.OptionNames] at hk'
  by_cases e : k' = k
  · subst e; simp [hk'.mpr hk]
  · simp [e, hk']

theorem keysMatch_of_mem_set (heap : List Section) (p : Nat) (s : Section)
    (hs : s.keysMatch) (h : ∀ t ∈ heap, t.keysMatch) : ∀ t ∈ heap.set p s, t.keysMatch := by
  intro t ht
  rcases List.mem_or_eq_of_mem_set ht with ht | ht
  · exact h t ht
  · exact ht ▸ hs

theorem keysMatch_deref (c : Configuration) (p : Nat) (h : ∀ t ∈ c.heap, t.keysMatch) :
    (c.deref p).keysMatch := by
  unfold Configuration.deref
  by_cases hp : p < c.heap.length
  · have : c.heap.getD p (NewSection CharEmpty) = c.heap[p] := by
      simp [List.getD_eq_getElem?_getD, List.getElem?_eq_getElem hp]
    rw [this]
    exact h _ (List.getElem_mem hp)
  · have : c.heap.getD p (NewSection CharEmpty) = NewSection CharEmpty := by
      simp [List.getD_eq_getElem?_getD, List.getElem?_eq_none (not_lt.mp hp)]
    rw [this]
    exact keysMatch_NewSection _

theorem addSection_heap (c : Configuration) (fqn : String) :
    (c.addSection fqn).1.heap = c.heap ++ [NewSection fqn] := by
  unfold Configuration.addSection; split <;> rfl

theorem keysMatch_readLine (st : Configuration × Nat) (line : String)
    (h : ∀ t ∈ st.1.heap, t.keysMatch) : ∀ t ∈ (readLine st line).1.heap, t.keysMatch := by
  unfold readLine
  rw [if_neg (Nat.not_lt_zero _)]
  by_cases hs : IsSection line = true
  · rw [if_pos hs]
    intro t ht
    simp only [Configuration.AddSection, addSection_heap, List.mem_append,
      List.mem_singleton] at ht
    rcases ht with ht | ht
    · exact h t ht
    · exact ht ▸ keysMatch_NewSection _
  · rw [if_neg hs]
    exact keysMatch_of_mem_set _ _ _ (keysMatch_AddOption _ _ (keysMatch_deref _ _ h)) h

theorem keysMatch_foldl_readLine (lines : List String) :
    ∀ st : Configuration × Nat, (∀ t ∈ st.1.heap, t.keysMatch) →
      ∀ t ∈ (lines.foldl readLine st).1.heap, t.keysMatch := by
  induction lines with
  | nil => intro st h; exact h
  | cons line lines ih => intro st h; exact ih _ (keysMatch_readLine st line h)

theorem keysMatch_Read (filePath : String) (lines : List String) :
    ∀ t ∈ (Read filePath lines).heap, t.keysMatch := by
  apply keysMatch_foldl_readLine
  intro t ht
  simp only [Configuration.AddSection, addSection_heap, NewConfigurationWithFP,
    List.nil_append, List.mem_singleton] at ht
  exact ht ▸ keysMatch_NewSection _

/-- C4, counterexample. `SetValueFor` on an option that does not exist breaks the
invariant: on `NewSection("x")`, whose keys and names agree, `SetValueFor("k", "v")`
makes `k` a key while `OptionNames()` stays empty. -/
theorem SetValueFor_breaks_keysMatch :
    (NewSection "x").keysMatch ∧
    ((NewSection "x").SetValueFor "k" "v").1.Exists "k" = true ∧
    ((NewSection "x").SetValueFor "k" "v").1.OptionNames = [] ∧
    ¬ ((NewSection "x").SetValueFor "k" "v").1.keysMatch := by
  refine ⟨keysMatch_NewSection _, by decide, by decide, ?_⟩
  intro h
  have := (h "k").mpr (by decide)
  simp [Section.OptionNames, Section.SetValueFor, NewSection] at this

/-- C4, amended. Every section reached from `NewSection`, or from a store built by
`Read`, by `Add`, `AddOption`, `SetValueFor` on an option that exists, and `Delete` of a
name that `OptionNames()` holds at most once, has as keys of its mapping exactly the
names of `OptionNames()`; and such a `Delete` completes. -/
theorem Section_keysMatch_of_Reach (s : Section) (h : Section.Reach s) :
    (∀ k, k ∈ s.OptionNames ↔ s.Exists k = true) ∧
    (∀ k, s.OptionNames.count k ≤ 1 → ∃ s' old, s.Delete k = some (s', old)) := by
  refine ⟨?_, fun k hk => ⟨_, _, Delete_of_count_le_one s k hk⟩⟩
  induction h with
  | new fqn => exact keysMatch_NewSection fqn
  | read filePath lines s hs => exact keysMatch_Read filePath lines s hs
  | add s k v _ ih => exact keysMatch_Add s k v ih
  | addOption s line _ ih => exact keysMatch_AddOption s line ih
  | setValueFor s k v _ hk ih => exact keysMatch_SetValueFor s k v ih hk
  | delete s s' k old _ hc hd ih =>
      rw [Delete_of_count_le_one s k hc] at hd
      injection hd with hd
      injection hd with hd _
      subst hd
      intro k'
      have hk' := ih k'
      simp only [Section.OptionNames, Section.Exists] at hk' ⊢
      by_cases e : k' = k
      · subst e
        have : k' ∉ s.orderedOptions.erase k' := by
          intro hm
          have h1 := List.count_pos_iff.mpr hm
          have h2 : List.count k' (s.orderedOptions.erase k') =
              List.count k' s.orderedOptions - 1 := by
            rw [List.count_erase_self]
          simp only [Section.OptionNames] at hc
          omega
        simp [GoMap.get?_del_self, this]
      · rw [GoMap.get?_del_ne s.options e, List.mem_erase_of_ne e]
        exact hk'

/-- The invariant on the section `NewSection("x")` leaves after `Add("k", "v")`. -/
theorem Section_keysMatch_of_Reach_witness :
    Section.Reach ((NewSection "x").Add "k" "v").1 ∧
    ((∀ k, k ∈ ((NewSection "x").Add "k" "v").1.OptionNames ↔
        ((NewSection "x").Add "k" "v").1.Exists k = true) ∧
     (∀ k, ((NewSection "x").Add "k" "v").1.OptionNames.count k ≤ 1 →
        ∃ s' old, ((NewSection "x").Add "k" "v").1.Delete k = some (s', old))) :=
  ⟨Section.Reach.add _ _ _ (Section.Reach.new "x"),
   Section_keysMatch_of_Reach _ (Section.Reach.add _ _ _ (Section.Reach.new "x"))⟩

/-! ## Sections: `SetValueFor` -/

theorem optionParts_SetValueFor (d : Delimiter) (s : Section) (k v opt : String)
    (h : opt ≠ k) :
    Section.optionParts d (s.SetValueFor k v).1 opt = Section.optionParts d s opt := by
  unfold Section.optionParts
  rw [SetValueFor_options, GoMap.get?_set_ne s.options v h]

/-- C5, counterexample. The global section `Read` builds from the lines `a`, `a`, `b` has,
after `Delete("a")`, the names `a`, `b` while `a` is not a key, and `String()` is `a`, `b`.
`SetValueFor("a", "v")` on it creates the option `a` in the mapping and leaves
`OptionNames()` as it is, and `String()` then has the line `a = v` for the created
option. -/
theorem SetValueFor_line_for_stale_name :
    (((Read "config.ini" ["a", "a", "b"]).deref 0).Delete "a").map
      (fun r => (r.1.OptionNames, r.1.Exists "a", r.1.render Delimiter.EqualDelimiter,
        (r.1.SetValueFor "a" "v").1.OptionNames, (r.1.SetValueFor "a" "v").1.Exists "a",
        (r.1.SetValueFor "a" "v").1.render Delimiter.EqualDelimiter)) =
      some (["a", "b"], false, "a\nb\n", ["a", "b"], true, "a = v\nb\n") := by
  decide

/-- C5, amended. `SetValueFor(k, v)` returns the value stored under `k` before the call
(the empty string when `k` was not a key); afterwards `ValueOf(k) = v` and `Exists(k)`, so
an absent option is created in the mapping; `OptionNames()` is exactly the old sequence, so
`k` is not appended; the option lines of `String()` are still one per entry of the old
`OptionNames()`, and when `k` is not among them (as for every absent `k` in a section
whose names are its keys) `String()` is the same text as before: the created option has
no line. -/
theorem Section_SetValueFor_spec (d : Delimiter) (s : Section) (k v : String) :
    (s.SetValueFor k v).2 = s.ValueOf k ∧
    (s.Exists k = false → (s.SetValueFor k v).2 = CharEmpty) ∧
    (s.SetValueFor k v).1.ValueOf k = v ∧
    (s.SetValueFor k v).1.Exists k = true ∧
    (s.SetValueFor k v).1.OptionNames = s.OptionNames ∧
    (s.SetValueFor k v).1.OptionNames ≠ s.OptionNames ++ [k] ∧
    (s.SetValueFor k v).1.Name = s.Name ∧
    (s.SetValueFor k v).1.parts d =
      s.OptionNames.foldl
        (fun parts opt => parts ++ Section.optionParts d (s.SetValueFor k v).1 opt)
        [if s.fqn = globalSection then CharEmpty
         else CharLSBracket ++ s.fqn ++ CharRSBracket ++ CharEOF] ∧
    (k ∉ s.OptionNames → (s.SetValueFor k v).1.render d = s.render d) ∧
    (s.keysMatch → s.Exists k = false → (s.SetValueFor k v).1.render d = s.render d) := by
  have hrender : k ∉ s.OptionNames → (s.SetValueFor k v).1.render d = s.render d := by
    intro hk
    unfold Section.render Section.parts
    rw [SetValueFor_names]
    congr 1
    apply List.foldl_ext
    intro parts opt hopt
    rw [optionParts_SetValueFor d s k v opt (fun e => hk (e ▸ hopt))]
  refine ⟨rfl, ?_, ?_, ?_, rfl, ?_, rfl, rfl, hrender, ?_⟩
  · intro h
    show (s.options.get? k).getD CharEmpty = CharEmpty
    unfold Section.Exists at h
    cases hg : s.options.get? k with
    | none => rfl
    | some old => rw [hg] at h; exact absurd h (by simp)
  · rw [ValueOf_SetValueFor]; simp
  · rw [Exists_SetValueFor]; simp
  · intro h
    have := congrArg List.length h
    simp [Section.OptionNames, SetValueFor_names] at this
  · intro hm hk
    apply hrender
    intro hmem
    rw [(hm k).mp hmem] at hk
    cases hk

/-! ## The store: `Find` and `Delete` -/

theorem MatchString_of_some (compile : String → Option (String → Bool)) (regex s : String)
    (p : String → Bool) (hp : compile regex = some p) :
    MatchString compile regex s = (p s, none) := by
  simp [MatchString, hp]

theorem MatchString_of_none (compile : String → Option (String → Bool)) (regex s : String)
    (hp : compile regex = none) :
    MatchString compile regex s = (false, some (Error.regexp regex)) := by
  simp [MatchString, hp]

theorem findLoop_of_some (compile : String → Option (String → Bool)) (c : Configuration)
    (regex : String) (p : String → Bool) (hp : compile regex = some p) :
    ∀ (order : List String) (acc : List Nat),
      Configuration.findLoop compile c regex order acc =
        (acc ++ (order.filter p).flatMap (fun k => (c.sections.get? k).getD []), none) := by
  intro order
  induction order with
  | nil => intro acc; simp [Configuration.findLoop]
  | cons key rest ih =>
      intro acc
      unfold Configuration.findLoop
      cases hk : c.sections.get? key with
      | none =>
          simp only [ih]
          by_cases hpk : p key = true
          · simp [List.filter_cons, hpk, hk]
          · simp [List.filter_cons, hpk]
      | some lst =>
          simp only [MatchString_of_some compile regex key p hp]
          by_cases hpk : p key = true
          · simp [hpk, ih, List.filter_cons, hk]
          · have hf : p key = false := by simpa using hpk
            simp [hf, ih, List.filter_cons]

theorem findLoop_of_none_hit (compile : String → Option (String → Bool)) (c : Configuration)
    (regex : String) (hp : compile regex = none) :
    ∀ (order : List String) (acc : List Nat),
      (∃ k ∈ order, (c.sections.get? k).isSome = true) →
      Configuration.findLoop compile c regex order acc = ([], some (Error.regexp regex)) := by
  intro order
  induction order with
  | nil => intro acc h; obtain ⟨k, hk, _⟩ := h; cases hk
  | cons key rest ih =>
      intro acc h
      unfold Configuration.findLoop
      cases hk : c.sections.get? key with
      | none =>
          apply ih
          obtain ⟨k, hmem, hsome⟩ := h
          rcases List.mem_cons.mp hmem with e | hmem
          · subst e; rw [hk] at hsome; cases hsome
          · exact ⟨k, hmem, hsome⟩
      | some lst =>
          simp [MatchString_of_none compile regex key hp]

theorem findLoop_of_none_miss (compile : String → Option (String → Bool)) (c : Configuration)
    (regex : String) :
    ∀ (order : List String) (acc : List Nat),
      (∀ k ∈ order, c.sections.get? k = none) →
      Configuration.findLoop compile c regex order acc = (acc, none) := by
  intro order
  induction order with
  | nil => intro acc _; rfl
  | cons key rest ih =>
      intro acc h
      unfold Configuration.findLoop
      rw [h key (List.mem_cons_self _ _)]
      exact ih acc (fun k hk => h k (List.mem_cons_of_mem _ hk))

theorem deleteFrom_of_some (compile : String → Option (String → Bool)) (regex : String)
    (sections : List Nat) (p : String → Bool) (hp : compile regex = some p)
    (pre : List String) :
    ∀ (post : List String) (c : Configuration), c.orderedSections = pre ++ post →
      Configuration.deleteFrom compile regex sections (List.range pre.length).reverse c none =
        some ({ c with orderedSections := pre.filter (fun f => !p f) ++ post }, sections, none) := by
  induction pre using List.reverseRecOn with
  | nil =>
      intro post c h
      simp only [List.length_nil, List.range_zero, List.reverse_nil, Configuration.deleteFrom,
        List.filter_nil, List.nil_append]
      rw [← List.nil_append post, ← h]
  | append_singleton l a ih =>
      intro post c h
      have hr : (List.range (l ++ [a]).length).reverse = l.length :: (List.range l.length).reverse := by
        simp [List.range_succ]
      have hget : c.orderedSections[l.length]? = some a := by
        rw [h, List.append_assoc, List.getElem?_append_right (le_refl _)]
        simp
      rw [hr]
      unfold Configuration.deleteFrom
      simp only [hget, MatchString_of_some compile regex a p hp]
      by_cases hpa : p a = true
      · simp only [hpa]
        have hc : ({ c with orderedSections :=
            c.orderedSections.take l.length ++ c.orderedSections.drop (l.length + 1) } :
              Configuration).orderedSections = l ++ post := by
          simp [h, List.take_append_eq_append_take, List.drop_append_eq_append_drop]
        rw [ih post _ hc]
        simp [List.filter_append, hpa]
      · have hf : p a = false := by simpa using hpa
        simp only [hf]
        have hc : c.orderedSections = l ++ ([a] ++ post) := by simp [h]
        rw [ih ([a] ++ post) c hc]
        simp [List.filter_append, hf]

theorem get?_foldl_del {V : Type} (g : Nat → String) (secs : List Nat) :
    ∀ (m : GoMap V) (f : String),
      (secs.foldl (fun m s => GoMap.del m (g s)) m).get? f =
        if f ∈ secs.map g then none else m.get? f := by
  induction secs with
  | nil => intro m f; simp
  | cons s rest ih =>
      intro m f
      simp only [List.foldl_cons, ih, List.map_cons, List.mem_cons]
      by_cases h1 : f ∈ rest.map g
      · simp [h1]
      · by_cases h2 : f = g s
        · subst h2; simp [h1, GoMap.get?_del_self]
        · simp [h1, h2, GoMap.get?_del_ne m h2]

theorem Find_of_some (compile : String → Option (String → Bool)) (c : Configuration)
    (order : List String) (regex : String) (p : String → Bool) (hp : compile regex = some p) :
    Configuration.Find compile c order regex =
      ((order.filter p).flatMap (fun k => (c.sections.get? k).getD []), none) := by
  simp [Configuration.Find, findLoop_of_some compile c regex p hp]

theorem mem_found_names (c : Configuration) (order : List String) (p : String → Bool)
    (ho : c.rangeOrder order) (hi : c.storeInv) (hn : c.namesAgree) (f : String) :
    f ∈ ((order.filter p).flatMap (fun k => (c.sections.get? k).getD [])).map
        (fun s => (c.deref s).Name) ↔
      p f = true ∧ (c.sections.get? f).isSome = true := by
  simp only [List.mem_map, List.mem_flatMap, List.mem_filter]
  constructor
  · rintro ⟨s, ⟨k, ⟨hk, hpk⟩, hs⟩, hname⟩
    cases hg : c.sections.get? k with
    | none => rw [hg] at hs; simp at hs
    | some l =>
        rw [hg] at hs
        have := (hn k l hg s hs).2
        rw [hname] at this
        subst this
        exact ⟨hpk, by rw [hg]; rfl⟩
  · rintro ⟨hpf, hsome⟩
    cases hg : c.sections.get? f with
    | none => rw [hg] at hsome; cases hsome
    | some l =>
        obtain ⟨s, hs⟩ := List.exists_mem_of_ne_nil l (hi.2.2 f l hg)
        exact ⟨s, ⟨f, ⟨(ho.2 f).mpr hsome, hpf⟩, by rw [hg]; exact hs⟩, (hn f l hg s hs).2⟩

/-- What `Delete` does for a pattern that compiles, on a store that satisfies the
invariants. -/
theorem Delete_of_some (compile : String → Option (String → Bool)) (c : Configuration)
    (order : List String) (regex : String) (p : String → Bool) (hp : compile regex = some p)
    (ho : c.rangeOrder order) (hi : c.storeInv) (hn : c.namesAgree) :
    ∃ c', Configuration.Delete compile c order regex =
        some (c', (order.filter p).flatMap (fun k => (c.sections.get? k).getD []), none) ∧
      c'.orderedSections = c.orderedSections.filter (fun f => !p f) ∧
      (∀ f, c'.sections.get? f = if p f = true then none else c.sections.get? f) ∧
      c'.heap = c.heap ∧ c'.filePath = c.filePath := by
  have h : ∃ c', Configuration.deleteFrom compile regex
        ((order.filter p).flatMap (fun k => (c.sections.get? k).getD []))
        (List.range c.orderedSections.length).reverse
        { c with sections :=
                   ((order.filter p).flatMap (fun k => (c.sections.get? k).getD [])).foldl
                     (fun m s => GoMap.del m (c.deref s).Name) c.sections } none =
        some (c', (order.filter p).flatMap (fun k => (c.sections.get? k).getD []), none) ∧
      c'.orderedSections = c.orderedSections.filter (fun f => !p f) ∧
      c'.sections = ((order.filter p).flatMap (fun k => (c.sections.get? k).getD [])).foldl
        (fun m s => GoMap.del m (c.deref s).Name) c.sections ∧
      c'.heap = c.heap ∧ c'.filePath = c.filePath :=
    ⟨_, deleteFrom_of_some compile regex _ p hp c.orderedSections [] _ (by simp),
      by simp, rfl, rfl, rfl⟩
  obtain ⟨c', h1, h2, h3, h4, h5⟩ := h
  refine ⟨c', ?_, h2, ?_, h4, h5⟩
  · unfold Configuration.Delete
    rw [Find_of_some compile c order regex p hp]
    exact h1
  · intro f
    rw [h3, get?_foldl_del (fun s => (c.deref s).Name)]
    have hm := mem_found_names c order p ho hi hn f
    by_cases hmem : f ∈ ((order.filter p).flatMap (fun k => (c.sections.get? k).getD [])).map
        (fun s => (c.deref s).Name)
    · rw [if_pos hmem, if_pos (hm.mp hmem).1]
    · rw [if_neg hmem]
      by_cases hpf : p f = true
      · rw [if_pos hpf]
        cases hg : c.sections.get? f with
        | none => rfl
        | some l => exact absurd (hm.mpr ⟨hpf, by rw [hg]; rfl⟩) hmem
      · rw [if_neg hpf]

/-- What `Delete` does for a pattern that does not compile: nothing is changed. -/
theorem Delete_of_none (compile : String → Option (String → Bool)) (c : Configuration)
    (order : List String) (regex : String) (hp : compile regex = none) :
    ∃ err, Configuration.Delete compile c order regex = some (c, [], err) ∧
      ((∃ k ∈ order, (c.sections.get? k).isSome = true) → err = some (Error.regexp regex)) := by
  by_cases h : ∃ k ∈ order, (c.sections.get? k).isSome = true
  · refine ⟨some (Error.regexp regex), ?_, fun _ => rfl⟩
    unfold Configuration.Delete Configuration.Find
    rw [findLoop_of_none_hit compile c regex hp order [] h]
  · have hmiss : ∀ k ∈ order, c.sections.get? k = none := by
      intro k hk
      cases hg : c.sections.get? k with
      | none => rfl
      | some l => exact absurd ⟨k, hk, by rw [hg]; rfl⟩ h
    have hfind : Configuration.Find compile c order regex = ([], none) := by
      unfold Configuration.Find
      exact findLoop_of_none_miss compile c regex order [] hmiss
    unfold Configuration.Delete
    rw [hfind]
    simp only [List.foldl_nil]
    cases hlen : c.orderedSections.length with
    | zero =>
        exact ⟨none, by simp [Configuration.deleteFrom], fun h' => absurd h' h⟩
    | succ n =>
        refine ⟨some (Error.regexp regex), ?_, fun _ => rfl⟩
        have hlt : n < c.orderedSections.length := by omega
        have hname : c.orderedSections[n]? = some c.orderedSections[n] :=
          List.getElem?_eq_getElem hlt
        simp [List.range_succ, Configuration.deleteFrom, hname,
          MatchString_of_none compile regex _ hp]

/-! ## The store: `addSection` -/

theorem addSection_sections (c : Configuration) (fqn : String) :
    (c.addSection fqn).1.sections =
      c.sections.set fqn ((c.sections.get? fqn).getD [] ++ [c.heap.length]) := by
  unfold Configuration.addSection
  cases h : c.sections.get? fqn <;> simp

theorem addSection_ordered (c : Configuration) (fqn : String) :
    (c.addSection fqn).1.orderedSections =
      if (c.sections.get? fqn).isSome = true then c.orderedSections
      else c.orderedSections ++ [fqn] := by
  unfold Configuration.addSection
  cases h : c.sections.get? fqn <;> simp

theorem addSection_snd (c : Configuration) (fqn : String) :
    (c.addSection fqn).2 = c.heap.length := by
  unfold Configuration.addSection
  cases h : c.sections.get? fqn <;> rfl

theorem get?_addSection (c : Configuration) (fqn f : String) :
    (c.addSection fqn).1.sections.get? f =
      if f = fqn then some ((c.sections.get? fqn).getD [] ++ [c.heap.length])
      else c.sections.get? f := by
  rw [addSection_sections]
  by_cases h : f = fqn
  · subst h; rw [GoMap.get?_set_self, if_pos rfl]
  · rw [GoMap.get?_set_ne _ _ h, if_neg h]

theorem deref_addSection_old (c : Configuration) (fqn : String) (p : Nat)
    (hp : p < c.heap.length) : (c.addSection fqn).1.deref p = c.deref p := by
  unfold Configuration.deref
  rw [addSection_heap, List.getD_append _ _ _ _ hp]

theorem deref_addSection_new (c : Configuration) (fqn : String) :
    (c.addSection fqn).1.deref c.heap.length = NewSection fqn := by
  unfold Configuration.deref
  rw [addSection_heap, List.getD_eq_getElem?_getD, List.getElem?_append_right (le_refl _)]
  simp

theorem storeInv_new (filePath : String) : (NewConfigurationWithFP filePath).storeInv := by
  refine ⟨List.nodup_nil, ?_, ?_⟩
  · intro f; simp [NewConfigurationWithFP, GoMap.get?]
  · intro f l h; simp [NewConfigurationWithFP, GoMap.get?] at h

theorem namesAgree_new (filePath : String) : (NewConfigurationWithFP filePath).namesAgree := by
  intro f l h; simp [NewConfigurationWithFP, GoMap.get?] at h

theorem storeInv_addSection (c : Configuration) (fqn : String) (h : c.storeInv) :
    (c.addSection fqn).1.storeInv := by
  obtain ⟨h1, h2, h3⟩ := h
  refine ⟨?_, ?_, ?_⟩
  · rw [addSection_ordered]
    by_cases hs : (c.sections.get? fqn).isSome = true
    · rw [if_pos hs]; exact h1
    · rw [if_neg hs, List.nodup_append]
      refine ⟨h1, List.nodup_singleton _, ?_⟩
      intro a ha hb
      simp only [List.mem_singleton] at hb
      exact hs ((h2 fqn).mp (hb ▸ ha))
  · intro f
    rw [addSection_ordered, get?_addSection]
    by_cases hf : f = fqn
    · subst hf
      by_cases hs : (c.sections.get? f).isSome = true
      · simp [hs, (h2 f).mpr hs]
      · simp [hs]
    · by_cases hs : (c.sections.get? fqn).isSome = true
      · simp [hs, hf, h2 f]
      · simp [hs, hf, h2 f]
  · intro f l hl
    rw [get?_addSection] at hl
    by_cases hf : f = fqn
    · rw [if_pos hf] at hl
      injection hl with hl
      rw [← hl]
      simp
    · rw [if_neg hf] at hl
      exact h3 f l hl

theorem namesAgree_addSection (c : Configuration) (fqn : String) (h : c.namesAgree) :
    (c.addSection fqn).1.namesAgree := by
  intro f l hl p hp
  rw [get?_addSection] at hl
  have hlen : (c.addSection fqn).1.heap.length = c.heap.length + 1 := by
    rw [addSection_heap]; simp
  have old : ∀ g l', c.sections.get? g = some l' → p ∈ l' →
      p < (c.addSection fqn).1.heap.length ∧ ((c.addSection fqn).1.deref p).Name = g := by
    intro g l' hg hp'
    have := h g l' hg p hp'
    rw [hlen, deref_addSection_old c fqn p this.1]
    exact ⟨by omega, this.2⟩
  by_cases hf : f = fqn
  · rw [if_pos hf] at hl
    injection hl with hl
    rw [← hl, List.mem_append, List.mem_singleton] at hp
    rcases hp with hp | hp
    · cases hg : c.sections.get? fqn with
      | none => rw [hg] at hp; simp at hp
      | some l' => rw [hg] at hp; exact hf ▸ old fqn l' hg hp
    · subst hp
      rw [hlen, deref_addSection_new]
      exact ⟨by omega, hf.symm⟩
  · rw [if_neg hf] at hl
    exact old f l hl hp

theorem deref_update (c : Configuration) (p q : Nat)
    (f : Parser.Section → Parser.Section) (hf : ∀ s, (f s).fqn = s.fqn) :
    ((c.update p f).deref q).fqn = (c.deref q).fqn := by
  unfold Configuration.update Configuration.deref
  simp only [List.getD_eq_getElem?_getD, List.getElem?_set]
  by_cases h : p = q
  · subst h
    by_cases hp : p < c.heap.length
    · simp [hp, hf]
    · simp [hp, List.getElem?_eq_none (not_lt.mp hp)]
  · simp [h]

theorem namesAgree_update (c : Configuration) (p : Nat)
    (f : Parser.Section → Parser.Section) (hf : ∀ s, (f s).fqn = s.fqn) (h : c.namesAgree) :
    (c.update p f).namesAgree := by
  intro g l hl q hq
  have := h g l hl q hq
  refine ⟨?_, ?_⟩
  · simpa [Configuration.update] using this.1
  · exact (deref_update c p q f hf).trans this.2

theorem inv_readLine (st : Configuration × Nat) (line : String)
    (h : st.1.storeInv ∧ st.1.namesAgree) :
    (readLine st line).1.storeInv ∧ (readLine st line).1.namesAgree := by
  unfold readLine
  rw [if_neg (Nat.not_lt_zero _)]
  by_cases hs : IsSection line = true
  · rw [if_pos hs]
    exact ⟨storeInv_addSection _ _ h.1, namesAgree_addSection _ _ h.2⟩
  · rw [if_neg hs]
    exact ⟨h.1, namesAgree_update _ _ _ (fun _ => rfl) h.2⟩

theorem inv_foldl_readLine (lines : List String) :
    ∀ st : Configuration × Nat, st.1.storeInv ∧ st.1.namesAgree →
      (lines.foldl readLine st).1.storeInv ∧ (lines.foldl readLine st).1.namesAgree := by
  induction lines with
  | nil => intro st h; exact h
  | cons line lines ih => intro st h; exact ih _ (inv_readLine st line h)

theorem inv_Read (filePath : String) (lines : List String) :
    (Read filePath lines).storeInv ∧ (Read filePath lines).namesAgree :=
  inv_foldl_readLine lines _
    ⟨storeInv_addSection _ _ (storeInv_new filePath),
     namesAgree_addSection _ _ (namesAgree_new filePath)⟩

theorem inv_Delete (compile : String → Option (String → Bool)) (c c' : Configuration)
    (order : List String) (regex : String) (sections : List Nat) (err : Option Error)
    (ho : c.rangeOrder order) (hi : c.storeInv) (hn : c.namesAgree)
    (hd : Configuration.Delete compile c order regex = some (c', sections, err)) :
    c'.storeInv ∧ c'.namesAgree := by
  cases hp : compile regex with
  | none =>
      obtain ⟨e, he, _⟩ := Delete_of_none compile c order regex hp
      rw [he] at hd
      injection hd with hd
      injection hd with hd _
      exact hd ▸ ⟨hi, hn⟩
  | some p =>
      obtain ⟨c'', h1, h2, h3, h4, _⟩ := Delete_of_some compile c order regex p hp ho hi hn
      rw [h1] at hd
      injection hd with hd
      injection hd with hd _
      subst hd
      refine ⟨⟨?_, ?_, ?_⟩, ?_⟩
      · rw [h2]; exact hi.1.filter _
      · intro f
        rw [h2, h3, List.mem_filter, hi.2.1 f]
        by_cases hpf : p f = true <;> simp [hpf]
      · intro f l hl
        rw [h3] at hl
        by_cases hpf : p f = true
        · rw [if_pos hpf] at hl; cases hl
        · rw [if_neg hpf] at hl; exact hi.2.2 f l hl
      · intro f l hl q hq
        rw [h3] at hl
        by_cases hpf : p f = true
        · rw [if_pos hpf] at hl; cases hl
        · rw [if_neg hpf] at hl
          have := hn f l hl q hq
          unfold Configuration.deref at this ⊢
          rw [h4]
          exact this

theorem inv_of_Reachable (compile : String → Option (String → Bool)) (c : Configuration)
    (h : Configuration.Reachable compile c) : c.storeInv ∧ c.namesAgree := by
  induction h with
  | new filePath => exact ⟨storeInv_new filePath, namesAgree_new filePath⟩
  | read filePath lines => exact inv_Read filePath lines
  | addSection c fqn _ ih => exact ⟨storeInv_addSection c fqn ih.1, namesAgree_addSection c fqn ih.2⟩
  | newSection c fqn _ ih => exact ⟨storeInv_addSection c fqn ih.1, namesAgree_addSection c fqn ih.2⟩
  | delete c c' order regex sections err _ ho hd ih =>
      exact inv_Delete compile c c' order regex sections err ho ih.1 ih.2 hd

theorem rangeOrder_orderedSections (c : Configuration) (h : c.storeInv) :
    c.rangeOrder c.orderedSections := ⟨h.1, h.2.1⟩

/-! ## The store: two sections with one fqn -/

/-- C6, counterexample. In the store `Read` builds from an empty file (one section,
`global`), the empty fqn is not registered; after `AddSection("")` twice, which return
the sections `1` and `2`, `Sections("")` is the wildcard and returns all three sections
`[0, 1, 2]`, not `[1, 2]`. -/
theorem Sections_of_empty_fqn_returns_all :
    (Read "config.ini" []).sections.get? "" = none ∧
    (Configuration.AddSection (Read "config.ini" []) "").2 = 1 ∧
    (Configuration.AddSection (Configuration.AddSection (Read "config.ini" []) "").1 "").2 = 2 ∧
    Configuration.Sections
      (Configuration.AddSection (Configuration.AddSection (Read "config.ini" []) "").1 "").1 "" =
        ([0, 1, 2], none) := by
  decide

/-- C6, amended. For a fqn `f` that is not registered, after `s1 = AddSection(f)` and
`s2 = AddSection(f)`: `Section(f)` returns `s1`, the two sections are distinct and both
are new sections named `f`, and when `f` is not the empty string `Sections(f)` returns
exactly `[s1, s2]`. -/
theorem AddSection_twice (c : Configuration) (f : String) (hnew : c.sections.get? f = none) :
    Configuration.Section (Configuration.AddSection (Configuration.AddSection c f).1 f).1 f =
      (some (Configuration.AddSection c f).2, none) ∧
    (Configuration.AddSection c f).2 ≠
      (Configuration.AddSection (Configuration.AddSection c f).1 f).2 ∧
    (Configuration.AddSection (Configuration.AddSection c f).1 f).1.deref
      (Configuration.AddSection c f).2 = NewSection f ∧
    (Configuration.AddSection (Configuration.AddSection c f).1 f).1.deref
      (Configuration.AddSection (Configuration.AddSection c f).1 f).2 = NewSection f ∧
    (f ≠ CharEmpty →
      Configuration.Sections (Configuration.AddSection (Configuration.AddSection c f).1 f).1 f =
        ([(Configuration.AddSection c f).2,
          (Configuration.AddSection (Configuration.AddSection c f).1 f).2], none)) := by
  have hg : (Configuration.AddSection (Configuration.AddSection c f).1 f).1.sections.get? f =
      some [c.heap.length, c.heap.length + 1] := by
    simp only [Configuration.AddSection]
    rw [get?_addSection, if_pos rfl, get?_addSection, if_pos rfl, hnew, addSection_heap]
    simp
  have h1 : (Configuration.AddSection c f).2 = c.heap.length := addSection_snd c f
  have h2 : (Configuration.AddSection (Configuration.AddSection c f).1 f).2 =
      c.heap.length + 1 := by
    simp only [Configuration.AddSection]
    rw [addSection_snd, addSection_heap]
    simp
  have hlen : (c.addSection f).1.heap.length = c.heap.length + 1 := by
    rw [addSection_heap]; simp
  refine ⟨?_, ?_, ?_, ?_, ?_⟩
  · unfold Configuration.Section
    rw [hg, h1]
  · rw [h1, h2]; omega
  · rw [h1]
    simp only [Configuration.AddSection]
    rw [deref_addSection_old _ _ _ (by rw [hlen]; omega), deref_addSection_new]
  · rw [h2, ← hlen]
    simp only [Configuration.AddSection]
    rw [deref_addSection_new]
  · intro hf
    unfold Configuration.Sections
    rw [if_neg hf, hg, h1, h2]

/-- Two sections `x` added to the empty store: `Sections("x")` is `[0, 1]`. -/
theorem AddSection_twice_witness :
    NewConfiguration.sections.get? "x" = none ∧
    Configuration.Sections
      (Configuration.AddSection (Configuration.AddSection NewConfiguration "x").1 "x").1 "x" =
        ([0, 1], none) :=
  ⟨rfl, (AddSection_twice NewConfiguration "x" rfl).2.2.2.2 (by decide)⟩

/-! ## The store: invariant -/

/-- C7. Every store reached from `NewConfiguration` (or `Read`) by `AddSection`,
`NewSection` and `Delete` has an ordered fqn sequence without repeated entry, in which a
fqn occurs exactly when it is a key of the mapping with a non-empty list of sections (and
no key has an empty list).  On such a store `Delete` completes for every order of ranging
over the map, the store it leaves again has exactly its keys in the ordering, and every
fqn the pattern matches is gone from both. -/
theorem store_invariant_of_Reachable (compile : String → Option (String → Bool))
    (c : Configuration) (h : Configuration.Reachable compile c) :
    c.orderedSections.Nodup ∧
    (∀ f, f ∈ c.orderedSections ↔ ∃ l, c.sections.get? f = some l ∧ l ≠ []) ∧
    (∀ f l, c.sections.get? f = some l → l ≠ []) ∧
    (∀ order regex, c.rangeOrder order →
      ∃ c' sections err, Configuration.Delete compile c order regex = some (c', sections, err) ∧
        c'.orderedSections.Nodup ∧
        (∀ f, f ∈ c'.orderedSections ↔ ∃ l, c'.sections.get? f = some l ∧ l ≠ []) ∧
        (∀ p, compile regex = some p → ∀ f, p f = true →
          f ∉ c'.orderedSections ∧ c'.sections.get? f = none)) := by
  have key : ∀ c : Configuration, c.storeInv →
      ∀ f, f ∈ c.orderedSections ↔ ∃ l, c.sections.get? f = some l ∧ l ≠ [] := by
    intro c hi f
    rw [hi.2.1 f]
    constructor
    · intro hs
      cases hg : c.sections.get? f with
      | none => rw [hg] at hs; cases hs
      | some l => exact ⟨l, rfl, hi.2.2 f l hg⟩
    · rintro ⟨l, hl, _⟩; rw [hl]; rfl
  obtain ⟨hi, hn⟩ := inv_of_Reachable compile c h
  refine ⟨hi.1, key c hi, hi.2.2, ?_⟩
  intro order regex ho
  cases hp : compile regex with
  | none =>
      obtain ⟨e, he, _⟩ := Delete_of_none compile c order regex hp
      exact ⟨c, [], e, he, hi.1, key c hi, fun p hp' => by cases hp'⟩
  | some p =>
      obtain ⟨c', h1, h2, h3, h4, h5⟩ := Delete_of_some compile c order regex p hp ho hi hn
      have hi' := (inv_Delete compile c c' order regex _ _ ho hi hn h1).1
      refine ⟨c', _, none, h1, hi'.1, key c' hi', ?_⟩
      intro p' hp' f hpf
      injection hp' with hp'
      subst hp'
      refine ⟨?_, ?_⟩
      · rw [h2, List.mem_filter]; simp [hpf]
      · rw [h3, if_pos hpf]

/-- The store read from a file with two blocks `[x]` is reachable and its ordering has
no repeated fqn. -/
theorem store_invariant_of_Reachable_witness :
    Configuration.Reachable sampleCompile (Read "config.ini" ["[x]", "a = 1", "[x]"]) ∧
    (Read "config.ini" ["[x]", "a = 1", "[x]"]).orderedSections.Nodup :=
  ⟨Configuration.Reachable.read _ _,
   (store_invariant_of_Reachable sampleCompile _ (Configuration.Reachable.read _ _)).1⟩

/-! ## The store: `Delete` is all or nothing -/

theorem storeInv_exampleStore : exampleStore.storeInv :=
  storeInv_addSection _ _ (storeInv_new _)

theorem namesAgree_exampleStore : exampleStore.namesAgree :=
  namesAgree_addSection _ _ (namesAgree_new _)

/-- C8. On a store that satisfies the store invariant, with every section registered
under its own name, `Delete(pattern)` completes, for every order of ranging over the map.
Either it returns no error: then it returns exactly the sections registered under the
fqns the pattern matches (fqn by fqn, in registration order), every matching fqn is gone
from the mapping and from the ordering and `Section` fails for it with the not-found
error, every other fqn keeps its list, and the ordering is the old one without the
matching fqns.  Or it returns an error: then the pattern does not compile, no section is
returned and the store is the one before the call.  A pattern that compiles never gives
an error. -/
theorem Delete_all_or_nothing (compile : String → Option (String → Bool)) (c : Configuration)
    (order : List String) (regex : String)
    (hi : c.storeInv) (hn : c.namesAgree) (ho : c.rangeOrder order) :
    ∃ c' sections err, Configuration.Delete compile c order regex = some (c', sections, err) ∧
      (err = none →
        sections = (order.filter (fun f => (MatchString compile regex f).1)).flatMap
          (fun k => (c.sections.get? k).getD []) ∧
        (∀ f, (MatchString compile regex f).1 = true →
          c'.sections.get? f = none ∧ f ∉ c'.orderedSections ∧
          Configuration.Section c' f = (none, some (Error.unableFindSelection f))) ∧
        (∀ f, (MatchString compile regex f).1 = false →
          c'.sections.get? f = c.sections.get? f) ∧
        c'.orderedSections =
          c.orderedSections.filter (fun f => !(MatchString compile regex f).1) ∧
        c'.heap = c.heap ∧ c'.filePath = c.filePath) ∧
      (err ≠ none → compile regex = none ∧ sections = [] ∧ c' = c) ∧
      ((compile regex).isSome = true → err = none) := by
  cases hp : compile regex with
  | none =>
      obtain ⟨e, he, _⟩ := Delete_of_none compile c order regex hp
      have hm : ∀ f, (MatchString compile regex f).1 = false := by
        intro f; rw [MatchString_of_none compile regex f hp]
      refine ⟨c, [], e, he, ?_, fun _ => ⟨rfl, rfl, rfl⟩, fun h => by cases h⟩
      intro _
      refine ⟨?_, ?_, fun _ _ => rfl, ?_, rfl, rfl⟩
      · simp [hm]
      · intro f hf; rw [hm f] at hf; cases hf
      · simp [hm]
  | some p =>
      obtain ⟨c', h1, h2, h3, h4, h5⟩ := Delete_of_some compile c order regex p hp ho hi hn
      have hm : (fun f => (MatchString compile regex f).1) = p := by
        funext f; rw [MatchString_of_some compile regex f p hp]
      have hm' : ∀ f, (MatchString compile regex f).1 = p f := fun f => congrFun hm f
      refine ⟨c', _, none, h1, ?_, fun h => absurd rfl h, fun _ => rfl⟩
      intro _
      refine ⟨by rw [hm], ?_, ?_, ?_, h4, h5⟩
      · intro f hf
        rw [hm' f] at hf
        have hg : c'.sections.get? f = none := by rw [h3, if_pos hf]
        refine ⟨hg, ?_, ?_⟩
        · rw [h2, List.mem_filter]; simp [hf]
        · unfold Configuration.Section; rw [hg]
      · intro f hf
        rw [hm' f] at hf
        rw [h3, if_neg (by simp [hf])]
      · rw [h2]
        congr 1
        funext f
        rw [hm' f]

/-- The scenario of spec §8: `Delete` with a pattern that matches `MYSQLD DEFAULT` on the
store that holds only this section. -/
theorem Delete_all_or_nothing_witness :
    exampleStore.storeInv ∧ exampleStore.namesAgree ∧
    exampleStore.rangeOrder exampleStore.orderedSections ∧
    ∃ c' sections err,
      Configuration.Delete sampleCompile exampleStore exampleStore.orderedSections "MYSQLD" =
        some (c', sections, err) ∧
      (err = none →
        sections = (exampleStore.orderedSections.filter
          (fun f => (MatchString sampleCompile "MYSQLD" f).1)).flatMap
            (fun k => (exampleStore.sections.get? k).getD []) ∧
        (∀ f, (MatchString sampleCompile "MYSQLD" f).1 = true →
          c'.sections.get? f = none ∧ f ∉ c'.orderedSections ∧
          Configuration.Section c' f = (none, some (Error.unableFindSelection f))) ∧
        (∀ f, (MatchString sampleCompile "MYSQLD" f).1 = false →
          c'.sections.get? f = exampleStore.sections.get? f) ∧
        c'.orderedSections =
          exampleStore.orderedSections.filter
            (fun f => !(MatchString sampleCompile "MYSQLD" f).1) ∧
        c'.heap = exampleStore.heap ∧ c'.filePath = exampleStore.filePath) ∧
      (err ≠ none → sampleCompile "MYSQLD" = none ∧ sections = [] ∧ c' = exampleStore) ∧
      ((sampleCompile "MYSQLD").isSome = true → err = none) :=
  ⟨storeInv_exampleStore, namesAgree_exampleStore,
   rangeOrder_orderedSections _ storeInv_exampleStore,
   Delete_all_or_nothing sampleCompile exampleStore exampleStore.orderedSections "MYSQLD"
     storeInv_exampleStore namesAgree_exampleStore
     (rangeOrder_orderedSections _ storeInv_exampleStore)⟩

/-! ## The store: a pattern that does not compile -/

/-- C9, counterexample. For the sample matcher the pattern `(` does not compile, yet on
the empty store of `NewConfiguration` both `Find` and `Delete` return no error: the
matcher is never called. -/
theorem malformed_pattern_on_empty_store :
    sampleCompile "(" = none ∧
    Configuration.Find sampleCompile NewConfiguration [] "(" = ([], none) ∧
    Configuration.Delete sampleCompile NewConfiguration [] "(" =
      some (NewConfiguration, [], none) :=
  ⟨by simp [sampleCompile], by decide, by decide⟩

/-- C9, amended. When the pattern does not compile and the mapping has at least one key
(one that ranging over the map visits), `Find` and `Delete` both return the error of the
matcher and no sections, and `Delete` leaves the store as it was. -/
theorem malformed_pattern_on_nonempty_store (compile : String → Option (String → Bool))
    (c : Configuration) (order : List String) (regex : String)
    (hp : compile regex = none) (hk : ∃ k ∈ order, (c.sections.get? k).isSome = true) :
    Configuration.Find compile c order regex = ([], some (Error.regexp regex)) ∧
    Configuration.Delete compile c order regex = some (c, [], some (Error.regexp regex)) := by
  refine ⟨findLoop_of_none_hit compile c regex hp order [] hk, ?_⟩
  obtain ⟨e, he, hs⟩ := Delete_of_none compile c order regex hp
  rw [he, hs hk]

/-- The pattern `(` on the store that holds the section `MYSQLD DEFAULT`. -/
theorem malformed_pattern_on_nonempty_store_witness :
    sampleCompile "(" = none ∧
    (∃ k ∈ ["MYSQLD DEFAULT"], (exampleStore.sections.get? k).isSome = true) ∧
    Configuration.Find sampleCompile exampleStore ["MYSQLD DEFAULT"] "(" =
      ([], some (Error.regexp "(")) ∧
    Configuration.Delete sampleCompile exampleStore ["MYSQLD DEFAULT"] "(" =
      some (exampleStore, [], some (Error.regexp "(")) :=
  ⟨by simp [sampleCompile], ⟨"MYSQLD DEFAULT", by decide, by decide⟩,
   malformed_pattern_on_nonempty_store sampleCompile exampleStore ["MYSQLD DEFAULT"] "("
     (by simp [sampleCompile]) ⟨"MYSQLD DEFAULT", by decide, by decide⟩⟩

/-! ## The store: `Find` -/

theorem flatMap_filter_sublist {α β : Type} (p : α → Bool) (g : α → List β) (l : List α) :
    ((l.filter p).flatMap g).Sublist (l.flatMap g) := by
  induction l with
  | nil => exact List.Sublist.refl _
  | cons a t ih =>
      by_cases h : p a = true
      · rw [List.filter_cons_of_pos h, List.flatMap_cons, List.flatMap_cons]
        exact List.Sublist.append (List.Sublist.refl _) ih
      · rw [List.filter_cons_of_neg h, List.flatMap_cons]
        exact ih.trans (List.sublist_append_right _ _)

theorem listsNodup_new (filePath : String) :
    (NewConfigurationWithFP filePath).listsNodup := by
  intro f l h; simp [NewConfigurationWithFP, GoMap.get?] at h

theorem listsNodup_addSection (c : Configuration) (fqn : String) (hn : c.namesAgree)
    (h : c.listsNodup) : (c.addSection fqn).1.listsNodup := by
  intro f l hl
  rw [get?_addSection] at hl
  by_cases hf : f = fqn
  · rw [if_pos hf] at hl
    injection hl with hl
    rw [← hl]
    cases hg : c.sections.get? fqn with
    | none => simp
    | some l' =>
        rw [Option.getD_some, List.nodup_append]
        refine ⟨h fqn l' hg, List.nodup_singleton _, ?_⟩
        intro a ha hb
        simp only [List.mem_singleton] at hb
        have := (hn fqn l' hg a ha).1
        omega
  · rw [if_neg hf] at hl
    exact h f l hl

theorem listsNodup_readLine (st : Configuration × Nat) (line : String)
    (h : st.1.namesAgree ∧ st.1.listsNodup) : (readLine st line).1.listsNodup := by
  unfold readLine
  rw [if_neg (Nat.not_lt_zero _)]
  by_cases hs : IsSection line = true
  · rw [if_pos hs]
    exact listsNodup_addSection _ _ h.1 h.2
  · rw [if_neg hs]
    exact h.2

theorem listsNodup_foldl_readLine (lines : List String) :
    ∀ st : Configuration × Nat, st.1.storeInv ∧ st.1.namesAgree → st.1.listsNodup →
      (lines.foldl readLine st).1.listsNodup := by
  induction lines with
  | nil => intro st _ h; exact h
  | cons line lines ih =>
      intro st hi h
      exact ih _ (inv_readLine st line hi) (listsNodup_readLine st line ⟨hi.2, h⟩)

theorem listsNodup_Read (filePath : String) (lines : List String) :
    (Read filePath lines).listsNodup :=
  listsNodup_foldl_readLine lines _
    ⟨storeInv_addSection _ _ (storeInv_new filePath),
     namesAgree_addSection _ _ (namesAgree_new filePath)⟩
    (listsNodup_addSection _ _ (namesAgree_new filePath) (listsNodup_new filePath))

theorem listsNodup_Delete (compile : String → Option (String → Bool)) (c c' : Configuration)
    (order : List String) (regex : String) (sections : List Nat) (err : Option Error)
    (ho : c.rangeOrder order) (hi : c.storeInv) (hn : c.namesAgree) (h : c.listsNodup)
    (hd : Configuration.Delete compile c order regex = some (c', sections, err)) :
    c'.listsNodup := by
  cases hp : compile regex with
  | none =>
      obtain ⟨e, he, _⟩ := Delete_of_none compile c order regex hp
      rw [he] at hd
      injection hd with hd
      injection hd with hd _
      exact hd ▸ h
  | some p =>
      obtain ⟨c'', h1, _, h3, _, _⟩ := Delete_of_some compile c order regex p hp ho hi hn
      rw [h1] at hd
      injection hd with hd
      injection hd with hd _
      subst hd
      intro f l hl
      rw [h3] at hl
      by_cases hpf : p f = true
      · rw [if_pos hpf] at hl; cases hl
      · rw [if_neg hpf] at hl; exact h f l hl

theorem listsNodup_of_Reachable (compile : String → Option (String → Bool))
    (c : Configuration) (h : Configuration.Reachable compile c) : c.listsNodup := by
  induction h with
  | new filePath => exact listsNodup_new filePath
  | read filePath lines => exact listsNodup_Read filePath lines
  | addSection c fqn hc ih =>
      exact listsNodup_addSection c fqn (inv_of_Reachable compile c hc).2 ih
  | newSection c fqn hc ih =>
      exact listsNodup_addSection c fqn (inv_of_Reachable compile c hc).2 ih
  | delete c c' order regex sections err hc ho hd ih =>
      exact listsNodup_Delete compile c c' order regex sections err ho
        (inv_of_Reachable compile c hc).1 (inv_of_Reachable compile c hc).2 ih hd

/-- In a store built through the API no `*Section` is registered twice: ranging over the
keys once meets every registered section once. -/
theorem nodup_registered (c : Configuration) (order : List String) (ho : order.Nodup)
    (hn : c.namesAgree) (h : c.listsNodup) :
    (order.flatMap (fun k => (c.sections.get? k).getD [])).Nodup := by
  rw [List.nodup_flatMap]
  refine ⟨?_, ?_⟩
  · intro k _
    cases hg : c.sections.get? k with
    | none => simp
    | some l => exact h k l hg
  · refine List.Pairwise.imp ?_ ho
    intro a b hab s ha hb
    dsimp only at ha hb
    cases hga : c.sections.get? a with
    | none => rw [hga] at ha; simp at ha
    | some la =>
        cases hgb : c.sections.get? b with
        | none => rw [hgb] at hb; simp at hb
        | some lb =>
            rw [hga] at ha
            rw [hgb] at hb
            have h1 := (hn a la hga s ha).2
            have h2 := (hn b lb hgb s hb).2
            exact hab (h1.symm.trans h2)

/-- C10. For every store built through the API, every pattern that compiles and every
order of ranging over the map: `Find` returns no error and the concatenation of the
section lists of the keys the pattern matches, taken in that order: each list whole, in
registration order, each key once, and nothing of a key that does not match.  So a section
is returned exactly when it is registered under a matching fqn, and every returned section
occurs exactly once. -/
theorem Find_spec (compile : String → Option (String → Bool)) (c : Configuration)
    (order : List String) (regex : String) (p : String → Bool)
    (hr : Configuration.Reachable compile c)
    (hp : compile regex = some p) (ho : c.rangeOrder order) :
    ∃ found, Configuration.Find compile c order regex = (found, none) ∧
      found = (order.filter p).flatMap (fun k => (c.sections.get? k).getD []) ∧
      (order.filter p).Nodup ∧
      (∀ f, f ∈ order.filter p ↔ (c.sections.get? f).isSome = true ∧ p f = true) ∧
      (∀ s, s ∈ found ↔ ∃ f l, c.sections.get? f = some l ∧ p f = true ∧ s ∈ l) ∧
      found.Nodup ∧
      (∀ s ∈ found, found.count s = 1) := by
  have hnd : ((order.filter p).flatMap (fun k => (c.sections.get? k).getD [])).Nodup :=
    (flatMap_filter_sublist p _ order).nodup
      (nodup_registered c order ho.1 (inv_of_Reachable compile c hr).2
        (listsNodup_of_Reachable compile c hr))
  refine ⟨_, Find_of_some compile c order regex p hp, rfl, ho.1.filter _, ?_, ?_, hnd, ?_⟩
  · intro f
    rw [List.mem_filter, ho.2 f]
  · intro s
    simp only [List.mem_flatMap, List.mem_filter]
    constructor
    · rintro ⟨k, ⟨_, hpk⟩, hs⟩
      cases hg : c.sections.get? k with
      | none => rw [hg] at hs; simp at hs
      | some l => rw [hg] at hs; exact ⟨k, l, hg, hpk, hs⟩
    · rintro ⟨f, l, hl, hpf, hs⟩
      exact ⟨f, ⟨(ho.2 f).mpr (by rw [hl]; rfl), hpf⟩, by rw [hl]; exact hs⟩
  · intro s hs
    exact List.count_eq_one_of_mem hnd hs

/-- The pattern `MYSQLD` on the store read from a text that opens the section
`MYSQLD DEFAULT` twice and the section `x` once: `Find` returns the two sections named
`MYSQLD DEFAULT`, each once. -/
theorem Find_spec_witness :
    Configuration.Reachable sampleCompile
      (Read "config.ini" ["[MYSQLD DEFAULT]", "[x]", "[MYSQLD DEFAULT]"]) ∧
    sampleCompile "MYSQLD" =
      some (fun s => s.data.tails.any (fun t => "MYSQLD".data.isPrefixOf t)) ∧
    (Read "config.ini" ["[MYSQLD DEFAULT]", "[x]", "[MYSQLD DEFAULT]"]).rangeOrder
      (Read "config.ini" ["[MYSQLD DEFAULT]", "[x]", "[MYSQLD DEFAULT]"]).orderedSections ∧
    Configuration.Find sampleCompile
      (Read "config.ini" ["[MYSQLD DEFAULT]", "[x]", "[MYSQLD DEFAULT]"])
      (Read "config.ini" ["[MYSQLD DEFAULT]", "[x]", "[MYSQLD DEFAULT]"]).orderedSections
      "MYSQLD" = ([1, 3], none) ∧
    ∃ found,
      Configuration.Find sampleCompile
        (Read "config.ini" ["[MYSQLD DEFAULT]", "[x]", "[MYSQLD DEFAULT]"])
        (Read "config.ini" ["[MYSQLD DEFAULT]", "[x]", "[MYSQLD DEFAULT]"]).orderedSections
        "MYSQLD" = (found, none) ∧
      found.Nodup ∧ (∀ s ∈ found, found.count s = 1) :=
  ⟨Configuration.Reachable.read _ _, rfl,
   rangeOrder_orderedSections _ (inv_Read _ _).1, by decide,
   (Find_spec sampleCompile _ _ "MYSQLD" _ (Configuration.Reachable.read _ _) rfl
     (rangeOrder_orderedSections _ (inv_Read _ _).1)).imp
     (fun _ h => ⟨h.1, h.2.2.2.2.2.1, h.2.2.2.2.2.2⟩)⟩

/-! ## The tokenizer: `strings.Index` and `strings.Trim` -/

theorem indexFrom_of_not_mem (ch : Char) (l : List Char) (i : Nat) (h : ch ∉ l) :
    strings.indexFrom [ch] l i = none := by
  induction l generalizing i with
  | nil => simp [strings.indexFrom]
  | cons c cs ih =>
      have hc : ¬ ch = c := fun e => h (e ▸ List.mem_cons_self _ _)
      have hcs : ch ∉ cs := fun e => h (List.mem_cons_of_mem _ e)
      simp [strings.indexFrom, List.isPrefixOf, hc, ih _ hcs]

theorem indexFrom_of_split (ch : Char) (pre post : List Char) (i : Nat) (h : ch ∉ pre) :
    strings.indexFrom [ch] (pre ++ ch :: post) i = some (i + pre.length) := by
  induction pre generalizing i with
  | nil => simp [strings.indexFrom, List.isPrefixOf]
  | cons c cs ih =>
      have hc : ¬ ch = c := fun e => h (e ▸ List.mem_cons_self _ _)
      have hcs : ch ∉ cs := fun e => h (List.mem_cons_of_mem _ e)
      simp only [List.cons_append, strings.indexFrom, List.isPrefixOf]
      simp [hc, ih _ hcs]
      omega

theorem Index_of_split (s : String) (ch : Char) (pre post : List Char)
    (hs : s.data = pre ++ ch :: post) (h : ch ∉ pre) :
    strings.Index s (String.mk [ch]) = some pre.length := by
  simp [strings.Index, hs, indexFrom_of_split ch pre post 0 h]

theorem Index_of_not_mem (s : String) (ch : Char) (h : ch ∉ s.data) :
    strings.Index s (String.mk [ch]) = none := by
  simp [strings.Index, indexFrom_of_not_mem ch s.data 0 h]

theorem split_of_split (s : String) (ch : Char) (pre post : List Char)
    (hs : s.data = pre ++ ch :: post) :
    parseOption.split s pre.length =
      (strings.Trim (String.mk pre) CharSpace, strings.Trim (String.mk post) CharSpace) := by
  have hd : List.drop (pre.length + 1) pre = [] := List.drop_eq_nil_of_le (by omega)
  simp [parseOption.split, hs, List.take_append_eq_append_take,
    List.drop_append_eq_append_drop, hd]

theorem parseOption_of_equal (line : String) (pre post : List Char)
    (hs : line.data = pre ++ '=' :: post) (h : '=' ∉ pre) :
    parseOption line =
      (strings.Trim (String.mk pre) CharSpace, strings.Trim (String.mk post) CharSpace) := by
  have hi : strings.Index line CharEqual = some pre.length := Index_of_split line '=' pre post hs h
  unfold parseOption
  rw [hi]
  exact split_of_split line '=' pre post hs

theorem parseOption_of_colon (line : String) (pre post : List Char)
    (hne : '=' ∉ line.data) (hs : line.data = pre ++ ':' :: post) (h : ':' ∉ pre) :
    parseOption line =
      (strings.Trim (String.mk pre) CharSpace, strings.Trim (String.mk post) CharSpace) := by
  have hi : strings.Index line CharEqual = none := Index_of_not_mem line '=' hne
  have hj : strings.Index line CharColon = some pre.length := Index_of_split line ':' pre post hs h
  unfold parseOption
  rw [hi]
  simp only [hj]
  exact split_of_split line ':' pre post hs

theorem parseOption_of_none (line : String) (hne : '=' ∉ line.data) (hnc : ':' ∉ line.data) :
    parseOption line = (line, CharEmpty) := by
  have hi : strings.Index line CharEqual = none := Index_of_not_mem line '=' hne
  have hj : strings.Index line CharColon = none := Index_of_not_mem line ':' hnc
  unfold parseOption
  rw [hi]
  simp only [hj]

/-- The characters `strings.Trim` has taken away and what it has left. -/
theorem dropWhile_spec (p : Char → Bool) (l : List Char) :
    ∃ a, (∀ c ∈ a, p c = true) ∧ l = a ++ l.dropWhile p ∧
      ∀ c, (l.dropWhile p).head? = some c → p c = false := by
  refine ⟨l.takeWhile p, fun c hc => List.mem_takeWhile_imp hc,
    (List.takeWhile_append_dropWhile p l).symm, ?_⟩
  intro c hc
  induction l with
  | nil => simp at hc
  | cons x xs ih =>
      by_cases hx : p x = true
      · rw [List.dropWhile_cons_of_pos hx] at hc; exact ih hc
      · rw [List.dropWhile_cons_of_neg hx] at hc
        simp only [List.head?_cons, Option.some_inj] at hc
        subst hc
        simpa using hx

theorem Trim_spec (s cutset : String) :
    ∃ a b, (∀ c ∈ a, c ∈ cutset.data) ∧ (∀ c ∈ b, c ∈ cutset.data) ∧
      s.data = a ++ (strings.Trim s cutset).data ++ b ∧
      (∀ c, (strings.Trim s cutset).data.head? = some c → c ∉ cutset.data) ∧
      (∀ c, (strings.Trim s cutset).data.getLast? = some c → c ∉ cutset.data) := by
  obtain ⟨a, ha, hl, hh⟩ := dropWhile_spec (fun c => cutset.data.contains c) s.data
  obtain ⟨b, hb, hr, hg⟩ := dropWhile_spec (fun c => cutset.data.contains c)
    (s.data.dropWhile (fun c => cutset.data.contains c)).reverse
  have hdata : (strings.Trim s cutset).data =
      (((s.data.dropWhile (fun c => cutset.data.contains c)).reverse.dropWhile
        (fun c => cutset.data.contains c)).reverse) := rfl
  refine ⟨a, b.reverse, ?_, ?_, ?_, ?_, ?_⟩
  · intro c hc; simpa using ha c hc
  · intro c hc; simpa using hb c (List.mem_reverse.mp hc)
  · rw [hdata, List.append_assoc, ← List.reverse_append, ← hr, List.reverse_reverse]
    exact hl
  · intro c hc
    rw [hdata] at hc
    have hmem : c ∈ cutset.data → False := by
      intro hin
      -- the head of the result is the head of the left-trimmed text unless that is empty
      cases hd : s.data.dropWhile (fun c => cutset.data.contains c) with
      | nil => rw [hd] at hc; simp at hc
      | cons x xs =>
          have hx : (fun c => cutset.data.contains c) x = false := hh x (by rw [hd]; rfl)
          -- the result is a prefix of `x :: xs`
          have hpre : ∃ t, x :: xs = (((x :: xs).reverse.dropWhile
              (fun c => cutset.data.contains c)).reverse) ++ t := by
            refine ⟨((x :: xs).reverse.takeWhile (fun c => cutset.data.contains c)).reverse, ?_⟩
            rw [← List.reverse_append, List.takeWhile_append_dropWhile, List.reverse_reverse]
          obtain ⟨t, ht⟩ := hpre
          rw [hd] at hc
          cases hres : ((x :: xs).reverse.dropWhile (fun c => cutset.data.contains c)).reverse with
          | nil => rw [hres] at hc; simp at hc
          | cons y ys =>
              rw [hres] at hc ht
              simp only [List.head?_cons, Option.some_inj] at hc
              simp only [List.cons_append, List.cons.injEq] at ht
              rw [← hc, ← ht.1] at hin
              simp [hin] at hx
    exact hmem
  · intro c hc
    rw [hdata, List.getLast?_reverse] at hc
    have := hg c hc
    simpa using this

theorem Trim_of_trimmed (s cutset : String)
    (hh : ∀ c, s.data.head? = some c → c ∉ cutset.data)
    (hl : ∀ c, s.data.getLast? = some c → c ∉ cutset.data) :
    strings.Trim s cutset = s := by
  have h1 : s.data.dropWhile (fun c => cutset.data.contains c) = s.data := by
    cases hd : s.data with
    | nil => rfl
    | cons x xs =>
        have := hh x (by rw [hd]; rfl)
        rw [List.dropWhile_cons_of_neg (by simpa using this)]
  have h2 : s.data.reverse.dropWhile (fun c => cutset.data.contains c) = s.data.reverse := by
    cases hd : s.data.reverse with
    | nil => rfl
    | cons x xs =>
        have hx : s.data.getLast? = some x := by
          rw [← List.head?_reverse, hd]; rfl
        have := hl x hx
        rw [List.dropWhile_cons_of_neg (by simpa using this)]
  apply String.ext
  show (((s.data.dropWhile _).reverse.dropWhile _).reverse) = s.data
  rw [h1, h2, List.reverse_reverse]

theorem mem_CharSpace (c : Char) : c ∈ CharSpace.data ↔ c = ' ' := by
  simp [CharSpace]

theorem dropWhile_pad (p : Char → Bool) (l rest : List Char) (hl : ∀ c ∈ l, p c = true) :
    (l ++ rest).dropWhile p = rest.dropWhile p := by
  induction l with
  | nil => rfl
  | cons x xs ih =>
      rw [List.cons_append, List.dropWhile_cons_of_pos (hl x (List.mem_cons_self _ _))]
      exact ih (fun c hc => hl c (List.mem_cons_of_mem _ hc))

theorem Trim_pad (core cutset : String) (l r : List Char)
    (hl : ∀ c ∈ l, c ∈ cutset.data) (hr : ∀ c ∈ r, c ∈ cutset.data)
    (hh : ∀ c, core.data.head? = some c → c ∉ cutset.data)
    (hg : ∀ c, core.data.getLast? = some c → c ∉ cutset.data) :
    strings.Trim (String.mk (l ++ core.data ++ r)) cutset = core := by
  have hl' : ∀ c ∈ l, (fun c => cutset.data.contains c) c = true := by
    intro c hc; simpa using hl c hc
  have hr' : ∀ c ∈ r.reverse, (fun c => cutset.data.contains c) c = true := by
    intro c hc; simpa using hr c (List.mem_reverse.mp hc)
  have hcore := Trim_of_trimmed core cutset hh hg
  have hcore' : ((core.data.dropWhile (fun c => cutset.data.contains c)).reverse.dropWhile
      (fun c => cutset.data.contains c)).reverse = core.data := congrArg String.data hcore
  apply String.ext
  show (((l ++ core.data ++ r).dropWhile _).reverse.dropWhile _).reverse = core.data
  rw [List.append_assoc, dropWhile_pad _ l _ hl']
  cases hc : core.data with
  | nil =>
      have : (r ++ []).dropWhile (fun c => cutset.data.contains c) = [] :=
        dropWhile_pad _ r [] (fun c hc => by simpa using hr c hc)
      rw [List.append_nil] at this
      rw [List.nil_append, this]
      rfl
  | cons x xs =>
      have hx : ¬ (fun c => cutset.data.contains c) x = true := by
        have := hh x (by rw [hc]; rfl)
        simpa using this
      rw [List.cons_append, List.dropWhile_cons_of_neg hx, ← List.cons_append,
        List.reverse_append, dropWhile_pad _ r.reverse _ hr']
      have h1 : (x :: xs).dropWhile (fun c => cutset.data.contains c) = x :: xs :=
        List.dropWhile_cons_of_neg hx
      rw [hc, h1] at hcore'
      exact hcore'

/-! ## The tokenizer: `parseOption` -/

/-- C13, counterexample. Tabs around the delimiter are not removed: only the space
character is in the cutset of `strings.Trim`. -/
theorem parseOption_keeps_tabs :
    parseOption "a\t=\tb" = ("a\t", "\tb") := by
  decide

/-- C13, amended. When `pre` is the text before the first `=` of the line and `post` the
text after it (or, for a line without `=`, the text before and after the first `:`),
`parseOption` returns `pre` and `post` with the surrounding space characters removed, and
nothing else: the name is `pre` without a run of leading and a run of trailing spaces,
the value is `post` without such runs, later `=` and `:` included. -/
theorem parseOption_at_first_delimiter (line : String) (pre post : List Char)
    (h : (line.data = pre ++ '=' :: post ∧ '=' ∉ pre) ∨
         ('=' ∉ line.data ∧ line.data = pre ++ ':' :: post ∧ ':' ∉ pre)) :
    parseOption line =
      (strings.Trim (String.mk pre) CharSpace, strings.Trim (String.mk post) CharSpace) ∧
    (∃ a b, (∀ c ∈ a, c = ' ') ∧ (∀ c ∈ b, c = ' ') ∧
      pre = a ++ (parseOption line).1.data ++ b ∧
      (∀ c, (parseOption line).1.data.head? = some c → c ≠ ' ') ∧
      (∀ c, (parseOption line).1.data.getLast? = some c → c ≠ ' ')) ∧
    (∃ a b, (∀ c ∈ a, c = ' ') ∧ (∀ c ∈ b, c = ' ') ∧
      post = a ++ (parseOption line).2.data ++ b ∧
      (∀ c, (parseOption line).2.data.head? = some c → c ≠ ' ') ∧
      (∀ c, (parseOption line).2.data.getLast? = some c → c ≠ ' ')) := by
  have hp : parseOption line =
      (strings.Trim (String.mk pre) CharSpace, strings.Trim (String.mk post) CharSpace) := by
    rcases h with ⟨hs, hn⟩ | ⟨hne, hs, hn⟩
    · exact parseOption_of_equal line pre post hs hn
    · exact parseOption_of_colon line pre post hne hs hn
  have key : ∀ t : List Char, ∃ a b, (∀ c ∈ a, c = ' ') ∧ (∀ c ∈ b, c = ' ') ∧
      t = a ++ (strings.Trim (String.mk t) CharSpace).data ++ b ∧
      (∀ c, (strings.Trim (String.mk t) CharSpace).data.head? = some c → c ≠ ' ') ∧
      (∀ c, (strings.Trim (String.mk t) CharSpace).data.getLast? = some c → c ≠ ' ') := by
    intro t
    obtain ⟨a, b, ha, hb, ht, hh, hg⟩ := Trim_spec (String.mk t) CharSpace
    exact ⟨a, b, fun c hc => (mem_CharSpace c).mp (ha c hc),
      fun c hc => (mem_CharSpace c).mp (hb c hc), ht,
      fun c hc e => hh c hc ((mem_CharSpace c).mpr e),
      fun c hc e => hg c hc ((mem_CharSpace c).mpr e)⟩
  rw [hp]
  exact ⟨rfl, key pre, key post⟩

/-- The line `a = b = c : d` is split at its first `=`. -/
theorem parseOption_at_first_delimiter_witness :
    parseOption "a = b = c : d" = ("a", "b = c : d") :=
  (parseOption_at_first_delimiter "a = b = c : d" "a ".data " b = c : d".data
    (Or.inl ⟨by decide, by decide⟩)).1

/-- C14, counterexample. A line with neither `=` nor `:` is returned as it is: the
spaces around `host1` stay in the name. -/
theorem parseOption_keeps_line_untrimmed :
    parseOption "  host1  " = ("  host1  ", "") ∧
    (parseOption "  host1  ").1 ≠ "host1" := by
  decide

/-- C14, amended. For a line with neither `=` nor `:`, `parseOption` returns the whole
line, not trimmed, as the name and the empty string as the value, and `AddOption`
appends that name and keeps it as a key with the empty value. -/
theorem parseOption_without_delimiter (s : Section) (line : String)
    (hne : '=' ∉ line.data) (hnc : ':' ∉ line.data) :
    parseOption line = (line, CharEmpty) ∧
    (AddOption s line).OptionNames = s.OptionNames ++ [line] ∧
    (AddOption s line).Exists line = true ∧
    (AddOption s line).ValueOf line = CharEmpty := by
  have hp := parseOption_of_none line hne hnc
  refine ⟨hp, ?_, ?_, ?_⟩
  · simp [AddOption, Section.OptionNames, hp]
  · simp [AddOption, Section.Exists, hp, GoMap.get?_set_self]
  · simp [AddOption, Section.ValueOf, hp, GoMap.get?_set_self]

/-- The line of a host list, with its spaces. -/
theorem parseOption_without_delimiter_witness :
    '=' ∉ "  host1  ".data ∧ ':' ∉ "  host1  ".data ∧
    parseOption "  host1  " = ("  host1  ", CharEmpty) :=
  ⟨by decide, by decide,
   (parseOption_without_delimiter (NewSection "x") "  host1  " (by decide) (by decide)).1⟩

/-! ## Rendering a section -/

theorem join_cons (a : String) (l : List String) :
    String.join (a :: l) = a ++ String.join l := by
  apply String.ext; simp

theorem join_append (a b : List String) :
    String.join (a ++ b) = String.join a ++ String.join b := by
  apply String.ext; simp

theorem join_nil : String.join [] = "" := rfl

theorem foldl_append_eq_flatMap {α β : Type} (f : α → List β) (l : List α) :
    ∀ init : List β, l.foldl (fun acc x => acc ++ f x) init = init ++ l.flatMap f := by
  induction l with
  | nil => intro init; simp
  | cons x xs ih => intro init; simp [ih]

theorem join_flatMap {α : Type} (f : α → List String) (l : List α) :
    String.join (l.flatMap f) = String.join (l.map (fun x => String.join (f x))) := by
  induction l with
  | nil => rfl
  | cons x xs ih => rw [List.flatMap_cons, join_append, List.map_cons, join_cons, ih]

theorem join_optionParts (d : Delimiter) (s : Section) (opt : String) :
    String.join (Section.optionParts d s opt) =
      optionLine d opt (s.ValueOf opt) ++ CharEOF := by
  unfold Section.optionParts optionLine Section.ValueOf
  dsimp only
  by_cases h : (s.options.get? opt).getD CharEmpty ≠ CharEmpty
  · rw [if_pos h, if_pos h]
    apply String.ext; simp
  · rw [if_neg h, if_neg h]
    apply String.ext; simp

theorem render_eq (d : Delimiter) (s : Section) :
    s.render d =
      (if s.fqn = globalSection then CharEmpty
       else CharLSBracket ++ s.fqn ++ CharRSBracket ++ CharEOF) ++
      String.join (s.orderedOptions.map
        (fun opt => optionLine d opt (s.ValueOf opt) ++ CharEOF)) := by
  unfold Section.render Section.parts
  have hf : (fun x => String.join (Section.optionParts d s x)) =
      (fun opt => optionLine d opt (s.ValueOf opt) ++ CharEOF) :=
    funext (fun opt => join_optionParts d s opt)
  rw [foldl_append_eq_flatMap, join_append, join_flatMap, join_cons, join_nil,
    String.append_empty, hf]

/-- C18. `Section.String()` is the header line `[fqn]` with its end of line, or nothing
when the fqn is `global`, followed by one line for each name of `OptionNames()`, in that
order: `name + DelimiterString(d) + value` and the end of line when the value is not
empty, the name and the end of line when it is; `DelimiterString` is ` = ` for
`EqualDelimiter` and ` : ` for `ColonDelimiter`. -/
theorem Section_render_spec (d : Delimiter) (s : Section) :
    s.render d =
      (if s.Name = "global" then "" else "[" ++ s.Name ++ "]" ++ "\n") ++
      String.join (s.OptionNames.map (fun opt =>
        if s.ValueOf opt ≠ "" then opt ++ DelimiterString d ++ s.ValueOf opt ++ "\n"
        else opt ++ "\n")) ∧
    DelimiterString Delimiter.EqualDelimiter = " = " ∧
    DelimiterString Delimiter.ColonDelimiter = " : " := by
  refine ⟨?_, by decide, by decide⟩
  have hf : (fun opt => optionLine d opt (s.ValueOf opt) ++ CharEOF) =
      (fun opt =>
        if s.ValueOf opt ≠ "" then opt ++ DelimiterString d ++ s.ValueOf opt ++ "\n"
        else opt ++ "\n") := by
    funext opt
    unfold optionLine
    by_cases h : s.ValueOf opt ≠ CharEmpty
    · rw [if_pos h]; exact (if_pos h).symm
    · rw [if_neg h]; exact (if_neg h).symm
  rw [render_eq, hf]
  rfl

/-! ## The tokenizer on the lines that are written -/

theorem parseOption_optionLine (d : Delimiter) (name value : String)
    (hn1 : ∀ c, name.data.head? = some c → c ≠ ' ')
    (hn2 : ∀ c, name.data.getLast? = some c → c ≠ ' ')
    (hv1 : ∀ c, value.data.head? = some c → c ≠ ' ')
    (hv2 : ∀ c, value.data.getLast? = some c → c ≠ ' ')
    (hne : '=' ∉ name.data) (hnc : ':' ∉ name.data)
    (hd : d = Delimiter.ColonDelimiter → '=' ∉ value.data) :
    parseOption (optionLine d name value) = (name, value) := by
  have tn : strings.Trim (String.mk ([] ++ name.data ++ [' '])) CharSpace = name :=
    Trim_pad name CharSpace [] [' '] (by simp) (by simp [CharSpace])
      (fun c hc e => hn1 c hc ((mem_CharSpace c).mp e))
      (fun c hc e => hn2 c hc ((mem_CharSpace c).mp e))
  have tv : strings.Trim (String.mk ([' '] ++ value.data ++ [])) CharSpace = value :=
    Trim_pad value CharSpace [' '] [] (by simp [CharSpace]) (by simp)
      (fun c hc e => hv1 c hc ((mem_CharSpace c).mp e))
      (fun c hc e => hv2 c hc ((mem_CharSpace c).mp e))
  simp only [List.nil_append, List.append_nil] at tn tv
  unfold optionLine
  by_cases hv : value ≠ CharEmpty
  · rw [if_pos hv]
    cases d with
    | EqualDelimiter =>
        have hs : (name ++ DelimiterString Delimiter.EqualDelimiter ++ value).data =
            (name.data ++ [' ']) ++ '=' :: ([' '] ++ value.data) := by
          simp [DelimiterString, EqualDelimiterString, CharSpace, CharEqual]
        have hn : '=' ∉ name.data ++ [' '] := by
          simp only [List.mem_append, List.mem_singleton, not_or]
          exact ⟨hne, by decide⟩
        rw [parseOption_of_equal _ _ _ hs hn, tn, tv]
    | ColonDelimiter =>
        have hs : (name ++ DelimiterString Delimiter.ColonDelimiter ++ value).data =
            (name.data ++ [' ']) ++ ':' :: ([' '] ++ value.data) := by
          simp [DelimiterString, ColonDelimiterString, CharSpace, CharColon]
        have hn : ':' ∉ name.data ++ [' '] := by
          simp only [List.mem_append, List.mem_singleton, not_or]
          exact ⟨hnc, by decide⟩
        have he : '=' ∉ (name ++ DelimiterString Delimiter.ColonDelimiter ++ value).data := by
          rw [hs]
          simp only [List.mem_append, List.mem_singleton, List.mem_cons, not_or]
          exact ⟨⟨hne, by decide⟩, by decide, by decide, hd rfl⟩
        rw [parseOption_of_colon _ _ _ he hs hn, tn, tv]
  · rw [if_neg hv]
    have hv' : value = CharEmpty := by simpa using hv
    rw [parseOption_of_none name hne hnc, hv']

/-- C20. For a name and a value without leading or trailing space, the name without `=`
and `:`, and the value without `=` when the delimiter is `ColonDelimiter`: the line
`Section.String()` emits for the option is tokenized by `parseOption` back to the name
and the value. -/
theorem option_line_round_trip (d : Delimiter) (name value : String)
    (hn1 : ∀ c, name.data.head? = some c → c ≠ ' ')
    (hn2 : ∀ c, name.data.getLast? = some c → c ≠ ' ')
    (hv1 : ∀ c, value.data.head? = some c → c ≠ ' ')
    (hv2 : ∀ c, value.data.getLast? = some c → c ≠ ' ')
    (hne : '=' ∉ name.data) (hnc : ':' ∉ name.data)
    (hd : d = Delimiter.ColonDelimiter → '=' ∉ value.data) :
    parseOption (optionLine d name value) = (name, value) ∧
    (∀ s : Section, s.ValueOf name = value →
      String.join (Section.optionParts d s name) = optionLine d name value ++ CharEOF) :=
  ⟨parseOption_optionLine d name value hn1 hn2 hv1 hv2 hne hnc hd,
   fun s hs => hs ▸ join_optionParts d s name⟩

/-- The line `a : b:c` written with `ColonDelimiter` for the option `a` with value
`b:c`. -/
theorem option_line_round_trip_witness :
    parseOption (optionLine Delimiter.ColonDelimiter "a" "b:c") = ("a", "b:c") :=
  (option_line_round_trip Delimiter.ColonDelimiter "a" "b:c" (by decide) (by decide)
    (by decide) (by decide) (by decide) (by decide) (fun _ => by decide)).1

/-! ## Header lines -/

theorem IsSection_iff (line : String) :
    IsSection line = true ↔ line.data.head? = some '[' := by
  unfold IsSection strings.HasPrefix
  cases h : line.data with
  | nil => simp [CharLSBracket, List.isPrefixOf]
  | cons c cs =>
      simp only [CharLSBracket, List.isPrefixOf, List.head?_cons, Option.some_inj,
        Bool.and_true, beq_iff_eq]
      exact eq_comm

theorem readLine_header (st : Configuration × Nat) (line : String)
    (h : IsSection line = true) :
    readLine st line =
      Configuration.AddSection st.1 (strings.Trim line (CharSpace ++ SectionEmpty)) := by
  unfold readLine
  rw [if_neg (Nat.not_lt_zero _), if_pos h]

theorem readLine_option (st : Configuration × Nat) (line : String)
    (h : IsSection line = false) :
    readLine st line = (Configuration.update st.1 st.2 (fun s => AddOption s line), st.2) := by
  unfold readLine
  rw [if_neg (Nat.not_lt_zero _), if_neg (by simp [h])]

/-- C15, counterexample. A line with a space before `[` is not a header: the store read
from ` [x]` has only the global section, with the whole line as an option.  And the fqn
is not the text between the brackets: `[[a]]` gives `a`, and the text after the closing
bracket of `[a] x` stays in the fqn. -/
theorem header_needs_leading_bracket :
    IsSection " [x]" = false ∧
    (Read "config.ini" [" [x]"]).orderedSections = ["global"] ∧
    ((Read "config.ini" [" [x]"]).deref 0).OptionNames = [" [x]"] ∧
    (Read "config.ini" ["[[a]]"]).orderedSections = ["global", "a"] ∧
    (Read "config.ini" ["[a] x"]).orderedSections = ["global", "a] x"] := by
  decide

/-- C15, amended. `Read` treats a line as a section header exactly when its first
character is `[`.  For such a line it registers a new, empty section whose fqn is the
line without its leading and trailing run of characters out of space, `[` and `]`
(`[ a.b ]` gives `a.b`, `[[a]]` gives `a`, `[a] x` gives `a] x`), and makes it the active
section; for any other line it registers nothing. -/
theorem header_line_spec (st : Configuration × Nat) (line : String) :
    (IsSection line = true ↔ line.data.head? = some '[') ∧
    (IsSection line = true →
      readLine st line =
        Configuration.AddSection st.1 (strings.Trim line (CharSpace ++ SectionEmpty)) ∧
      (readLine st line).2 = st.1.heap.length ∧
      (readLine st line).1.deref (readLine st line).2 =
        NewSection (strings.Trim line (CharSpace ++ SectionEmpty)) ∧
      (∃ l, (readLine st line).1.sections.get?
          (strings.Trim line (CharSpace ++ SectionEmpty)) = some (l ++ [st.1.heap.length]))) ∧
    (IsSection line = false →
      (readLine st line).1.sections = st.1.sections ∧
      (readLine st line).1.orderedSections = st.1.orderedSections ∧
      (readLine st line).1.heap.length = st.1.heap.length ∧
      (readLine st line).2 = st.2) ∧
    (∃ a b, (∀ c ∈ a, c = ' ' ∨ c = '[' ∨ c = ']') ∧ (∀ c ∈ b, c = ' ' ∨ c = '[' ∨ c = ']') ∧
      line.data = a ++ (strings.Trim line (CharSpace ++ SectionEmpty)).data ++ b ∧
      (∀ c, (strings.Trim line (CharSpace ++ SectionEmpty)).data.head? = some c →
        c ≠ ' ' ∧ c ≠ '[' ∧ c ≠ ']') ∧
      (∀ c, (strings.Trim line (CharSpace ++ SectionEmpty)).data.getLast? = some c →
        c ≠ ' ' ∧ c ≠ '[' ∧ c ≠ ']')) ∧
    strings.Trim "[ a.b ]" (CharSpace ++ SectionEmpty) = "a.b" ∧
    strings.Trim "[[a]]" (CharSpace ++ SectionEmpty) = "a" ∧
    strings.Trim "[a] x" (CharSpace ++ SectionEmpty) = "a] x" := by
  have hcut : ∀ c : Char, c ∈ (CharSpace ++ SectionEmpty).data ↔ c = ' ' ∨ c = '[' ∨ c = ']' := by
    intro c
    simp [CharSpace, SectionEmpty, CharLSBracket, CharRSBracket]
  refine ⟨IsSection_iff line, ?_, ?_, ?_, by decide, by decide, by decide⟩
  · intro h
    rw [readLine_header st line h]
    refine ⟨rfl, addSection_snd _ _, ?_, ?_⟩
    · simp only [Configuration.AddSection]
      rw [addSection_snd, deref_addSection_new]
    · simp only [Configuration.AddSection]
      rw [get?_addSection, if_pos rfl]
      exact ⟨_, rfl⟩
  · intro h
    rw [readLine_option st line h]
    refine ⟨rfl, rfl, ?_, rfl⟩
    simp [Configuration.update]
  · obtain ⟨a, b, ha, hb, hl, hh, hg⟩ := Trim_spec line (CharSpace ++ SectionEmpty)
    refine ⟨a, b, fun c hc => (hcut c).mp (ha c hc), fun c hc => (hcut c).mp (hb c hc), hl, ?_, ?_⟩
    · intro c hc
      have := hh c hc
      rw [hcut] at this
      simpa [not_or] using this
    · intro c hc
      have := hg c hc
      rw [hcut] at this
      simpa [not_or] using this

/-! ## Reading: the sections of the blocks -/

theorem getD_append_length {α : Type} (front : List α) (x d : α) (rest : List α) :
    (front ++ x :: rest).getD front.length d = x := by
  rw [List.getD_eq_getElem?_getD, List.getElem?_append_right (le_refl _)]
  simp

theorem set_append_length {α : Type} (front : List α) (x y : α) (rest : List α) :
    (front ++ x :: rest).set front.length y = front ++ y :: rest := by
  induction front with
  | nil => rfl
  | cons a t ih => simp [ih]

theorem ingest_snoc (fqn : String) (acc : List String) (line : String) :
    AddOption (ingest (fqn, acc)) line = ingest (fqn, acc ++ [line]) := by
  simp [ingest, List.foldl_append]

theorem foldl_readLine_heap (ls : List String) :
    ∀ (st : Configuration × Nat) (front : List Section) (fqn : String) (acc : List String),
      st.1.heap = front ++ [ingest (fqn, acc)] → st.2 = front.length →
      (ls.foldl readLine st).1.heap = front ++ (blocksFrom fqn acc ls).map ingest := by
  induction ls with
  | nil =>
      intro st front fqn acc h _
      simpa [blocksFrom] using h
  | cons l ls ih =>
      intro st front fqn acc h hp
      rw [List.foldl_cons]
      by_cases hs : IsSection l = true
      · rw [readLine_header st l hs]
        have h1 : (Configuration.AddSection st.1
            (strings.Trim l (CharSpace ++ SectionEmpty))).1.heap =
            (front ++ [ingest (fqn, acc)]) ++
              [ingest (strings.Trim l (CharSpace ++ SectionEmpty), [])] := by
          simp only [Configuration.AddSection]
          rw [addSection_heap, h]
          rfl
        have h2 : (Configuration.AddSection st.1
            (strings.Trim l (CharSpace ++ SectionEmpty))).2 =
            (front ++ [ingest (fqn, acc)]).length := by
          simp only [Configuration.AddSection]
          rw [addSection_snd, h]
        rw [ih _ _ _ _ h1 h2]
        simp [blocksFrom, hs]
      · have hs' : IsSection l = false := by simpa using hs
        rw [readLine_option st l hs']
        have h1 : (Configuration.update st.1 st.2 (fun s => AddOption s l)).heap =
            front ++ [ingest (fqn, acc ++ [l])] := by
          simp only [Configuration.update, Configuration.deref]
          rw [h, hp, getD_append_length, set_append_length, ingest_snoc]
        rw [ih (Configuration.update st.1 st.2 (fun s => AddOption s l), st.2) front fqn
          (acc ++ [l]) h1 hp]
        simp [blocksFrom, hs']

theorem Read_heap (filePath : String) (lines : List String) :
    (Read filePath lines).heap = (blocks lines).map ingest := by
  have h := foldl_readLine_heap lines
    (Configuration.AddSection (NewConfigurationWithFP filePath) globalSection) []
    globalSection []
    (by simp [Configuration.AddSection, addSection_heap, NewConfigurationWithFP, ingest])
    (by simp [Configuration.AddSection, addSection_snd, NewConfigurationWithFP])
  simpa [Read, blocks] using h

/-! ### What `AddOption` leaves in a section -/

theorem AddOption_fqn (s : Section) (line : String) : (AddOption s line).fqn = s.fqn := rfl

theorem AddOption_names (s : Section) (line : String) :
    (AddOption s line).orderedOptions = s.orderedOptions ++ [(parseOption line).1] := rfl

theorem AddOption_ValueOf (s : Section) (line k : String) :
    (AddOption s line).ValueOf k =
      if k = (parseOption line).1 then (parseOption line).2 else s.ValueOf k := by
  have hopt : (AddOption s line).options = s.options.set (parseOption line).1
      (parseOption line).2 := by
    unfold AddOption
    by_cases e : (parseOption line).2 ≠ CharEmpty
    · simp [e]
    · have e' : (parseOption line).2 = CharEmpty := by simpa using e
      simp [e']
  unfold Section.ValueOf
  rw [hopt]
  by_cases h : k = (parseOption line).1
  · subst h; simp [GoMap.get?_set_self]
  · simp [GoMap.get?_set_ne s.options _ h, h]

theorem foldl_AddOption_fqn (ls : List String) :
    ∀ s : Section, (ls.foldl AddOption s).fqn = s.fqn := by
  induction ls with
  | nil => intro s; rfl
  | cons l ls ih => intro s; rw [List.foldl_cons, ih, AddOption_fqn]

theorem foldl_AddOption_names (ls : List String) :
    ∀ s : Section, (ls.foldl AddOption s).orderedOptions =
      s.orderedOptions ++ ls.map (fun l => (parseOption l).1) := by
  induction ls with
  | nil => intro s; simp
  | cons l ls ih => intro s; rw [List.foldl_cons, ih, AddOption_names]; simp

theorem foldl_AddOption_ValueOf_last (pre post : List String) (line : String) (s : Section)
    (h : ∀ l ∈ post, (parseOption l).1 ≠ (parseOption line).1) :
    ((pre ++ line :: post).foldl AddOption s).ValueOf (parseOption line).1 =
      (parseOption line).2 := by
  rw [List.foldl_append, List.foldl_cons]
  have key : ∀ (post : List String) (t : Section),
      (∀ l ∈ post, (parseOption l).1 ≠ (parseOption line).1) →
      (post.foldl AddOption t).ValueOf (parseOption line).1 = t.ValueOf (parseOption line).1 := by
    intro post
    induction post with
    | nil => intro t _; rfl
    | cons l ls ih =>
        intro t ht
        rw [List.foldl_cons, ih _ (fun x hx => ht x (List.mem_cons_of_mem _ hx)),
          AddOption_ValueOf, if_neg (fun e => ht l (List.mem_cons_self _ _) e.symm)]
  rw [key post _ h, AddOption_ValueOf, if_pos rfl]

theorem ingest_fqn (b : String × List String) : (ingest b).fqn = b.1 :=
  foldl_AddOption_fqn b.2 _

theorem ingest_names (b : String × List String) :
    (ingest b).orderedOptions = b.2.map (fun l => (parseOption l).1) := by
  unfold ingest
  rw [foldl_AddOption_names]
  rfl

/-! ### The blocks of a text -/

theorem blocksFrom_lines (ls : List String) :
    ∀ (fqn : String) (acc : List String),
      (blocksFrom fqn acc ls).flatMap (fun b => b.2) =
        acc ++ ls.filter (fun l => !IsSection l) := by
  induction ls with
  | nil => intro fqn acc; simp [blocksFrom]
  | cons l ls ih =>
      intro fqn acc
      by_cases hs : IsSection l = true
      · simp [blocksFrom, hs, ih]
      · have hs' : IsSection l = false := by simpa using hs
        simp [blocksFrom, hs', ih]

theorem blocksFrom_no_header (ls : List String) :
    ∀ (fqn : String) (acc : List String), (∀ l ∈ acc, IsSection l = false) →
      ∀ b ∈ blocksFrom fqn acc ls, ∀ l ∈ b.2, IsSection l = false := by
  induction ls with
  | nil =>
      intro fqn acc hacc b hb l hl
      simp only [blocksFrom, List.mem_singleton] at hb
      subst hb
      exact hacc l hl
  | cons x xs ih =>
      intro fqn acc hacc b hb l hl
      by_cases hs : IsSection x = true
      · simp only [blocksFrom, hs, if_true, List.mem_cons] at hb
        rcases hb with hb | hb
        · subst hb; exact hacc l hl
        · exact ih _ [] (fun _ h => by cases h) b hb l hl
      · have hs' : IsSection x = false := by simpa using hs
        simp only [blocksFrom, hs', Bool.false_eq_true, if_false] at hb
        refine ih fqn (acc ++ [x]) ?_ b hb l hl
        intro y hy
        rcases List.mem_append.mp hy with hy | hy
        · exact hacc y hy
        · simp only [List.mem_singleton] at hy; exact hy ▸ hs'

/-! ## Reading: the books of the store -/

theorem indicesFrom_snoc (f : String) (L : List String) (x : String) :
    ∀ k, indicesFrom k f (L ++ [x]) =
      indicesFrom k f L ++ (if x = f then [k + L.length] else []) := by
  induction L with
  | nil => intro k; by_cases h : x = f <;> simp [indicesFrom, h]
  | cons y ys ih =>
      intro k
      have e : k + 1 + ys.length = k + (ys.length + 1) := by omega
      by_cases h : y = f
      · simp [indicesFrom, h, ih, e]
      · simp [indicesFrom, h, ih, e]

theorem indicesFrom_eq_nil (f : String) (L : List String) :
    ∀ k, indicesFrom k f L = [] ↔ f ∉ L := by
  induction L with
  | nil => intro k; simp [indicesFrom]
  | cons y ys ih =>
      intro k
      by_cases h : y = f
      · simp [indicesFrom, h]
      · have h' : ¬ f = y := fun e => h e.symm
        simp [indicesFrom, h, h', ih]

theorem indicesFrom_split (f : String) (pre post : List String) (h : f ∉ pre) :
    ∀ k, indicesFrom k f (pre ++ f :: post) =
      (k + pre.length) :: indicesFrom (k + pre.length + 1) f post := by
  induction pre with
  | nil => intro k; simp [indicesFrom]
  | cons y ys ih =>
      intro k
      have hy : ¬ y = f := fun e => h (e ▸ List.mem_cons_self _ _)
      have hys : f ∉ ys := fun e => h (List.mem_cons_of_mem _ e)
      have e : k + 1 + ys.length = k + (ys.length + 1) := by omega
      simp [indicesFrom, hy, ih hys, e]

theorem firstSeen_snoc (L : List String) (x : String) :
    firstSeen (L ++ [x]) =
      if x ∈ firstSeen L then firstSeen L else firstSeen L ++ [x] := by
  simp [firstSeen, List.foldl_append]

theorem mem_firstSeen_all (L : List String) : ∀ x, x ∈ firstSeen L ↔ x ∈ L := by
  induction L using List.reverseRecOn with
  | nil => intro x; simp [firstSeen]
  | append_singleton l a ih =>
      intro x
      rw [firstSeen_snoc]
      by_cases h : a ∈ firstSeen l
      · rw [if_pos h, ih x, List.mem_append, List.mem_singleton]
        constructor
        · exact Or.inl
        · rintro (h' | h')
          · exact h'
          · exact h' ▸ (ih a).mp h
      · rw [if_neg h, List.mem_append, List.mem_append, ih x]

theorem mem_firstSeen (L : List String) (x : String) : x ∈ firstSeen L ↔ x ∈ L :=
  mem_firstSeen_all L x

theorem nodup_firstSeen (L : List String) : (firstSeen L).Nodup := by
  induction L using List.reverseRecOn with
  | nil => simp [firstSeen]
  | append_singleton l a ih =>
      rw [firstSeen_snoc]
      by_cases h : a ∈ firstSeen l
      · rw [if_pos h]; exact ih
      · rw [if_neg h, List.nodup_append]
        refine ⟨ih, List.nodup_singleton _, ?_⟩
        intro b hb hb'
        simp only [List.mem_singleton] at hb'
        exact h (hb' ▸ hb)

theorem indexed_new (filePath : String) : (NewConfigurationWithFP filePath).indexed := by
  refine ⟨fun f => ?_, ?_⟩ <;> simp [NewConfigurationWithFP, GoMap.get?, indicesFrom, firstSeen]

theorem indexed_addSection (c : Configuration) (fqn : String) (h : c.indexed) :
    (c.addSection fqn).1.indexed := by
  obtain ⟨h1, h2⟩ := h
  have hK : (c.addSection fqn).1.heap.map (fun s => s.fqn) =
      c.heap.map (fun s => s.fqn) ++ [fqn] := by
    rw [addSection_heap]; simp [NewSection]
  have hlen : (c.heap.map (fun s => s.fqn)).length = c.heap.length := by simp
  have hI : (c.sections.get? fqn).getD [] = indicesFrom 0 fqn (c.heap.map (fun s => s.fqn)) := by
    rw [h1 fqn]
    by_cases e : indicesFrom 0 fqn (c.heap.map (fun s => s.fqn)) = []
    · rw [if_pos e, e]; rfl
    · rw [if_neg e]; rfl
  refine ⟨fun f => ?_, ?_⟩
  · rw [get?_addSection, hK, indicesFrom_snoc, hlen, hI]
    by_cases e : f = fqn
    · subst e; simp
    · have e' : ¬ fqn = f := fun x => e x.symm
      rw [if_neg e, if_neg e', List.append_nil]
      exact h1 f
  · rw [addSection_ordered, hK, firstSeen_snoc, h2]
    by_cases e : indicesFrom 0 fqn (c.heap.map (fun s => s.fqn)) = []
    · have hm : fqn ∉ firstSeen (c.heap.map (fun s => s.fqn)) := fun hx =>
        (indicesFrom_eq_nil _ _ 0).mp e ((mem_firstSeen _ _).mp hx)
      have hs : ¬ (c.sections.get? fqn).isSome = true := by
        rw [h1 fqn, if_pos e]; simp
      rw [if_neg hs, if_neg hm]
    · have hm : fqn ∈ firstSeen (c.heap.map (fun s => s.fqn)) := by
        rw [mem_firstSeen]
        by_contra hc
        exact e ((indicesFrom_eq_nil _ _ 0).mpr hc)
      have hs : (c.sections.get? fqn).isSome = true := by
        rw [h1 fqn, if_neg e]; rfl
      rw [if_pos hs, if_pos hm]

theorem map_fqn_set (g : Section → Section) (hg : ∀ s, (g s).fqn = s.fqn) (d : Section)
    (l : List Section) :
    ∀ p, (l.set p (g (l.getD p d))).map (fun s => s.fqn) = l.map (fun s => s.fqn) := by
  induction l with
  | nil => intro p; rfl
  | cons x xs ih =>
      intro p
      cases p with
      | zero => simp [hg]
      | succ p =>
          have := ih p
          simpa using this

theorem indexed_update (c : Configuration) (p : Nat) (g : Section → Section)
    (hg : ∀ s, (g s).fqn = s.fqn) (h : c.indexed) : (c.update p g).indexed := by
  have hK : (c.update p g).heap.map (fun s => s.fqn) = c.heap.map (fun s => s.fqn) :=
    map_fqn_set g hg _ c.heap p
  unfold Configuration.indexed
  rw [hK]
  exact h

theorem indexed_foldl_readLine (lines : List String) :
    ∀ st : Configuration × Nat, st.1.indexed → (lines.foldl readLine st).1.indexed := by
  induction lines with
  | nil => intro st h; exact h
  | cons l ls ih =>
      intro st h
      rw [List.foldl_cons]
      apply ih
      by_cases hs : IsSection l = true
      · rw [readLine_header st l hs]
        exact indexed_addSection _ _ h
      · have hs' : IsSection l = false := by simpa using hs
        rw [readLine_option st l hs']
        exact indexed_update _ _ _ (fun s => AddOption_fqn s l) h

theorem indexed_Read (filePath : String) (lines : List String) :
    (Read filePath lines).indexed :=
  indexed_foldl_readLine lines _ (indexed_addSection _ _ (indexed_new filePath))

theorem Read_fqns (filePath : String) (lines : List String) :
    (Read filePath lines).heap.map (fun s => s.fqn) = (blocks lines).map (fun b => b.1) := by
  rw [Read_heap, List.map_map]
  congr 1
  funext b
  exact ingest_fqn b

/-- The blocks of a text start with the block of the global section, which holds the
lines before the first header line. -/
theorem blocksFrom_head (ls : List String) :
    ∀ (fqn : String) (acc : List String), ∃ rest,
      blocksFrom fqn acc ls = (fqn, acc ++ ls.takeWhile (fun l => !IsSection l)) :: rest := by
  induction ls with
  | nil => intro fqn acc; exact ⟨[], by simp [blocksFrom]⟩
  | cons x xs ih =>
      intro fqn acc
      by_cases hs : IsSection x = true
      · exact ⟨blocksFrom (strings.Trim x (CharSpace ++ SectionEmpty)) [] xs,
          by simp [blocksFrom, hs]⟩
      · have hs' : IsSection x = false := by simpa using hs
        obtain ⟨rest, hr⟩ := ih fqn (acc ++ [x])
        exact ⟨rest, by simp [blocksFrom, hs', hr]⟩

/-- C16. The sections `Read` builds are, in the order of the text, the sections of its
blocks, the global block first; the blocks hold every line that is not a header, once and
in line order.  The section of a block has in `OptionNames()` the tokenized name of each
of its lines, in line order, so a name occurs as often as there are lines with it, while
`ValueOf` gives the value of the last such line.  No line is skipped, and an empty line
is the option with the empty name. -/
theorem Read_sections_by_block (filePath : String) (lines : List String) :
    (Read filePath lines).heap = (blocks lines).map ingest ∧
    (blocks lines).flatMap (fun b => b.2) = lines.filter (fun l => !IsSection l) ∧
    (∀ b ∈ blocks lines, ∀ l ∈ b.2, IsSection l = false) ∧
    (∀ b : String × List String,
      (ingest b).Name = b.1 ∧
      (ingest b).OptionNames = b.2.map (fun l => (parseOption l).1) ∧
      (∀ k, (ingest b).OptionNames.count k =
        (b.2.filter (fun l => (parseOption l).1 = k)).length) ∧
      (∀ pre line post, b.2 = pre ++ line :: post →
        (∀ l ∈ post, (parseOption l).1 ≠ (parseOption line).1) →
        (ingest b).ValueOf (parseOption line).1 = (parseOption line).2)) ∧
    (∀ line : String, ¬ line.length < 0) ∧
    IsSection "" = false ∧ parseOption "" = ("", "") := by
  refine ⟨Read_heap filePath lines, ?_, ?_, ?_, fun line => Nat.not_lt_zero _, by decide,
    by decide⟩
  · simpa [blocks] using blocksFrom_lines lines globalSection []
  · exact blocksFrom_no_header lines globalSection [] (fun _ h => by cases h)
  · intro b
    refine ⟨ingest_fqn b, ingest_names b, ?_, ?_⟩
    · intro k
      show List.count k (ingest b).orderedOptions = _
      rw [ingest_names, List.count, List.countP_map, List.countP_eq_length_filter]
      congr 2
    · intro pre line post hb hpost
      unfold ingest
      rw [hb]
      exact foldl_AddOption_ValueOf_last pre post line _ hpost

/-- C12. When the blocks of the text are `before`, then the block `(x, blk)`, then
`after`, and no block of `before` is for `x` (so that this is the first block for `x`):
`Section(x)` succeeds and returns the section of this block, built from exactly its
lines, and when `line` is the last line of the block with its name, `ValueOf` and
`StringValue` give the value of `line`.  The first block of every text is the block of
`global`, with the lines before the first header line. -/
theorem Read_Section_of_first_block (filePath : String) (lines : List String)
    (before after : List (String × List String)) (x : String) (blk : List String)
    (hb : blocks lines = before ++ (x, blk) :: after) (hfirst : ∀ b ∈ before, b.1 ≠ x) :
    Configuration.Section (Read filePath lines) x = (some before.length, none) ∧
    (Read filePath lines).deref before.length = ingest (x, blk) ∧
    (∀ pre line post, blk = pre ++ line :: post →
      (∀ l ∈ post, (parseOption l).1 ≠ (parseOption line).1) →
      ((Read filePath lines).deref before.length).ValueOf (parseOption line).1 =
        (parseOption line).2 ∧
      Configuration.StringValue (Read filePath lines) x (parseOption line).1 =
        ((parseOption line).2, none)) ∧
    (∃ rest, blocks lines =
      (globalSection, lines.takeWhile (fun l => !IsSection l)) :: rest) := by
  have hK : (Read filePath lines).heap.map (fun s => s.fqn) =
      before.map (fun b => b.1) ++ x :: after.map (fun b => b.1) := by
    rw [Read_fqns, hb]; simp
  have hx : x ∉ before.map (fun b => b.1) := by
    intro hm
    obtain ⟨b, hbm, hbx⟩ := List.mem_map.mp hm
    exact hfirst b hbm hbx
  have hI := indicesFrom_split x _ (after.map (fun b => b.1)) hx 0
  have hget : (Read filePath lines).sections.get? x =
      some (before.length :: indicesFrom (before.length + 1) x (after.map (fun b => b.1))) := by
    rw [(indexed_Read filePath lines).1 x, hK, hI]
    simp
  have hsec : Configuration.Section (Read filePath lines) x = (some before.length, none) := by
    unfold Configuration.Section
    rw [hget]
  have hderef : (Read filePath lines).deref before.length = ingest (x, blk) := by
    unfold Configuration.deref
    rw [Read_heap, hb, List.map_append, List.map_cons]
    have := getD_append_length (before.map ingest) (ingest (x, blk)) (NewSection CharEmpty)
      (after.map ingest)
    rw [List.length_map] at this
    exact this
  refine ⟨hsec, hderef, ?_, ?_⟩
  · intro pre line post hblk hpost
    have hv : ((Read filePath lines).deref before.length).ValueOf (parseOption line).1 =
        (parseOption line).2 := by
      rw [hderef]
      unfold ingest
      rw [hblk]
      exact foldl_AddOption_ValueOf_last pre post line _ hpost
    refine ⟨hv, ?_⟩
    unfold Configuration.StringValue
    rw [hsec]
    simp only
    rw [hv]
  · simpa [blocks] using blocksFrom_head lines globalSection []

/-- The scenario `a = 1`, `[x]`, `b = 2` of spec §8. -/
theorem Read_Section_of_first_block_witness :
    blocks ["a = 1", "[x]", "b = 2"] = [("global", ["a = 1"])] ++ ("x", ["b = 2"]) :: [] ∧
    ((Read "config.ini" ["a = 1", "[x]", "b = 2"]).deref 1).ValueOf "b" = "2" ∧
    Configuration.StringValue (Read "config.ini" ["a = 1", "[x]", "b = 2"]) "x" "b" =
      ("2", none) :=
  ⟨by decide,
   ((Read_Section_of_first_block "config.ini" ["a = 1", "[x]", "b = 2"]
      [("global", ["a = 1"])] [] "x" ["b = 2"] (by decide)
      (by intro b hb; simp only [List.mem_singleton] at hb; subst hb; decide)).2.2.1
      [] "b = 2" [] rfl (fun _ h => by cases h))⟩

/-! ## Rendering a store -/

theorem Sections_wildcard (c : Configuration) :
    (c.Sections CharEmpty).1 = c.orderedSections.flatMap (fun f => (c.sections.get? f).getD []) := by
  unfold Configuration.Sections
  rw [if_pos rfl]
  have hf : (fun (sections : List Nat) (fqn : String) =>
      match c.sections.get? fqn with
      | some lst => sections ++ lst
      | none => sections) = (fun acc x => acc ++ (c.sections.get? x).getD []) := by
    funext acc x
    cases c.sections.get? x <;> simp
  simp only [hf, foldl_append_eq_flatMap, List.nil_append]

theorem Sections_of_ne (c : Configuration) (f : String) (hf : f ≠ CharEmpty) :
    (c.Sections f).1 = (c.sections.get? f).getD [] := by
  unfold Configuration.Sections
  rw [if_neg hf]
  cases c.sections.get? f <;> rfl

/-- When the empty fqn is not registered, `Configuration.String` is the concatenation of
`Section.String` over `AllSections()`. -/
theorem render_eq_AllSections (d : Delimiter) (c : Configuration)
    (h : CharEmpty ∉ c.orderedSections) :
    c.render d = String.join (c.AllSections.1.map (fun p => (c.deref p).render d)) := by
  unfold Configuration.render Configuration.AllSections
  rw [foldl_append_eq_flatMap, List.nil_append, Sections_wildcard, List.map_flatMap]
  congr 1
  apply List.flatMap_congr
  intro f hf
  rw [Sections_of_ne c f (fun e => h (e ▸ hf))]

theorem saveText_eq (d : Delimiter) (c : Configuration) :
    c.saveText d = String.join (c.AllSections.1.map (fun p => (c.deref p).render d)) := by
  unfold Configuration.saveText
  generalize c.AllSections.1 = l
  have key : ∀ (l : List Nat) (w : String),
      l.foldl (fun w v => w ++ (c.deref v).render d) w =
        w ++ String.join (l.map (fun p => (c.deref p).render d)) := by
    intro l
    induction l with
    | nil => intro w; simp [join_nil]
    | cons x xs ih => intro w; rw [List.foldl_cons, ih, List.map_cons, join_cons, String.append_assoc]
  rw [key l "", String.empty_append]

/-- C17. The store `Read` builds from the lines `a`, `[]` satisfies the store invariant
and holds the sections `global` and the one with the empty fqn.  `Configuration.String`
renders the global section twice, `a`, `a`, `[]`, because `Sections("")` returns all
sections, while the concatenation of `Section.String` over `AllSections()`, which is the
text `Save` writes, is `a`, `[]`. -/
theorem Configuration_render_with_empty_fqn :
    (Read "config.ini" ["a", "[]"]).storeInv ∧
    (Read "config.ini" ["a", "[]"]).orderedSections = ["global", ""] ∧
    (Read "config.ini" ["a", "[]"]).AllSections = ([0, 1], none) ∧
    (Read "config.ini" ["a", "[]"]).render Delimiter.EqualDelimiter = "a\na\n[]\n" ∧
    String.join ((Read "config.ini" ["a", "[]"]).AllSections.1.map
      (fun p => ((Read "config.ini" ["a", "[]"]).deref p).render Delimiter.EqualDelimiter)) =
      "a\n[]\n" ∧
    (Read "config.ini" ["a", "[]"]).saveText Delimiter.EqualDelimiter = "a\n[]\n" :=
  ⟨(inv_Read _ _).1, by decide, by decide, by decide, by decide, by decide⟩

/-! ## Scanning a text that was written line by line -/

theorem scanLinesFrom_line (l rest : List Char) (h : '\n' ∉ l) :
    ∀ cur, scanLinesFrom cur (l ++ '\n' :: rest) =
      String.mk (dropCR (cur ++ l)) :: scanLinesFrom [] rest := by
  induction l with
  | nil => intro cur; simp [scanLinesFrom]
  | cons c cs ih =>
      intro cur
      have hc : ¬ c = '\n' := fun e => h (e ▸ List.mem_cons_self _ _)
      have hcs : '\n' ∉ cs := fun e => h (List.mem_cons_of_mem _ e)
      rw [List.cons_append, scanLinesFrom, if_neg hc, ih hcs]
      simp

theorem scanLines_join (rs : List String) (h : ∀ r ∈ rs, '\n' ∉ r.data) :
    scanLines (String.join (rs.map (fun r => r ++ CharEOF))) =
      rs.map (fun r => String.mk (dropCR r.data)) := by
  unfold scanLines
  induction rs with
  | nil => simp [join_nil, scanLinesFrom]
  | cons r rs ih =>
      have hr : '\n' ∉ r.data := h r (List.mem_cons_self _ _)
      have hd : (String.join ((r :: rs).map (fun r => r ++ CharEOF))).data =
          r.data ++ '\n' :: (String.join (rs.map (fun r => r ++ CharEOF))).data := by
        rw [List.map_cons, join_cons]
        simp [CharEOF]
      rw [hd, scanLinesFrom_line r.data _ hr [], List.nil_append,
        ih (fun x hx => h x (List.mem_cons_of_mem _ hx))]
      rfl

theorem dropCR_of_not_mem (l : List Char) (h : '\r' ∉ l) : dropCR l = l := by
  unfold dropCR
  rw [if_neg]
  intro hl
  exact h (List.mem_of_getLast?_eq_some hl)

theorem head?_dropCR (l : List Char) (c : Char) (h : (dropCR l).head? = some c) :
    l.head? = some c := by
  unfold dropCR at h
  by_cases hl : l.getLast? = some '\r'
  · rw [if_pos hl] at h
    cases l with
    | nil => simp at h
    | cons x xs =>
        cases xs with
        | nil => simp at h
        | cons y ys => simpa using h
  · rw [if_neg hl] at h; exact h

/-! ## The tokens of a line and the line that is written for them -/

theorem parseOption_cases (l : String) :
    (∃ pre post, l.data = pre ++ '=' :: post ∧ '=' ∉ pre ∧
      parseOption l =
        (strings.Trim (String.mk pre) CharSpace, strings.Trim (String.mk post) CharSpace)) ∨
    (∃ pre post, '=' ∉ l.data ∧ l.data = pre ++ ':' :: post ∧ ':' ∉ pre ∧
      parseOption l =
        (strings.Trim (String.mk pre) CharSpace, strings.Trim (String.mk post) CharSpace)) ∨
    ('=' ∉ l.data ∧ ':' ∉ l.data ∧ parseOption l = (l, CharEmpty)) := by
  by_cases he : '=' ∈ l.data
  · obtain ⟨pre, post, hs, hn⟩ := List.eq_append_cons_of_mem he
    exact Or.inl ⟨pre, post, hs, hn, parseOption_of_equal l pre post hs hn⟩
  · by_cases hc : ':' ∈ l.data
    · obtain ⟨pre, post, hs, hn⟩ := List.eq_append_cons_of_mem hc
      exact Or.inr (Or.inl ⟨pre, post, he, hs, hn, parseOption_of_colon l pre post he hs hn⟩)
    · exact Or.inr (Or.inr ⟨he, hc, parseOption_of_none l he hc⟩)

theorem Trim_subset (s cutset : String) (c : Char) (h : c ∈ (strings.Trim s cutset).data) :
    c ∈ s.data := by
  obtain ⟨a, b, _, _, hs, _, _⟩ := Trim_spec s cutset
  rw [hs]
  exact List.mem_append_left _ (List.mem_append_right _ h)

theorem parseOption_subset (l : String) (c : Char) :
    (c ∈ (parseOption l).1.data → c ∈ l.data) ∧ (c ∈ (parseOption l).2.data → c ∈ l.data) := by
  rcases parseOption_cases l with ⟨pre, post, hs, _, hp⟩ | ⟨pre, post, _, hs, _, hp⟩ |
    ⟨_, _, hp⟩
  · rw [hp, hs]
    exact ⟨fun h => List.mem_append_left _ (Trim_subset _ _ c h),
      fun h => List.mem_append_right _ (List.mem_cons_of_mem _ (Trim_subset _ _ c h))⟩
  · rw [hp, hs]
    exact ⟨fun h => List.mem_append_left _ (Trim_subset _ _ c h),
      fun h => List.mem_append_right _ (List.mem_cons_of_mem _ (Trim_subset _ _ c h))⟩
  · rw [hp]
    exact ⟨fun h => h, fun h => by simp [CharEmpty] at h⟩

/-- The name of a line does not begin with `[` when the first character of the line
that is not a space is not `[`. -/
theorem name_head_ne_bracket (l : String)
    (h : (l.data.dropWhile (fun c => decide (c = ' '))).head? ≠ some '[') :
    (parseOption l).1.data.head? ≠ some '[' := by
  have key : ∀ pre rest : List Char, l.data = pre ++ rest →
      (strings.Trim (String.mk pre) CharSpace).data.head? ≠ some '[' := by
    intro pre rest hs hh
    obtain ⟨a, b, ha, _, hpre, _, _⟩ := Trim_spec (String.mk pre) CharSpace
    have ha' : ∀ c ∈ a, (fun c => decide (c = ' ')) c = true := by
      intro c hc; simpa using (mem_CharSpace c).mp (ha c hc)
    apply h
    cases hn : (strings.Trim (String.mk pre) CharSpace).data with
    | nil => rw [hn] at hh; simp at hh
    | cons x xs =>
        rw [hn] at hh hpre
        simp only [List.head?_cons, Option.some_inj] at hh
        subst hh
        have hpre' : pre = a ++ '[' :: (xs ++ b) := by
          rw [show (String.mk pre).data = pre from rfl] at hpre
          rw [hpre]; simp
        rw [hs, hpre', List.append_assoc, dropWhile_pad _ a _ ha', List.cons_append,
          List.dropWhile_cons_of_neg (by decide)]
        rfl
  rcases parseOption_cases l with ⟨pre, post, hs, _, hp⟩ | ⟨pre, post, _, hs, _, hp⟩ |
    ⟨_, _, hp⟩
  · rw [hp]; exact key pre _ hs
  · rw [hp]; exact key pre _ hs
  · rw [hp]
    intro hh
    apply h
    cases hl : l.data with
    | nil => rw [hl] at hh; simp at hh
    | cons x xs =>
        rw [hl] at hh
        simp only [List.head?_cons, Option.some_inj] at hh
        subst hh
        rw [List.dropWhile_cons_of_neg (by decide)]
        rfl

theorem optionLine_data (d : Delimiter) (n v : String) :
    (optionLine d n v).data =
      if v ≠ CharEmpty then n.data ++ (DelimiterString d).data ++ v.data else n.data := by
  unfold optionLine
  by_cases h : v ≠ CharEmpty
  · rw [if_pos h, if_pos h]; simp
  · rw [if_neg h, if_neg h]

theorem DelimiterString_data (d : Delimiter) :
    (DelimiterString d).data = [' ', '=', ' '] ∨ (DelimiterString d).data = [' ', ':', ' '] := by
  cases d
  · exact Or.inl (by decide)
  · exact Or.inr (by decide)

theorem optionLine_head (d : Delimiter) (n v : String)
    (h : (optionLine d n v).data.head? = some '[') : n.data.head? = some '[' := by
  rw [optionLine_data] at h
  by_cases hv : v ≠ CharEmpty
  · rw [if_pos hv] at h
    cases hn : n.data with
    | nil =>
        rw [hn] at h
        rcases DelimiterString_data d with e | e <;> rw [e] at h <;> simp at h
    | cons x xs => rw [hn] at h; simpa using h
  · rw [if_neg hv] at h; exact h

theorem optionLine_mem (d : Delimiter) (n v : String) (c : Char)
    (h : c ∈ (optionLine d n v).data) :
    c ∈ n.data ∨ c ∈ v.data ∨ c = ' ' ∨ c = '=' ∨ c = ':' := by
  rw [optionLine_data] at h
  by_cases hv : v ≠ CharEmpty
  · rw [if_pos hv] at h
    rcases List.mem_append.mp h with h | h
    · rcases List.mem_append.mp h with h | h
      · exact Or.inl h
      · rcases DelimiterString_data d with e | e <;> rw [e] at h <;> simp at h <;>
          rcases h with h | h | h <;> simp [h]
    · exact Or.inr (Or.inl h)
  · rw [if_neg hv] at h; exact Or.inl h

/-- Every name of a section built by `AddOption` comes, with its value, from one of the
lines. -/
theorem token_of_name (ls : List String) :
    ∀ (s : Section) (n : String), n ∈ ls.map (fun l => (parseOption l).1) →
      ∃ l ∈ ls, parseOption l = (n, (ls.foldl AddOption s).ValueOf n) := by
  induction ls using List.reverseRecOn with
  | nil => intro s n h; simp at h
  | append_singleton ls l ih =>
      intro s n h
      rw [List.foldl_append, List.foldl_cons, List.foldl_nil, AddOption_ValueOf]
      by_cases e : n = (parseOption l).1
      · rw [if_pos e]
        exact ⟨l, by simp, by rw [e]⟩
      · rw [if_neg e]
        have hn : n ∈ ls.map (fun l => (parseOption l).1) := by
          rw [List.map_append, List.mem_append] at h
          rcases h with h | h
          · exact h
          · simp only [List.map_cons, List.map_nil, List.mem_singleton] at h
            exact absurd h e
        obtain ⟨l', hl', hp⟩ := ih s n hn
        exact ⟨l', List.mem_append_left _ hl', hp⟩

theorem blocksFrom_of_no_header (ls : List String) (h : ∀ l ∈ ls, IsSection l = false) :
    ∀ (fqn : String) (acc : List String), blocksFrom fqn acc ls = [(fqn, acc ++ ls)] := by
  induction ls with
  | nil => intro fqn acc; simp [blocksFrom]
  | cons x xs ih =>
      intro fqn acc
      have hx := h x (List.mem_cons_self _ _)
      simp [blocksFrom, hx, ih (fun l hl => h l (List.mem_cons_of_mem _ hl))]

/-! ## Rendering a text without header -/

theorem Read_of_no_header (filePath : String) (lines : List String)
    (h : ∀ l ∈ lines, IsSection l = false) :
    (Read filePath lines).heap = [ingest (globalSection, lines)] ∧
    (Read filePath lines).orderedSections = [globalSection] ∧
    (Read filePath lines).sections.get? globalSection = some [0] := by
  have hheap : (Read filePath lines).heap = [ingest (globalSection, lines)] := by
    rw [Read_heap, blocks, blocksFrom_of_no_header lines h]
    rfl
  have hK : (Read filePath lines).heap.map (fun s => s.fqn) = [globalSection] := by
    rw [hheap]
    simp [ingest_fqn]
  obtain ⟨h1, h2⟩ := indexed_Read filePath lines
  refine ⟨hheap, ?_, ?_⟩
  · rw [h2, hK]
    simp [firstSeen]
  · rw [h1 globalSection, hK]
    simp [indicesFrom]

theorem render_of_no_header (d : Delimiter) (filePath : String) (lines : List String)
    (h : ∀ l ∈ lines, IsSection l = false) :
    (Read filePath lines).render d =
      String.join ((lines.map (fun l => (parseOption l).1)).map
        (fun n => optionLine d n ((ingest (globalSection, lines)).ValueOf n) ++ CharEOF)) := by
  obtain ⟨hheap, hord, hget⟩ := Read_of_no_header filePath lines h
  have hne : CharEmpty ∉ (Read filePath lines).orderedSections := by
    rw [hord]; decide
  have hall : (Read filePath lines).AllSections.1 = [0] := by
    unfold Configuration.AllSections
    rw [Sections_wildcard, hord]
    simp [hget]
  have hderef : (Read filePath lines).deref 0 = ingest (globalSection, lines) := by
    unfold Configuration.deref
    rw [hheap]
    rfl
  rw [render_eq_AllSections d _ hne, hall, List.map_cons, List.map_nil, join_cons, join_nil,
    String.append_empty, hderef, render_eq, ingest_fqn, if_pos rfl, ingest_names]
  exact String.empty_append _

/-- C19, counterexample. The line ` [a] = 1` is not a header for `Read`, so the text has no
header line; its name is `[a]`, and the rendered text is the line `[a] = 1`, which begins
with `[`. -/
theorem global_render_with_bracket_line :
    IsSection " [a] = 1" = false ∧
    (Read "config.ini" [" [a] = 1"]).orderedSections = ["global"] ∧
    (Read "config.ini" [" [a] = 1"]).render Delimiter.EqualDelimiter = "[a] = 1\n" ∧
    scanLines ((Read "config.ini" [" [a] = 1"]).render Delimiter.EqualDelimiter) =
      ["[a] = 1"] := by
  decide

theorem optionLine_head_of_name (d : Delimiter) (n v : String) (c : Char)
    (h : n.data.head? = some c) : (optionLine d n v).data.head? = some c := by
  rw [optionLine_data]
  by_cases hv : v ≠ CharEmpty
  · rw [if_pos hv]
    cases hn : n.data with
    | nil => rw [hn] at h; simp at h
    | cons x xs => rw [hn] at h; simpa using h
  · rw [if_neg hv]; exact h

theorem head?_dropCR_of_ne (l : List Char) (c : Char) (h : l.head? = some c)
    (hc : c ≠ '\r') : (dropCR l).head? = some c := by
  unfold dropCR
  by_cases hl : l.getLast? = some '\r'
  · rw [if_pos hl]
    cases l with
    | nil => simp at h
    | cons x xs =>
        cases xs with
        | nil =>
            simp only [List.head?_cons, Option.some_inj] at h
            simp only [List.getLast?_singleton, Option.some_inj] at hl
            exact absurd (h ▸ hl) hc
        | cons y ys => simpa using h
  · rw [if_neg hl]; exact h

/-- C19, amended. For a text (lines without newline) with no header line: the store holds
the global section only, the text `Configuration.String` renders is exactly the option
lines of the global section, without any header, and no line of the rendered text begins
with `[` if and only if no option name, as `parseOption` tokenizes its line, begins with
`[`. -/
theorem global_render_without_bracket_line (d : Delimiter) (filePath : String)
    (lines : List String) (hnl : ∀ l ∈ lines, '\n' ∉ l.data)
    (hno : ∀ l ∈ lines, IsSection l = false) :
    (Read filePath lines).orderedSections = [globalSection] ∧
    (Read filePath lines).render d =
      String.join ((lines.map (fun l => (parseOption l).1)).map
        (fun n => optionLine d n (((Read filePath lines).deref 0).ValueOf n) ++ CharEOF)) ∧
    ((∀ r ∈ scanLines ((Read filePath lines).render d), r.data.head? ≠ some '[') ↔
      (∀ l ∈ lines, (parseOption l).1.data.head? ≠ some '[')) := by
  obtain ⟨hheap, hord, _⟩ := Read_of_no_header filePath lines hno
  have hderef : (Read filePath lines).deref 0 = ingest (globalSection, lines) := by
    unfold Configuration.deref
    rw [hheap]
    rfl
  have hrender := render_of_no_header d filePath lines hno
  refine ⟨hord, by rw [hderef]; exact hrender, ?_⟩
  have hm : (lines.map (fun l => (parseOption l).1)).map
      (fun n => optionLine d n ((ingest (globalSection, lines)).ValueOf n) ++ CharEOF) =
      ((lines.map (fun l => (parseOption l).1)).map
        (fun n => optionLine d n ((ingest (globalSection, lines)).ValueOf n))).map
        (fun r => r ++ CharEOF) := by
    simp only [List.map_map, Function.comp_def]
  have hclean : ∀ r ∈ (lines.map (fun l => (parseOption l).1)).map
      (fun n => optionLine d n ((ingest (globalSection, lines)).ValueOf n)),
      '\n' ∉ r.data := by
    intro r hr
    obtain ⟨n, hn, rfl⟩ := List.mem_map.mp hr
    obtain ⟨l, hl, hp⟩ := token_of_name lines (NewSection globalSection) n hn
    have hn1 : n = (parseOption l).1 := by rw [hp]
    have hv1 : (ingest (globalSection, lines)).ValueOf n = (parseOption l).2 := by
      rw [hp]; rfl
    intro hm
    rcases optionLine_mem d _ _ _ hm with hm | hm | hm | hm | hm
    · rw [hn1] at hm; exact hnl l hl ((parseOption_subset l _).1 hm)
    · rw [hv1] at hm; exact hnl l hl ((parseOption_subset l _).2 hm)
    · exact absurd hm (by decide)
    · exact absurd hm (by decide)
    · exact absurd hm (by decide)
  rw [hrender, hm, scanLines_join _ hclean]
  constructor
  · intro h l hl hh
    have hn : (parseOption l).1 ∈ lines.map (fun l => (parseOption l).1) :=
      List.mem_map.mpr ⟨l, hl, rfl⟩
    refine h (String.mk (dropCR (optionLine d (parseOption l).1
      ((ingest (globalSection, lines)).ValueOf (parseOption l).1)).data)) ?_ ?_
    · exact List.mem_map.mpr ⟨_, List.mem_map.mpr ⟨_, hn, rfl⟩, rfl⟩
    · exact head?_dropCR_of_ne _ _ (optionLine_head_of_name d _ _ _ hh) (by decide)
  · intro h r hr
    obtain ⟨r', hr', rfl⟩ := List.mem_map.mp hr
    obtain ⟨n, hn, rfl⟩ := List.mem_map.mp hr'
    obtain ⟨l, hl, hp⟩ := token_of_name lines (NewSection globalSection) n hn
    have hn1 : n = (parseOption l).1 := by rw [hp]
    intro hh
    have := optionLine_head d _ _ (head?_dropCR _ _ hh)
    rw [hn1] at this
    exact h l hl this

/-- Two option lines, one of them indented, rendered with `ColonDelimiter`. -/
theorem global_render_without_bracket_line_witness :
    (∀ l ∈ ["a = 1", "  b"], '\n' ∉ l.data) ∧
    (∀ l ∈ ["a = 1", "  b"], IsSection l = false) ∧
    (∀ r ∈ scanLines ((Read "config.ini" ["a = 1", "  b"]).render Delimiter.ColonDelimiter),
      r.data.head? ≠ some '[') :=
  ⟨by decide, by decide,
   (global_render_without_bracket_line Delimiter.ColonDelimiter "config.ini" ["a = 1", "  b"]
     (by decide) (by decide)).2.2.mpr (by decide)⟩

/-! ## Sections grouped by fqn -/

theorem firstSeen_cons (x : String) (L : List String) :
    firstSeen (x :: L) = x :: firstSeen (L.filter (fun y => decide (y ≠ x))) := by
  induction L using List.reverseRecOn with
  | nil => simp [firstSeen]
  | append_singleton L y ih =>
      rw [← List.cons_append, firstSeen_snoc, ih, List.filter_append]
      by_cases e : y = x
      · subst e
        simp
      · have hy : List.filter (fun y => decide (y ≠ x)) [y] = [y] := by simp [e]
        rw [hy, firstSeen_snoc]
        by_cases hm : y ∈ firstSeen (List.filter (fun y => decide (y ≠ x)) L)
        · rw [if_pos hm, if_pos (List.mem_cons_of_mem _ hm)]
        · rw [if_neg hm, if_neg]
          · rfl
          · intro h
            rcases List.mem_cons.mp h with h | h
            · exact e h
            · exact hm h

theorem firstSeen_cons_of_not_mem (x : String) (L : List String) (h : x ∉ L) :
    firstSeen (x :: L) = x :: firstSeen L := by
  rw [firstSeen_cons, List.filter_eq_self.mpr]
  intro y hy
  simpa using fun (e : y = x) => h (e ▸ hy)

theorem firstSeen_replicate_append (x : String) (n : Nat) (L : List String) (h : x ∉ L) :
    firstSeen (List.replicate (n + 1) x ++ L) = x :: firstSeen L := by
  induction n with
  | zero => exact firstSeen_cons_of_not_mem x L h
  | succ n ih =>
      rw [List.replicate_succ, List.cons_append, firstSeen_cons, List.filter_append]
      have h1 : List.filter (fun y => decide (y ≠ x)) (List.replicate (n + 1) x) = [] := by
        rw [List.filter_eq_nil_iff]
        intro a ha
        simp [List.eq_of_mem_replicate ha]
      have h2 : List.filter (fun y => decide (y ≠ x)) L = L := by
        rw [List.filter_eq_self]
        intro y hy
        simpa using fun (e : y = x) => h (e ▸ hy)
      rw [h1, h2, List.nil_append]

/-- A list that is laid out fqn by fqn is its own grouping. -/
theorem grouped_of_blocks (U : List String) (B : String → List Section) (hU : U.Nodup)
    (hB : ∀ f ∈ U, B f ≠ [] ∧ ∀ s ∈ B f, s.fqn = f) :
    grouped (U.flatMap B) = U.flatMap B := by
  induction U with
  | nil => rfl
  | cons f U ih =>
      obtain ⟨hf, hU'⟩ := List.nodup_cons.mp hU
      have hB' : ∀ g ∈ U, B g ≠ [] ∧ ∀ s ∈ B g, s.fqn = g :=
        fun g hg => hB g (List.mem_cons_of_mem _ hg)
      obtain ⟨hne, hfq⟩ := hB f (List.mem_cons_self _ _)
      have hK : (B f).map (fun s => s.fqn) = List.replicate (B f).length f := by
        rw [List.eq_replicate_iff]
        refine ⟨by simp, ?_⟩
        intro b hb
        obtain ⟨s, hs, rfl⟩ := List.mem_map.mp hb
        exact hfq s hs
      have hnot : f ∉ (U.flatMap B).map (fun s => s.fqn) := by
        intro h
        obtain ⟨s, hs, e⟩ := List.mem_map.mp h
        obtain ⟨g, hg, hsg⟩ := List.mem_flatMap.mp hs
        have : g = f := by rw [← (hB' g hg).2 s hsg]; exact e
        exact hf (this ▸ hg)
      obtain ⟨n, hn⟩ : ∃ n, (B f).length = n + 1 := by
        cases hb : B f with
        | nil => exact absurd hb hne
        | cons a t => exact ⟨t.length, rfl⟩
      have hfs : firstSeen ((List.flatMap (f :: U) B).map (fun s => s.fqn)) =
          f :: firstSeen ((U.flatMap B).map (fun s => s.fqn)) := by
        rw [List.flatMap_cons, List.map_append, hK, hn]
        exact firstSeen_replicate_append f n _ hnot
      have h1 : (B f).filter (fun s => decide (s.fqn = f)) = B f := by
        rw [List.filter_eq_self]
        intro s hs
        simpa using hfq s hs
      have h2 : (U.flatMap B).filter (fun s => decide (s.fqn = f)) = [] := by
        rw [List.filter_eq_nil_iff]
        intro s hs
        obtain ⟨g, hg, hsg⟩ := List.mem_flatMap.mp hs
        have : s.fqn ≠ f := by
          rw [(hB' g hg).2 s hsg]
          exact fun e => hf (e ▸ hg)
        simpa using this
      have h3 : ∀ g ∈ firstSeen ((U.flatMap B).map (fun s => s.fqn)),
          (List.flatMap (f :: U) B).filter (fun s => decide (s.fqn = g)) =
            (U.flatMap B).filter (fun s => decide (s.fqn = g)) := by
        intro g hg
        have hgf : g ≠ f := by
          intro e
          exact hnot (e ▸ (mem_firstSeen _ g).mp hg)
        rw [List.flatMap_cons, List.filter_append]
        have : (B f).filter (fun s => decide (s.fqn = g)) = [] := by
          rw [List.filter_eq_nil_iff]
          intro s hs
          have : s.fqn ≠ g := by rw [hfq s hs]; exact fun e => hgf e.symm
          simpa using this
        rw [this, List.nil_append]
      have ih' := ih hU' hB'
      unfold grouped at ih' ⊢
      rw [hfs, List.flatMap_cons, List.flatMap_congr h3, ih']
      rw [List.flatMap_cons, List.filter_append, h1, h2, List.append_nil]

/-! ## The sections of `AllSections()` -/

theorem indicesFrom_getD (f : String) (dflt : Section) (H : List Section) :
    ∀ pre : List Section,
      (indicesFrom pre.length f (H.map (fun s => s.fqn))).map
        (fun i => (pre ++ H).getD i dflt) = H.filter (fun s => decide (s.fqn = f)) := by
  induction H with
  | nil => intro pre; rfl
  | cons s H ih =>
      intro pre
      have h := ih (pre ++ [s])
      rw [List.length_append, List.length_singleton, List.append_assoc,
        List.singleton_append] at h
      by_cases e : s.fqn = f
      · rw [List.map_cons, indicesFrom, if_pos e, List.map_cons, h, getD_append_length,
          List.filter_cons_of_pos (by simpa using e)]
      · rw [List.map_cons, indicesFrom, if_neg e, h,
          List.filter_cons_of_neg (by simpa using e)]

/-- In a store whose books are kept by `addSection`, `AllSections()` lists the sections
grouped by fqn. -/
theorem AllSections_of_indexed (c : Configuration) (h : c.indexed) :
    c.AllSections.1.map c.deref = grouped c.heap := by
  obtain ⟨h1, h2⟩ := h
  unfold Configuration.AllSections grouped
  rw [Sections_wildcard, h2, List.map_flatMap]
  apply List.flatMap_congr
  intro f _
  rw [h1 f]
  by_cases e : indicesFrom 0 f (c.heap.map (fun s => s.fqn)) = []
  · rw [if_pos e]
    have := indicesFrom_getD f (NewSection CharEmpty) c.heap []
    rw [List.length_nil, e] at this
    exact this
  · rw [if_neg e]
    exact indicesFrom_getD f (NewSection CharEmpty) c.heap []

theorem flatten_eq (c : Configuration) :
    c.flatten = (c.AllSections.1.map c.deref).map
      (fun s => (s.fqn, s.orderedOptions, s.orderedOptions.map (fun n => s.ValueOf n))) := by
  unfold Configuration.flatten
  rw [List.map_map]
  rfl

theorem render_eq_sectionLines (d : Delimiter) (s : Section) :
    s.render d = String.join ((sectionLines d s).map (fun r => r ++ CharEOF)) := by
  rw [render_eq]
  unfold sectionLines
  by_cases h : s.fqn = globalSection
  · rw [if_pos h, if_pos h, List.nil_append, List.map_map]
    exact String.empty_append _
  · rw [if_neg h, if_neg h, List.map_append, join_append, List.map_map]
    rfl

/-! ## Reading back the line of an option -/

theorem parseOption_optionLine_equal (name value : String)
    (hn1 : ∀ c, name.data.head? = some c → c ≠ ' ')
    (hn2 : ∀ c, name.data.getLast? = some c → c ≠ ' ')
    (hv1 : ∀ c, value.data.head? = some c → c ≠ ' ')
    (hv2 : ∀ c, value.data.getLast? = some c → c ≠ ' ')
    (hne : '=' ∉ name.data) (hv : value ≠ CharEmpty) :
    parseOption (optionLine Delimiter.EqualDelimiter name value) = (name, value) := by
  have tn : strings.Trim (String.mk ([] ++ name.data ++ [' '])) CharSpace = name :=
    Trim_pad name CharSpace [] [' '] (by simp) (by simp [CharSpace])
      (fun c hc e => hn1 c hc ((mem_CharSpace c).mp e))
      (fun c hc e => hn2 c hc ((mem_CharSpace c).mp e))
  have tv : strings.Trim (String.mk ([' '] ++ value.data ++ [])) CharSpace = value :=
    Trim_pad value CharSpace [' '] [] (by simp [CharSpace]) (by simp)
      (fun c hc e => hv1 c hc ((mem_CharSpace c).mp e))
      (fun c hc e => hv2 c hc ((mem_CharSpace c).mp e))
  simp only [List.nil_append, List.append_nil] at tn tv
  unfold optionLine
  rw [if_pos hv]
  have hs : (name ++ DelimiterString Delimiter.EqualDelimiter ++ value).data =
      (name.data ++ [' ']) ++ '=' :: ([' '] ++ value.data) := by
    simp [DelimiterString, EqualDelimiterString, CharSpace, CharEqual]
  have hn : '=' ∉ name.data ++ [' '] := by
    simp only [List.mem_append, List.mem_singleton, not_or]
    exact ⟨hne, by decide⟩
  rw [parseOption_of_equal _ _ _ hs hn, tn, tv]

/-- The tokens of a line are read back from the line that is written for them. -/
theorem parseOption_written (d : Delimiter) (l : String)
    (hnc : (d = Delimiter.ColonDelimiter ∨ (parseOption l).2 = CharEmpty) →
      ':' ∉ (parseOption l).1.data)
    (hd : d = Delimiter.ColonDelimiter → '=' ∉ (parseOption l).2.data) :
    parseOption (optionLine d (parseOption l).1 (parseOption l).2) = parseOption l := by
  have key : ∀ pre post : List Char, '=' ∉ (strings.Trim (String.mk pre) CharSpace).data →
      parseOption l =
        (strings.Trim (String.mk pre) CharSpace, strings.Trim (String.mk post) CharSpace) →
      parseOption (optionLine d (parseOption l).1 (parseOption l).2) = parseOption l := by
    intro pre post hne hp
    rw [hp] at hnc hd ⊢
    obtain ⟨_, _, _, _, _, hn1, hn2⟩ := Trim_spec (String.mk pre) CharSpace
    obtain ⟨_, _, _, _, _, hv1, hv2⟩ := Trim_spec (String.mk post) CharSpace
    have sp : ∀ c : Char, c ∉ CharSpace.data → c ≠ ' ' :=
      fun c h e => h ((mem_CharSpace c).mpr e)
    by_cases hc : ':' ∈ (strings.Trim (String.mk pre) CharSpace).data
    · have hd' : d = Delimiter.EqualDelimiter := by
        cases d with
        | EqualDelimiter => rfl
        | ColonDelimiter => exact absurd hc (hnc (Or.inl rfl))
      have hv : strings.Trim (String.mk post) CharSpace ≠ CharEmpty :=
        fun e => hnc (Or.inr e) hc
      subst hd'
      exact parseOption_optionLine_equal _ _ (fun c h => sp c (hn1 c h))
        (fun c h => sp c (hn2 c h)) (fun c h => sp c (hv1 c h)) (fun c h => sp c (hv2 c h))
        hne hv
    · exact parseOption_optionLine d _ _ (fun c h => sp c (hn1 c h))
        (fun c h => sp c (hn2 c h)) (fun c h => sp c (hv1 c h)) (fun c h => sp c (hv2 c h))
        hne hc hd
  rcases parseOption_cases l with ⟨pre, post, _, hn, hp⟩ | ⟨pre, post, he, hs, _, hp⟩ |
    ⟨_, _, hp⟩
  · exact key pre post (fun h => hn (Trim_subset _ _ _ h)) hp
  · refine key pre post (fun h => he ?_) hp
    rw [hs]
    exact List.mem_append_left _ (Trim_subset _ _ _ h)
  · rw [hp]
    unfold optionLine
    rw [if_neg (by simp)]
    exact hp

theorem IsSection_optionLine (d : Delimiter) (n v : String)
    (h : n.data.head? ≠ some '[') : IsSection (optionLine d n v) = false := by
  by_contra hc
  have hs : IsSection (optionLine d n v) = true := by simpa using hc
  exact h (optionLine_head d n v ((IsSection_iff _).mp hs))

theorem IsSection_header (f : String) :
    IsSection (CharLSBracket ++ f ++ CharRSBracket) = true := by
  rw [IsSection_iff]
  simp [CharLSBracket]

/-! ## The blocks of the text that is written -/

theorem blocksFrom_append_options (opts tail : List String)
    (h : ∀ l ∈ opts, IsSection l = false) :
    ∀ (fqn : String) (acc : List String),
      blocksFrom fqn acc (opts ++ tail) = blocksFrom fqn (acc ++ opts) tail := by
  induction opts with
  | nil => intro fqn acc; simp
  | cons x xs ih =>
      intro fqn acc
      have hx := h x (List.mem_cons_self _ _)
      rw [List.cons_append, blocksFrom, if_neg (by simp [hx]),
        ih (fun l hl => h l (List.mem_cons_of_mem _ hl))]
      simp

theorem blocksFrom_sectionLines (d : Delimiter) (T : List Section)
    (hT : ∀ s ∈ T, s.fqn ≠ globalSection ∧
      strings.Trim (CharLSBracket ++ s.fqn ++ CharRSBracket) (CharSpace ++ SectionEmpty) =
        s.fqn ∧
      ∀ n ∈ s.orderedOptions, IsSection (optionLine d n (s.ValueOf n)) = false) :
    ∀ (fqn : String) (acc : List String),
      blocksFrom fqn acc (T.flatMap (sectionLines d)) =
        (fqn, acc) :: T.map (fun s =>
          (s.fqn, s.orderedOptions.map (fun n => optionLine d n (s.ValueOf n)))) := by
  induction T with
  | nil => intro fqn acc; rfl
  | cons s T ih =>
      intro fqn acc
      obtain ⟨hg, ht, ho⟩ := hT s (List.mem_cons_self _ _)
      have hopt : ∀ l ∈ s.orderedOptions.map (fun n => optionLine d n (s.ValueOf n)),
          IsSection l = false := by
        intro l hl
        obtain ⟨n, hn, rfl⟩ := List.mem_map.mp hl
        exact ho n hn
      rw [List.flatMap_cons, sectionLines, if_neg hg, List.singleton_append, List.cons_append,
        blocksFrom, if_pos (IsSection_header _), ht, blocksFrom_append_options _ _ hopt,
        ih (fun t ht => hT t (List.mem_cons_of_mem _ ht)), List.nil_append, List.map_cons]

/-- The blocks of the lines written for a list of sections whose first one is the global
section: one block for each section, with its fqn and its option lines. -/
theorem blocks_sectionLines (d : Delimiter) (h0 : Section) (T : List Section)
    (h0g : h0.fqn = globalSection)
    (h0o : ∀ n ∈ h0.orderedOptions, IsSection (optionLine d n (h0.ValueOf n)) = false)
    (hT : ∀ s ∈ T, s.fqn ≠ globalSection ∧
      strings.Trim (CharLSBracket ++ s.fqn ++ CharRSBracket) (CharSpace ++ SectionEmpty) =
        s.fqn ∧
      ∀ n ∈ s.orderedOptions, IsSection (optionLine d n (s.ValueOf n)) = false) :
    blocks ((h0 :: T).flatMap (sectionLines d)) =
      (h0 :: T).map (fun s =>
        (s.fqn, s.orderedOptions.map (fun n => optionLine d n (s.ValueOf n)))) := by
  have hopt : ∀ l ∈ h0.orderedOptions.map (fun n => optionLine d n (h0.ValueOf n)),
      IsSection l = false := by
    intro l hl
    obtain ⟨n, hn, rfl⟩ := List.mem_map.mp hl
    exact h0o n hn
  rw [blocks, List.flatMap_cons, sectionLines, if_pos h0g, List.nil_append,
    blocksFrom_append_options _ _ hopt, blocksFrom_sectionLines d T hT, List.nil_append,
    List.map_cons, h0g]

/-- The section read from the lines written for a section has the same fqn, the same
names and the same value for each name. -/
theorem ingest_sectionLines (d : Delimiter) (s : Section)
    (h : ∀ n ∈ s.orderedOptions,
      parseOption (optionLine d n (s.ValueOf n)) = (n, s.ValueOf n)) :
    (ingest (s.fqn, s.orderedOptions.map (fun n => optionLine d n (s.ValueOf n)))).fqn =
      s.fqn ∧
    (ingest (s.fqn, s.orderedOptions.map
      (fun n => optionLine d n (s.ValueOf n)))).orderedOptions = s.orderedOptions ∧
    ∀ n ∈ s.orderedOptions,
      (ingest (s.fqn, s.orderedOptions.map
        (fun n => optionLine d n (s.ValueOf n)))).ValueOf n = s.ValueOf n := by
  have hnames : (s.orderedOptions.map (fun n => optionLine d n (s.ValueOf n))).map
      (fun l => (parseOption l).1) = s.orderedOptions := by
    rw [List.map_map]
    conv_rhs => rw [← List.map_id s.orderedOptions]
    apply List.map_congr_left
    intro n hn
    simp only [Function.comp_apply, h n hn, id]
  refine ⟨ingest_fqn _, ?_, ?_⟩
  · rw [ingest_names]
    exact hnames
  · intro n hn
    have hn' : n ∈ (s.orderedOptions.map (fun n => optionLine d n (s.ValueOf n))).map
        (fun l => (parseOption l).1) := by rw [hnames]; exact hn
    obtain ⟨l, hl, hp⟩ := token_of_name _ (NewSection s.fqn) n hn'
    obtain ⟨m, hm, rfl⟩ := List.mem_map.mp hl
    rw [h m hm] at hp
    have h1 : m = n := congrArg Prod.fst hp
    have h2 := congrArg Prod.snd hp
    subst h1
    exact h2.symm

/-! ## Writing a store and reading it again -/

theorem grouped_cons (h0 : Section) (R : List Section) (h : ∀ s ∈ R, s.fqn ≠ h0.fqn) :
    ∃ T, grouped (h0 :: R) = h0 :: T ∧ ∀ s ∈ T, s ∈ R := by
  have hnot : h0.fqn ∉ R.map (fun s => s.fqn) := by
    intro hm
    obtain ⟨s, hs, e⟩ := List.mem_map.mp hm
    exact h s hs e
  have hR : R.filter (fun s => decide (s.fqn = h0.fqn)) = [] := by
    rw [List.filter_eq_nil_iff]
    intro s hs
    simpa using h s hs
  unfold grouped
  rw [List.map_cons, firstSeen_cons_of_not_mem _ _ hnot, List.flatMap_cons,
    List.filter_cons_of_pos (by simp), hR, List.singleton_append]
  refine ⟨_, rfl, ?_⟩
  intro s hs
  obtain ⟨f, hf, hsf⟩ := List.mem_flatMap.mp hs
  obtain ⟨hmem, hfq⟩ := List.mem_filter.mp hsf
  have hfq' : s.fqn = f := by simpa using hfq
  rcases List.mem_cons.mp hmem with e | e
  · exfalso
    apply hnot
    rw [← e, hfq']
    exact (mem_firstSeen _ f).mp hf
  · exact e

theorem mem_grouped (H : List Section) (s : Section) (h : s ∈ grouped H) : s ∈ H := by
  unfold grouped at h
  obtain ⟨f, _, hsf⟩ := List.mem_flatMap.mp h
  exact (List.mem_filter.mp hsf).1

theorem sectionLines_clean (d : Delimiter) (s : Section)
    (hf : s.fqn ≠ globalSection → '\n' ∉ s.fqn.data)
    (ho : ∀ n ∈ s.orderedOptions, '\n' ∉ (optionLine d n (s.ValueOf n)).data ∧
      (optionLine d n (s.ValueOf n)).data.getLast? ≠ some '\r') :
    ∀ r ∈ sectionLines d s, '\n' ∉ r.data ∧ r.data.getLast? ≠ some '\r' := by
  intro r hr
  unfold sectionLines at hr
  rcases List.mem_append.mp hr with hr | hr
  · by_cases hg : s.fqn = globalSection
    · rw [if_pos hg] at hr
      cases hr
    · rw [if_neg hg, List.mem_singleton] at hr
      subst hr
      have hd : (CharLSBracket ++ s.fqn ++ CharRSBracket).data = '[' :: (s.fqn.data ++ [']']) := by
        simp [CharLSBracket, CharRSBracket]
      rw [hd]
      refine ⟨?_, ?_⟩
      · simp only [List.mem_cons, List.mem_append, List.mem_singleton, not_or]
        exact ⟨by decide, hf hg, by decide⟩
      · rw [← List.cons_append, List.getLast?_append_of_ne_nil _ (by simp)]
        simp
  · obtain ⟨n, hn, rfl⟩ := List.mem_map.mp hr
    exact ho n hn

theorem scanLines_clean (rs : List String)
    (h : ∀ r ∈ rs, '\n' ∉ r.data ∧ r.data.getLast? ≠ some '\r') :
    scanLines (String.join (rs.map (fun r => r ++ CharEOF))) = rs := by
  rw [scanLines_join rs (fun r hr => (h r hr).1)]
  conv_rhs => rw [← List.map_id rs]
  apply List.map_congr_left
  intro r hr
  unfold dropCR
  rw [if_neg (h r hr).2]
  rfl

/-! ## The scanner of `Read` -/

theorem scanFrom_line (l rest : List Char) (h : '\n' ∉ l) :
    ∀ cur, scanFrom cur (l ++ '\n' :: rest) =
      if MaxScanTokenSize ≤ byteLen (cur ++ l) then none
      else (scanFrom [] rest).map (fun r => String.mk (dropCR (cur ++ l)) :: r) := by
  induction l with
  | nil => intro cur; rw [List.nil_append, scanFrom, if_pos rfl, List.append_nil]
  | cons c cs ih =>
      intro cur
      have hc : ¬ c = '\n' := fun e => h (e ▸ List.mem_cons_self _ _)
      have hcs : '\n' ∉ cs := fun e => h (List.mem_cons_of_mem _ e)
      rw [List.cons_append, scanFrom, if_neg hc, ih hcs]
      simp

theorem join_lines_data (r : String) (rs : List String) :
    (String.join ((r :: rs).map (fun r => r ++ CharEOF))).data =
      r.data ++ '\n' :: (String.join (rs.map (fun r => r ++ CharEOF))).data := by
  rw [List.map_cons, join_cons]
  simp [CharEOF]

/-- The scanner of `Read` on a text that was written line by line: it yields the lines
when each has less than `MaxScanTokenSize` bytes. -/
theorem scan_join (rs : List String) (h : ∀ r ∈ rs, '\n' ∉ r.data)
    (hs : ∀ r ∈ rs, byteLen r.data < MaxScanTokenSize) :
    scan (String.join (rs.map (fun r => r ++ CharEOF))) =
      some (rs.map (fun r => String.mk (dropCR r.data))) := by
  unfold scan
  induction rs with
  | nil => rfl
  | cons r rs ih =>
      have hr : '\n' ∉ r.data := h r (List.mem_cons_self _ _)
      have hb : ¬ MaxScanTokenSize ≤ byteLen ([] ++ r.data) :=
        not_le.mpr (hs r (List.mem_cons_self _ _))
      rw [join_lines_data, scanFrom_line r.data _ hr [], if_neg hb,
        ih (fun x hx => h x (List.mem_cons_of_mem _ hx))
          (fun x hx => hs x (List.mem_cons_of_mem _ hx))]
      rfl

/-- The scanner of `Read` stops with an error on a text with a line of `MaxScanTokenSize`
bytes or more. -/
theorem scan_join_too_long (rs : List String) (h : ∀ r ∈ rs, '\n' ∉ r.data)
    (hl : ∃ r ∈ rs, MaxScanTokenSize ≤ byteLen r.data) :
    scan (String.join (rs.map (fun r => r ++ CharEOF))) = none := by
  unfold scan
  induction rs with
  | nil => obtain ⟨r, hr, _⟩ := hl; cases hr
  | cons r rs ih =>
      have hr : '\n' ∉ r.data := h r (List.mem_cons_self _ _)
      rw [join_lines_data, scanFrom_line r.data _ hr [], List.nil_append]
      by_cases hb : MaxScanTokenSize ≤ byteLen r.data
      · rw [if_pos hb]
      · rw [if_neg hb]
        obtain ⟨x, hx, hxl⟩ := hl
        rcases List.mem_cons.mp hx with e | e
        · exact absurd (e ▸ hxl) hb
        · rw [ih (fun y hy => h y (List.mem_cons_of_mem _ hy)) ⟨x, e, hxl⟩]
          rfl

theorem ReadFile_join (filePath : String) (rs : List String)
    (h : ∀ r ∈ rs, '\n' ∉ r.data) (hs : ∀ r ∈ rs, byteLen r.data < MaxScanTokenSize) :
    ReadFile filePath (String.join (rs.map (fun r => r ++ CharEOF))) =
      some (Read filePath (scanLines (String.join (rs.map (fun r => r ++ CharEOF))))) := by
  unfold ReadFile
  rw [scan_join rs h hs, scanLines_join rs h]
  rfl

theorem sectionLines_short (d : Delimiter) (s : Section)
    (hf : s.fqn ≠ globalSection →
      byteLen (CharLSBracket ++ s.fqn ++ CharRSBracket).data < MaxScanTokenSize)
    (ho : ∀ n ∈ s.orderedOptions,
      byteLen (optionLine d n (s.ValueOf n)).data < MaxScanTokenSize) :
    ∀ r ∈ sectionLines d s, byteLen r.data < MaxScanTokenSize := by
  intro r hr
  unfold sectionLines at hr
  rcases List.mem_append.mp hr with hr | hr
  · by_cases hg : s.fqn = globalSection
    · rw [if_pos hg] at hr
      cases hr
    · rw [if_neg hg, List.mem_singleton] at hr
      subst hr
      exact hf hg
  · obtain ⟨n, hn, rfl⟩ := List.mem_map.mp hr
    exact ho n hn

/-- A store whose books are kept by `addSection`, whose first section is the only global
one, and whose headers and option lines are read back as they are written: the text
`String()` renders is read to a store with the same flattened sequence. -/
theorem flatten_reread (d : Delimiter) (filePath : String) (c : Configuration)
    (h0 : Section) (R : List Section) (hidx : c.indexed) (hheap : c.heap = h0 :: R)
    (h0g : h0.fqn = globalSection)
    (hR : ∀ s ∈ R, s.fqn ≠ globalSection ∧ s.fqn ≠ CharEmpty ∧ '\n' ∉ s.fqn.data ∧
      strings.Trim (CharLSBracket ++ s.fqn ++ CharRSBracket) (CharSpace ++ SectionEmpty) =
        s.fqn)
    (ho : ∀ s ∈ h0 :: R, ∀ n ∈ s.orderedOptions,
      parseOption (optionLine d n (s.ValueOf n)) = (n, s.ValueOf n) ∧
      IsSection (optionLine d n (s.ValueOf n)) = false ∧
      '\n' ∉ (optionLine d n (s.ValueOf n)).data ∧
      (optionLine d n (s.ValueOf n)).data.getLast? ≠ some '\r') :
    CharEmpty ∉ c.orderedSections ∧
    c.render d = String.join (((grouped c.heap).flatMap (sectionLines d)).map
      (fun r => r ++ CharEOF)) ∧
    (∀ r ∈ (grouped c.heap).flatMap (sectionLines d),
      '\n' ∉ r.data ∧ r.data.getLast? ≠ some '\r') ∧
    scanLines (c.render d) = (grouped c.heap).flatMap (sectionLines d) ∧
    (Read filePath (scanLines (c.render d))).flatten = c.flatten := by
  have hgr := AllSections_of_indexed c hidx
  have hne : CharEmpty ∉ c.orderedSections := by
    rw [hidx.2, mem_firstSeen, hheap]
    intro hm
    obtain ⟨s, hs, e⟩ := List.mem_map.mp hm
    rcases List.mem_cons.mp hs with e' | e'
    · rw [e', h0g] at e
      exact absurd e (by decide)
    · exact (hR s e').2.1 e
  have hrender : c.render d = String.join (((grouped c.heap).flatMap (sectionLines d)).map
      (fun r => r ++ CharEOF)) := by
    rw [render_eq_AllSections d c hne, List.map_flatMap, join_flatMap, ← hgr, List.map_map]
    congr 1
    apply List.map_congr_left
    intro p _
    exact render_eq_sectionLines d (c.deref p)
  have hmemH : ∀ s ∈ grouped c.heap, s ∈ h0 :: R := by
    intro s hs
    rw [← hheap]
    exact mem_grouped _ s hs
  have hclean : ∀ r ∈ (grouped c.heap).flatMap (sectionLines d),
      '\n' ∉ r.data ∧ r.data.getLast? ≠ some '\r' := by
    intro r hr
    obtain ⟨s, hs, hrs⟩ := List.mem_flatMap.mp hr
    have hsH := hmemH s hs
    refine sectionLines_clean d s ?_ (fun n hn => (ho s hsH n hn).2.2) r hrs
    intro hg
    rcases List.mem_cons.mp hsH with e | e
    · rw [e] at hg; exact absurd h0g hg
    · exact (hR s e).2.2.1
  have hscan : scanLines (c.render d) = (grouped c.heap).flatMap (sectionLines d) := by
    rw [hrender]
    exact scanLines_clean _ hclean
  refine ⟨hne, hrender, hclean, hscan, ?_⟩
  obtain ⟨T, hT, hTR⟩ := grouped_cons h0 R (fun s hs => by rw [h0g]; exact (hR s hs).1)
  have hblocks : blocks ((grouped c.heap).flatMap (sectionLines d)) =
      (grouped c.heap).map (fun s =>
        (s.fqn, s.orderedOptions.map (fun n => optionLine d n (s.ValueOf n)))) := by
    rw [hheap, hT]
    refine blocks_sectionLines d h0 T h0g
      (fun n hn => (ho h0 (List.mem_cons_self _ _) n hn).2.1) ?_
    intro s hs
    exact ⟨(hR s (hTR s hs)).1, (hR s (hTR s hs)).2.2.2,
      fun n hn => (ho s (List.mem_cons_of_mem _ (hTR s hs)) n hn).2.1⟩
  have hheap2 : (Read filePath (scanLines (c.render d))).heap =
      (grouped c.heap).map (fun s =>
        ingest (s.fqn, s.orderedOptions.map (fun n => optionLine d n (s.ValueOf n)))) := by
    rw [Read_heap, hscan, hblocks, List.map_map]
    rfl
  have hfix : grouped ((grouped c.heap).map (fun s =>
      ingest (s.fqn, s.orderedOptions.map (fun n => optionLine d n (s.ValueOf n))))) =
      (grouped c.heap).map (fun s =>
        ingest (s.fqn, s.orderedOptions.map (fun n => optionLine d n (s.ValueOf n)))) := by
    have hmap : (grouped c.heap).map (fun s =>
        ingest (s.fqn, s.orderedOptions.map (fun n => optionLine d n (s.ValueOf n)))) =
        (firstSeen (c.heap.map (fun s => s.fqn))).flatMap (fun f =>
          (c.heap.filter (fun s => decide (s.fqn = f))).map (fun s =>
            ingest (s.fqn, s.orderedOptions.map (fun n => optionLine d n (s.ValueOf n))))) := by
      unfold grouped
      rw [List.map_flatMap]
    rw [hmap]
    apply grouped_of_blocks _ _ (nodup_firstSeen _)
    intro f hf
    obtain ⟨s, hs, e⟩ := List.mem_map.mp ((mem_firstSeen _ f).mp hf)
    refine ⟨?_, ?_⟩
    · intro hnil
      have hmem : s ∈ c.heap.filter (fun s => decide (s.fqn = f)) :=
        List.mem_filter.mpr ⟨hs, by simpa using e⟩
      rw [List.map_eq_nil_iff] at hnil
      rw [hnil] at hmem
      cases hmem
    · intro t ht
      obtain ⟨u, hu, rfl⟩ := List.mem_map.mp ht
      rw [ingest_fqn]
      simpa using (List.mem_filter.mp hu).2
  rw [flatten_eq, flatten_eq, AllSections_of_indexed _ (indexed_Read _ _), hheap2, hfix, hgr,
    List.map_map]
  apply List.map_congr_left
  intro s hs
  have hsH := hmemH s hs
  obtain ⟨h1, h2, h3⟩ := ingest_sectionLines d s (fun n hn => (ho s hsH n hn).1)
  simp only [Function.comp_apply]
  rw [h1, h2]
  congr 2
  exact List.map_congr_left h3

/-! ## The round trip of a text -/

theorem blocksFrom_tail (ls : List String) :
    ∀ (fqn : String) (acc : List String), ∃ acc' rest,
      blocksFrom fqn acc ls = (fqn, acc') :: rest ∧
      ∀ b ∈ rest, ∃ l ∈ ls, IsSection l = true ∧
        b.1 = strings.Trim l (CharSpace ++ SectionEmpty) := by
  induction ls with
  | nil => intro fqn acc; exact ⟨acc, [], rfl, fun b hb => by cases hb⟩
  | cons x xs ih =>
      intro fqn acc
      by_cases hs : IsSection x = true
      · obtain ⟨acc', rest, he, hr⟩ := ih (strings.Trim x (CharSpace ++ SectionEmpty)) []
        refine ⟨acc, (strings.Trim x (CharSpace ++ SectionEmpty), acc') :: rest, ?_, ?_⟩
        · rw [blocksFrom, if_pos hs, he]
        · intro b hb
          rcases List.mem_cons.mp hb with e | e
          · exact ⟨x, List.mem_cons_self _ _, hs, by rw [e]⟩
          · obtain ⟨l, hl, h1, h2⟩ := hr b e
            exact ⟨l, List.mem_cons_of_mem _ hl, h1, h2⟩
      · obtain ⟨acc', rest, he, hr⟩ := ih fqn (acc ++ [x])
        refine ⟨acc', rest, ?_, ?_⟩
        · rw [blocksFrom, if_neg hs, he]
        · intro b hb
          obtain ⟨l, hl, h1, h2⟩ := hr b hb
          exact ⟨l, List.mem_cons_of_mem _ hl, h1, h2⟩

theorem mem_blocks (lines : List String) (b : String × List String) (hb : b ∈ blocks lines)
    (l : String) (hl : l ∈ b.2) : l ∈ lines ∧ IsSection l = false := by
  have h := blocksFrom_lines lines globalSection []
  have hm : l ∈ (blocks lines).flatMap (fun b => b.2) := List.mem_flatMap.mpr ⟨b, hb, hl⟩
  rw [blocks, h, List.nil_append, List.mem_filter] at hm
  exact ⟨hm.1, by simpa using hm.2⟩

theorem Trim_header (f : String)
    (hh : ∀ c, f.data.head? = some c → c ∉ (CharSpace ++ SectionEmpty).data)
    (hg : ∀ c, f.data.getLast? = some c → c ∉ (CharSpace ++ SectionEmpty).data) :
    strings.Trim (CharLSBracket ++ f ++ CharRSBracket) (CharSpace ++ SectionEmpty) = f := by
  have e : CharLSBracket ++ f ++ CharRSBracket = String.mk (['['] ++ f.data ++ [']']) := by
    apply String.ext
    simp [CharLSBracket, CharRSBracket]
  rw [e]
  exact Trim_pad f _ ['['] [']'] (by decide) (by decide) hh hg

/-- C11, amended. For every text whose lines are well formed for the write delimiter
(`wellFormedLine`): with `C` the store `Read` builds from it, `Read` on a file that holds
the text `String()` renders for `C` succeeds, and the flattened sequence of fqn,
`OptionNames()` and values over `AllSections()` of the store it builds is that of `C`; and
the text `Save` writes is the rendered text. -/
theorem Read_render_round_trip (d : Delimiter) (filePath filePath1 : String)
    (lines : List String) (h : ∀ l ∈ lines, wellFormedLine d l) :
    (ReadFile filePath1 ((Read filePath lines).render d)).map Configuration.flatten =
      some (Read filePath lines).flatten ∧
    (Read filePath lines).saveText d = (Read filePath lines).render d := by
  obtain ⟨b0, rest, hbl, hrest⟩ := blocksFrom_tail lines globalSection []
  have hbl' : blocks lines = (globalSection, b0) :: rest := hbl
  have hheap : (Read filePath lines).heap = ingest (globalSection, b0) :: rest.map ingest := by
    rw [Read_heap, hbl', List.map_cons]
  have hR : ∀ s ∈ rest.map ingest, s.fqn ≠ globalSection ∧ s.fqn ≠ CharEmpty ∧
      '\n' ∉ s.fqn.data ∧
      strings.Trim (CharLSBracket ++ s.fqn ++ CharRSBracket) (CharSpace ++ SectionEmpty) =
        s.fqn := by
    intro s hs
    obtain ⟨b, hb, rfl⟩ := List.mem_map.mp hs
    obtain ⟨l, hl, hsec, hfq⟩ := hrest b hb
    obtain ⟨hnl, hhead, _⟩ := h l hl
    obtain ⟨h1, h2, _⟩ := hhead hsec
    obtain ⟨_, _, _, _, _, hh, hg⟩ := Trim_spec l (CharSpace ++ SectionEmpty)
    rw [ingest_fqn, hfq]
    exact ⟨h2, h1, fun hm => hnl (Trim_subset _ _ _ hm), Trim_header _ hh hg⟩
  have hRs : ∀ s ∈ rest.map ingest,
      byteLen (CharLSBracket ++ s.fqn ++ CharRSBracket).data < MaxScanTokenSize := by
    intro s hs
    obtain ⟨b, hb, rfl⟩ := List.mem_map.mp hs
    obtain ⟨l, hl, hsec, hfq⟩ := hrest b hb
    obtain ⟨_, hhead, _⟩ := h l hl
    rw [ingest_fqn, hfq]
    exact (hhead hsec).2.2
  have hos : ∀ s ∈ ingest (globalSection, b0) :: rest.map ingest, ∀ n ∈ s.orderedOptions,
      (parseOption (optionLine d n (s.ValueOf n)) = (n, s.ValueOf n) ∧
        IsSection (optionLine d n (s.ValueOf n)) = false ∧
        '\n' ∉ (optionLine d n (s.ValueOf n)).data ∧
        (optionLine d n (s.ValueOf n)).data.getLast? ≠ some '\r') ∧
      byteLen (optionLine d n (s.ValueOf n)).data < MaxScanTokenSize := by
    intro s hs n hn
    have hs' : s ∈ (blocks lines).map ingest := by
      rw [hbl', List.map_cons]; exact hs
    obtain ⟨b, hb, rfl⟩ := List.mem_map.mp hs'
    rw [ingest_names] at hn
    obtain ⟨l, hl, hp⟩ := token_of_name b.2 (NewSection b.1) n hn
    obtain ⟨hlines, hopt⟩ := mem_blocks lines b hb l hl
    obtain ⟨hnl, _, hbody⟩ := h l hlines
    obtain ⟨c1, c2, c3, c4, c5⟩ := hbody hopt
    have hw := parseOption_written d l c2 c3
    have hp' : parseOption l = (n, (ingest b).ValueOf n) := hp
    rw [hp'] at hw c1 c4 c5
    refine ⟨⟨hw, IsSection_optionLine d _ _ c1, ?_, c4⟩, c5⟩
    intro hm
    rcases optionLine_mem d _ _ _ hm with hm | hm | hm | hm | hm
    · exact hnl ((parseOption_subset l _).1 (by rw [hp']; exact hm))
    · exact hnl ((parseOption_subset l _).2 (by rw [hp']; exact hm))
    · exact absurd hm (by decide)
    · exact absurd hm (by decide)
    · exact absurd hm (by decide)
  obtain ⟨hne, hrender, hclean, _, hflat⟩ := flatten_reread d filePath1
    (Read filePath lines) _ _ (indexed_Read filePath lines) hheap (ingest_fqn _) hR
    (fun s hs n hn => (hos s hs n hn).1)
  have hshort : ∀ r ∈ (grouped (Read filePath lines).heap).flatMap (sectionLines d),
      byteLen r.data < MaxScanTokenSize := by
    intro r hr
    obtain ⟨s, hs, hrs⟩ := List.mem_flatMap.mp hr
    have hsH : s ∈ ingest (globalSection, b0) :: rest.map ingest := by
      rw [← hheap]; exact mem_grouped _ s hs
    refine sectionLines_short d s ?_ (fun n hn => (hos s hsH n hn).2) r hrs
    intro hg
    rcases List.mem_cons.mp hsH with e | e
    · rw [e, ingest_fqn] at hg; exact absurd rfl hg
    · exact hRs s e
  have hread : ReadFile filePath1 ((Read filePath lines).render d) =
      some (Read filePath1 (scanLines ((Read filePath lines).render d))) := by
    rw [hrender]
    exact ReadFile_join filePath1 _ (fun r hr => (hclean r hr).1) hshort
  refine ⟨?_, by rw [saveText_eq, render_eq_AllSections d _ hne]⟩
  rw [hread, Option.map_some', hflat]

theorem byteLen_append (a b : List Char) : byteLen (a ++ b) = byteLen a + byteLen b := by
  simp [byteLen]

theorem byteLen_replicate (n : Nat) : byteLen (List.replicate n 'b') = n := by
  induction n with
  | zero => rfl
  | succ n ih =>
      have h : byteLen (List.replicate (n + 1) 'b') = 1 + byteLen (List.replicate n 'b') := rfl
      rw [h, ih]
      omega

/-- A line that is read and is written two bytes longer, as a line too long for the
scanner of `Read`: the option `a` with a value of `n` letters `b`, read from the line
`a=b…b` of `n + 2` bytes, is written as `a = b…b`, and `Read` on the rendered text fails
when `n + 4` reaches `MaxScanTokenSize`. -/
theorem ReadFile_render_long_line (n : Nat) (hn : MaxScanTokenSize ≤ n + 4) :
    byteLen (String.mk ('a' :: '=' :: List.replicate n 'b')).data = n + 2 ∧
    (Read "config.ini" [String.mk ('a' :: '=' :: List.replicate n 'b')]).render
        Delimiter.EqualDelimiter =
      "a = " ++ String.mk (List.replicate n 'b') ++ CharEOF ∧
    ReadFile "config.ini"
      ((Read "config.ini" [String.mk ('a' :: '=' :: List.replicate n 'b')]).render
        Delimiter.EqualDelimiter) = none := by
  have hpos : 0 < n := by
    have : MaxScanTokenSize = 65536 := rfl
    omega
  have hmem : ∀ c ∈ List.replicate n 'b', c = 'b' := fun c hc => List.eq_of_mem_replicate hc
  have hV : strings.Trim (String.mk (List.replicate n 'b')) CharSpace =
      String.mk (List.replicate n 'b') := by
    apply Trim_of_trimmed
    · intro c hc hs
      have := hmem c (List.mem_of_mem_head? hc)
      rw [this] at hs
      exact absurd hs (by decide)
    · intro c hc hs
      have := hmem c (List.mem_of_getLast?_eq_some hc)
      rw [this] at hs
      exact absurd hs (by decide)
  have hp : parseOption (String.mk ('a' :: '=' :: List.replicate n 'b')) =
      ("a", String.mk (List.replicate n 'b')) := by
    have h := parseOption_of_equal (String.mk ('a' :: '=' :: List.replicate n 'b')) ['a']
      (List.replicate n 'b') rfl (by decide)
    rw [h, hV]
    rfl
  have hno : ∀ l ∈ [String.mk ('a' :: '=' :: List.replicate n 'b')], IsSection l = false := by
    intro l hl
    rw [List.mem_singleton] at hl
    subst hl
    rfl
  have hval : (ingest (globalSection, [String.mk ('a' :: '=' :: List.replicate n 'b')])).ValueOf
      "a" = String.mk (List.replicate n 'b') := by
    show (AddOption (NewSection globalSection) _).ValueOf "a" = _
    rw [AddOption_ValueOf, hp, if_pos rfl]
  have hne : String.mk (List.replicate n 'b') ≠ CharEmpty := by
    intro e
    have := congrArg (fun s => s.data.length) e
    simp [CharEmpty] at this
    omega
  have hline : optionLine Delimiter.EqualDelimiter "a" (String.mk (List.replicate n 'b')) =
      "a = " ++ String.mk (List.replicate n 'b') := by
    unfold optionLine
    rw [if_pos hne]
    rfl
  have hrender := render_of_no_header Delimiter.EqualDelimiter "config.ini"
    [String.mk ('a' :: '=' :: List.replicate n 'b')] hno
  simp only [List.map_cons, List.map_nil, hp, hval, hline] at hrender
  have hr1 : (Read "config.ini" [String.mk ('a' :: '=' :: List.replicate n 'b')]).render
      Delimiter.EqualDelimiter =
      String.join (["a = " ++ String.mk (List.replicate n 'b')].map (fun r => r ++ CharEOF)) :=
    hrender
  have hdata : ("a = " ++ String.mk (List.replicate n 'b')).data =
      ['a', ' ', '=', ' '] ++ List.replicate n 'b' := rfl
  refine ⟨?_, ?_, ?_⟩
  · show byteLen (['a', '='] ++ List.replicate n 'b') = n + 2
    rw [byteLen_append, byteLen_replicate]
    have : byteLen ['a', '='] = 2 := rfl
    omega
  · rw [hr1, List.map_cons, List.map_nil, join_cons, join_nil, String.append_empty]
  · unfold ReadFile
    rw [hr1, scan_join_too_long]
    · rfl
    · intro r hr
      rw [List.mem_singleton] at hr
      subst hr
      rw [hdata]
      intro hm
      rcases List.mem_append.mp hm with hm | hm
      · exact absurd hm (by decide)
      · exact absurd (hmem _ hm) (by decide)
    · refine ⟨_, List.mem_singleton.mpr rfl, ?_⟩
      rw [hdata, byteLen_append, byteLen_replicate]
      have h4 : byteLen ['a', ' ', '=', ' '] = 4 := rfl
      omega

/-- C11, counterexample. Four texts for which `Read` on the rendered text succeeds and
builds a store with another flattened sequence: the option ` [a] = 1`, whose name `[a]` is
written at the start of a line and read as a header; the option `a:b =`, written as the
line `a:b` and read as the option `a` with the value `b`; the option `a = b=c` written
with `ColonDelimiter` as `a : b=c` and read as the option `a : b`; and the header
`[global]`, whose section is written without header, so that its options fall to the
section before it.  And a text for which `Read` on the rendered text fails: the line
`a=b…b` of 65535 bytes is written as the line `a = b…b` of 65537 bytes, too long for the
scanner. -/
theorem round_trip_fails :
    (Read "config.ini" [" [a] = 1"]).flatten = [("global", ["[a]"], ["1"])] ∧
    (ReadFile "config.ini"
      ((Read "config.ini" [" [a] = 1"]).render Delimiter.EqualDelimiter)).map
        Configuration.flatten =
      some [("global", [], []), ("a] = 1", [], [])] ∧
    (Read "config.ini" ["a:b ="]).flatten = [("global", ["a:b"], [""])] ∧
    (ReadFile "config.ini"
      ((Read "config.ini" ["a:b ="]).render Delimiter.EqualDelimiter)).map
        Configuration.flatten =
      some [("global", ["a"], ["b"])] ∧
    (Read "config.ini" ["a = b=c"]).flatten = [("global", ["a"], ["b=c"])] ∧
    (ReadFile "config.ini"
      ((Read "config.ini" ["a = b=c"]).render Delimiter.ColonDelimiter)).map
        Configuration.flatten =
      some [("global", ["a : b"], ["c"])] ∧
    (Read "config.ini" ["[x]", "a", "[global]", "b"]).flatten =
      [("global", [], []), ("global", ["b"], [""]), ("x", ["a"], [""])] ∧
    (ReadFile "config.ini"
      ((Read "config.ini" ["[x]", "a", "[global]", "b"]).render
        Delimiter.EqualDelimiter)).map Configuration.flatten =
      some [("global", ["b"], [""]), ("x", ["a"], [""])] ∧
    byteLen (String.mk ('a' :: '=' :: List.replicate 65533 'b')).data = 65535 ∧
    ReadFile "config.ini"
      ((Read "config.ini" [String.mk ('a' :: '=' :: List.replicate 65533 'b')]).render
        Delimiter.EqualDelimiter) = none :=
  ⟨by decide, by decide, by decide, by decide, by decide, by decide, by decide, by decide,
   (ReadFile_render_long_line 65533 (by decide)).1,
   (ReadFile_render_long_line 65533 (by decide)).2.2⟩

/-- A text with options before the first header, a section that is opened twice, values
with `:` and a line without delimiter, written with `ColonDelimiter`. -/
theorem Read_render_round_trip_witness :
    (∀ l ∈ ["a = 1", "[x]", "b : 2", "c", "[y.z]", "k=v:w", "[x]", "d"],
      wellFormedLine Delimiter.ColonDelimiter l) ∧
    (ReadFile "copy.ini"
      ((Read "config.ini" ["a = 1", "[x]", "b : 2", "c", "[y.z]", "k=v:w", "[x]", "d"]).render
        Delimiter.ColonDelimiter)).map Configuration.flatten =
      some (Read "config.ini"
        ["a = 1", "[x]", "b : 2", "c", "[y.z]", "k=v:w", "[x]", "d"]).flatten :=
  ⟨by decide,
   (Read_render_round_trip Delimiter.ColonDelimiter "config.ini" "copy.ini"
     ["a = 1", "[x]", "b : 2", "c", "[y.z]", "k=v:w", "[x]", "d"] (by decide)).1⟩

end Parser
